import Mathlib

/-!
A shallow embedding of the `merkle_bit` binary Merkle Patricia trie
(`src/merkle_bit.rs` together with the example backend `src/tree.rs`).

Keys and hash digests are byte lists (`List Nat`, entries < 256 where it
matters).  The key length `KEY_LEN` and the hasher are parameters of the
embedding (the crate's `constants.rs` and the `Hasher` trait are not part of
the sources; the hasher is modelled as a function from the concatenated
`update` inputs to the digest, as the spec's Hasher interface describes).

The store is modelled after `HashDB` in `src/tree.rs`: a committed map plus a
list of pending inserts; `get_node` reads only the committed map, `insert`
appends to the pending list, `remove` deletes from the committed map at once,
and `batch_write` flushes the pending list in FIFO order.
-/

namespace MerkleBit

abbrev Digest := List Nat
abbrev Key := List Nat

/-- `TreeBranch` from `src/tree.rs`: count, zero child, one child, split
index and witness key. -/
structure TreeBranch where
  count : Nat
  zero : Digest
  one : Digest
  split_index : Nat
  key : Key
deriving DecidableEq, Repr

/-- `TreeLeaf` from `src/tree.rs`: key and the location of the data node. -/
structure TreeLeaf where
  key : Key
  data : Digest
deriving DecidableEq, Repr

/-- `TreeData` from `src/tree.rs`: the encoded value bytes. -/
structure TreeData where
  value : List Nat
deriving DecidableEq, Repr

/-- `NodeVariant` from `src/merkle_bit.rs`. -/
inductive NodeVariant where
  | branch (b : TreeBranch)
  | leaf (l : TreeLeaf)
  | data (d : TreeData)
deriving DecidableEq, Repr

/-- `TreeNode` from `src/tree.rs`: a reference count together with the
variant.  (The `Option` around the variant in `tree.rs` is only `None` for a
freshly constructed node that the core never stores; every node the core
writes carries a variant, so the model keeps the variant directly.) -/
structure TreeNode where
  references : Nat
  variant : NodeVariant
deriving DecidableEq, Repr

/-- `TreeRef` (`utils/tree_ref.rs`, not under `src/`).  Modelled from the
spec: `{ key, location, node_count, count }`, the ephemeral build-time handle
ordered by its witness key. -/
structure TreeRef where
  key : Key
  location : Digest
  node_count : Nat
  count : Nat
deriving DecidableEq, Repr

instance : Inhabited TreeRef := ⟨⟨[], [], 0, 0⟩⟩

/-- The work item of the traversal queues (`utils/tree_cell.rs`, not under
`src/`).  Modelled from the spec: a node location, the key slice routed to
it, the loaded node, and the depth. -/
structure TreeCell where
  location : Digest
  keys : List Key
  node : TreeNode
  depth : Nat
deriving DecidableEq, Repr

/-- The distinct error returns of `merkle_bit.rs`, one constructor per
`Exception` message (plus `codec` for value-decoding failures propagated from
the codec, and `fuel`, an artifact of the fueled loops below that is proved
unreachable wherever a claim needs it). -/
inductive MBErr where
  /-- "Keys and values have different lengths" -/
  | lengthMismatch
  /-- "Keys or values are empty" -/
  | emptyBatch
  /-- "Depth of merkle tree exceeded" -/
  | depthExceeded
  /-- "Corrupt merkle tree" -/
  | corrupt
  /-- "Could not find root" -/
  | rootNotFound
  /-- "Attempted to insert item with duplicate keys" -/
  | duplicateKey
  /-- "Failed to build tree" -/
  | buildFailed
  /-- a value failed to decode -/
  | codec
  /-- artifact of the fuel-based loop encoding; unreachable with the fuel the
  wrappers supply -/
  | fuel
deriving DecidableEq, Repr

/-- The parameters the generic `MerkleBIT` is instantiated with: the key
length (`constants::KEY_LEN`), the maximum traversal depth (`self.depth`),
the hasher (as a function of the concatenation of all `update` inputs) and
the value codec. -/
structure Ctx (V : Type) where
  keyLen : Nat
  depth : Nat
  H : List Nat → Digest
  enc : V → List Nat
  dec : List Nat → Option V

/-! ## Association-list maps (the model of `HashMap` / the `HashDB` map) -/

/-- Insert semantics of a hash map: replace the entry if the key is present,
otherwise append it. -/
def mapPut {α : Type} [DecidableEq α] {β : Type} :
    List (α × β) → α → β → List (α × β)
  | [], k, v => [(k, v)]
  | (k', v') :: rest, k, v =>
      if k' = k then (k, v) :: rest else (k', v') :: mapPut rest k v

/-- Lookup in an association list (first match). -/
def mapGet {α : Type} [DecidableEq α] {β : Type} :
    List (α × β) → α → Option β
  | [], _ => none
  | (k', v') :: rest, k => if k' = k then some v' else mapGet rest k

/-- Removal semantics of a hash map: drop every entry with the key. -/
def mapDel {α : Type} [DecidableEq α] {β : Type}
    (m : List (α × β)) (k : α) : List (α × β) :=
  m.filter (fun p => ¬ p.1 = k)

/-! ## The store (`HashDB` from `src/tree.rs`) -/

/-- `HashDB`: a committed map plus the pending-insert buffer. -/
structure DB where
  map : List (Digest × TreeNode)
  pending : List (Digest × TreeNode)
deriving DecidableEq, Repr

/-- `HashDB::get_node`: reads only the committed map. -/
def DB.get_node (db : DB) (k : Digest) : Option TreeNode :=
  mapGet db.map k

/-- `HashDB::insert`: buffers the write. -/
def DB.insert (db : DB) (k : Digest) (v : TreeNode) : DB :=
  { db with pending := db.pending ++ [(k, v)] }

/-- `HashDB::remove`: immediate removal from the committed map. -/
def DB.removeNode (db : DB) (k : Digest) : DB :=
  { db with map := mapDel db.map k }

/-- `HashDB::batch_write`: flush the pending inserts in FIFO order. -/
def DB.batch_write (db : DB) : DB :=
  { map := db.pending.foldl (fun m p => mapPut m p.1 p.2) db.map, pending := [] }

/-- The contents of the store once the pending buffer is flushed: what a
reader sees after the `batch_write` that ends a successful `insert`. -/
def DB.view (db : DB) : Digest → Option TreeNode :=
  fun k => mapGet (db.pending.foldl (fun m p => mapPut m p.1 p.2) db.map) k

/-! ## Bit utilities (`utils/tree_utils.rs`, not under `src/`) -/

/-- `choose_zero` — modelled from the spec:
`choose_zero(k, b) = (k[b/8] >> (7 - b%8)) & 1 == 0`, confirmed by the
`it_chooses_the_right_branch_*` tests in `merkle_bit.rs`. -/
def chooseZero (key : Key) (bit : Nat) : Bool :=
  (key.getD (bit / 8) 0 >>> (7 - bit % 8)) &&& 1 = 0

/-- `fast_log_2` — modelled from the spec: the position of the high-order set
bit, i.e. `⌊log₂ x⌋`. -/
def fastLog2 (x : Nat) : Nat := Nat.log2 x

/-- `first_diff_bit` — modelled from the spec: the smallest bit index at
which two keys differ, or `8 * keyLen` when they are identical through the
key length ("identical"). -/
def firstDiffBitGo (keyLen : Nat) (a b : Key) : Nat → Nat → Nat
  | 0, _ => 8 * keyLen
  | rem + 1, j =>
      if a.getD j 0 = b.getD j 0 then firstDiffBitGo keyLen a b rem (j + 1)
      else 8 * j + (7 - fastLog2 (a.getD j 0 ^^^ b.getD j 0))

/-- `first_diff_bit`: byte-wise scan followed by `fast_log_2` of the XOR of
the first differing byte. -/
def firstDiffBit (keyLen : Nat) (a b : Key) : Nat :=
  firstDiffBitGo keyLen a b keyLen 0

/-- `calc_min_split_index` — modelled from the spec: the minimum over the
keys of `first_diff_bit(key, branch_key)`. -/
def calcMinSplitIndex (keyLen : Nat) (keys : List Key) (branchKey : Key) : Nat :=
  keys.foldl (fun m k => min m (firstDiffBit keyLen k branchKey)) (8 * keyLen)

/-- `check_descendants` — modelled from the spec: the sub-slice of `keys`
whose first-differing-bit against `branch_key` is ≥ `branch_split` (the
`min_split` argument is the fast-path hint; for its actual value the scan is
equivalent to this filter, and on sorted inputs the result is contiguous). -/
def checkDescendants (keyLen : Nat) (keys : List Key) (branchSplit : Nat)
    (branchKey : Key) (_minSplit : Nat) : List Key :=
  keys.filter (fun k => branchSplit ≤ firstDiffBit keyLen k branchKey)

/-- `split_pairs` — modelled from the spec: the zero keys form the contiguous
prefix of the sorted slice, the one keys the contiguous suffix. -/
def splitPairs (keys : List Key) (bit : Nat) : List Key × List Key :=
  (keys.takeWhile (fun k => chooseZero k bit),
   keys.dropWhile (fun k => chooseZero k bit))

/-! ## Sorting (Rust's lexicographic `Ord` on byte arrays, `slice::sort`) -/

/-- Lexicographic `≤` on byte lists: the order `[u8; KEY_LEN]` is sorted by. -/
def keyLe : List Nat → List Nat → Bool
  | [], _ => true
  | _ :: _, [] => false
  | a :: as, b :: bs => if a < b then true else if b < a then false else keyLe as bs

/-- Stable insertion used by the sorting model. -/
def insortBy {α : Type} (le : α → α → Bool) (x : α) : List α → List α
  | [] => [x]
  | y :: ys => if le x y then x :: y :: ys else y :: insortBy le x ys

/-- A stable sort (insertion sort) modelling `slice::sort`. -/
def sortBy {α : Type} (le : α → α → Bool) (l : List α) : List α :=
  l.foldr (insortBy le) []

/-- `keys.sort()` on `&[u8; KEY_LEN]`. -/
def sortKeys (l : List Key) : List Key := sortBy keyLe l

/-- `tree_refs.sort()`: TreeRefs are ordered by their witness key. -/
def sortRefs (l : List TreeRef) : List TreeRef :=
  sortBy (fun a b => keyLe a.key b.key) l

/-! ## Hash preimages (domain separation; `b"d"`, `b"l"`, `b"b"`) -/

/-- The location of a Data node: `H('d' ‖ key ‖ value)` (`'d'` = 100). -/
def dataHash {V : Type} (C : Ctx V) (key : Key) (value : List Nat) : Digest :=
  C.H (100 :: (key ++ value))

/-- The location of a Leaf node: `H('l' ‖ key ‖ data_location)` (`'l'` = 108). -/
def leafHash {V : Type} (C : Ctx V) (key : Key) (dataLoc : Digest) : Digest :=
  C.H (108 :: (key ++ dataLoc))

/-- The location of a Branch node: `H('b' ‖ zero ‖ one)` (`'b'` = 98). -/
def branchHash {V : Type} (C : Ctx V) (zero one : Digest) : Digest :=
  C.H (98 :: (zero ++ one))

/-! ## `MerkleBIT::get` (`src/merkle_bit.rs`, lines 98–196)

The `VecDeque` is used with `push_front`/`pop_front`, i.e. as a stack; the
loop is encoded with explicit fuel (the measure `Σ 3^(depth+1-cell.depth)`
strictly decreases each iteration, so the fuel the wrapper supplies never
runs out; `MBErr.fuel` marks the impossible branch). -/

variable {V : Type}

/-- `generate_leaf_map` — modelled from the spec: the map sending every
requested key to `None`. -/
def generateLeafMap (keys : List Key) : List (Key × Option V) :=
  keys.foldl (fun m k => mapPut m k none) []

/-- The body of `get`'s descent loop. -/
def getLoop (C : Ctx V) (db : DB) (sortedKeys : List Key) :
    Nat → List TreeCell → List (Key × Option V) →
    Except MBErr (List (Key × Option V))
  | 0, _, _ => .error .fuel
  | _ + 1, [], lm => .ok lm
  | fuel + 1, cell :: cells, lm =>
    if cell.depth > C.depth then .error .depthExceeded
    else
      match cell.node.variant with
      | .branch b =>
        let minSplit := calcMinSplitIndex C.keyLen cell.keys b.key
        let descendants :=
          checkDescendants C.keyLen cell.keys b.split_index b.key minSplit
        if descendants = [] then getLoop C db sortedKeys fuel cells lm
        else
          let zo := splitPairs descendants b.split_index
          let cells1 :=
            match db.get_node b.one with
            | some oneNode =>
                if zo.2 = [] then cells
                else ⟨b.one, zo.2, oneNode, cell.depth + 1⟩ :: cells
            | none => cells
          let cells2 :=
            match db.get_node b.zero with
            | some zeroNode =>
                if zo.1 = [] then cells1
                else ⟨b.zero, zo.1, zeroNode, cell.depth + 1⟩ :: cells1
            | none => cells1
          getLoop C db sortedKeys fuel cells2 lm
      | .leaf l =>
        match db.get_node l.data with
        | some dn =>
          match dn.variant with
          | .data d =>
            match C.dec d.value with
            | some v =>
              let lm' :=
                if sortedKeys.contains l.key then mapPut lm l.key (some v) else lm
              getLoop C db sortedKeys fuel cells lm'
            | none => .error .codec
          | _ => .error .corrupt
        | none => .error .corrupt
      | .data _ => .error .corrupt

/-- Fuel that always suffices for the descent loops: the initial measure
`3^(depth+1)` bounds the number of iterations. -/
def descentFuel (C : Ctx V) : Nat := 3 ^ (C.depth + 1) + 1

/-- `MerkleBIT::get`: resolve a batch of keys against a root, returning the
map from each requested key to its optional value. -/
def get (C : Ctx V) (db : DB) (rootHash : Digest) (keys0 : List Key) :
    Except MBErr (List (Key × Option V)) :=
  if keys0 = [] then .ok []
  else
    let lm : List (Key × Option V) := generateLeafMap keys0
    let keys := sortKeys keys0
    match db.get_node rootHash with
    | none => .ok lm
    | some rootNode =>
        getLoop C db keys (descentFuel C) [⟨rootHash, keys, rootNode, 0⟩] lm

/-! ## `MerkleBIT::insert_leaves` (`src/merkle_bit.rs`, lines 421–472) -/

/-- One iteration of `insert_leaves`: build the Data and Leaf node for a key,
bump their reference counts when the committed store already holds them, and
buffer both writes. -/
def insertLeaves (C : Ctx V) (vm : List (Key × V)) :
    DB → List Key → List Digest × DB
  | db, [] => ([], db)
  | db, key :: rest =>
    let value := match mapGet vm key with
      | some v => C.enc v
      | none => []          -- `values[key]` cannot miss: `vm` covers the batch
    let dloc := dataHash C key value
    let lloc := leafHash C key dloc
    let dRefs := match db.get_node dloc with
      | some n => n.references + 1
      | none => 1
    let lRefs := match db.get_node lloc with
      | some n => n.references + 1
      | none => 1
    let db' := (db.insert dloc ⟨dRefs, .data ⟨value⟩⟩).insert lloc
        ⟨lRefs, .leaf ⟨key, dloc⟩⟩
    let p := insertLeaves C vm db' rest
    (lloc :: p.1, p.2)

/-! ## `MerkleBIT::generate_treerefs` (`src/merkle_bit.rs`, lines 242–419) -/

/-- The shared shape of the two child-handling blocks in
`generate_treerefs`: if the child is absent from the store nothing happens;
if its key slice is non-empty a new cell is pushed to the front of the queue;
otherwise the child is promoted: its reference count is bumped and it is
emitted as a `TreeRef` carrying its own witness key and count. -/
def genSide (db : DB) (acc : List TreeRef) (cells : List TreeCell)
    (sideLoc : Digest) (sideKeys : List Key) (depth : Nat) :
    Except MBErr (DB × List TreeRef × List TreeCell) :=
  match db.get_node sideLoc with
  | none => .ok (db, acc, cells)
  | some sideNode =>
    if sideKeys ≠ [] then
      .ok (db, acc, ⟨sideLoc, sideKeys, sideNode, depth + 1⟩ :: cells)
    else
      match sideNode.variant with
      | .branch b =>
          .ok (db.insert sideLoc ⟨sideNode.references + 1, .branch b⟩,
               acc ++ [⟨b.key, sideLoc, b.count, 1⟩], cells)
      | .leaf l =>
          .ok (db.insert sideLoc ⟨sideNode.references + 1, .leaf l⟩,
               acc ++ [⟨l.key, sideLoc, 1, 1⟩], cells)
      | .data _ => .error .corrupt

/-- The frontier-collection loop of `generate_treerefs` (fueled like
`getLoop`).  The store is threaded through and returned also on the error
paths (the Rust code mutates `self.db` in place, so the buffered writes made
before an error persist). -/
def genLoop (C : Ctx V) (keyMap : List (Key × Digest)) :
    DB → Nat → List TreeCell → List TreeRef →
    DB × Except MBErr (List TreeRef)
  | db, 0, _, _ => (db, .error .fuel)
  | db, _ + 1, [], acc => (db, .ok acc)
  | db, fuel + 1, cell :: cells, acc =>
    if cell.depth > C.depth then (db, .error .depthExceeded)
    else
      match cell.node.variant with
      | .leaf l =>
        match mapGet keyMap l.key with
        | some loc =>
          if loc = cell.location then
            -- pure update: bump the stored leaf's references, emit nothing
            match db.get_node cell.location with
            | some n =>
                genLoop C keyMap
                  (db.insert cell.location ⟨n.references + 1, n.variant⟩)
                  fuel cells acc
            | none => (db, .error .corrupt)
          else
            -- the key is being rebound at a new location: skip the old leaf
            genLoop C keyMap db fuel cells acc
        | none =>
          -- key not in the batch: bump references and emit the leaf
          match db.get_node cell.location with
          | some n =>
              genLoop C keyMap
                (db.insert cell.location ⟨n.references + 1, n.variant⟩)
                fuel cells (acc ++ [⟨l.key, cell.location, 1, 1⟩])
          | none => (db, .error .corrupt)
      | .data _ => (db, .error .corrupt)
      | .branch b =>
        let minSplit := calcMinSplitIndex C.keyLen cell.keys b.key
        if minSplit < b.split_index then
          let descendants :=
            checkDescendants C.keyLen cell.keys b.split_index b.key minSplit
          if descendants = [] then
            -- untouched subtree: re-insert the branch with refs+1, emit it
            genLoop C keyMap
              (db.insert cell.location ⟨cell.node.references + 1, .branch b⟩)
              fuel cells (acc ++ [⟨b.key, cell.location, b.count, 1⟩])
          else
            let zo := splitPairs descendants b.split_index
            match genSide db acc cells b.one zo.2 cell.depth with
            | .error e => (db, .error e)
            | .ok (db1, acc1, cells1) =>
              match genSide db1 acc1 cells1 b.zero zo.1 cell.depth with
              | .error e => (db1, .error e)
              | .ok (db2, acc2, cells2) => genLoop C keyMap db2 fuel cells2 acc2
        else
          let zo := splitPairs cell.keys b.split_index
          match genSide db acc cells b.one zo.2 cell.depth with
          | .error e => (db, .error e)
          | .ok (db1, acc1, cells1) =>
            match genSide db1 acc1 cells1 b.zero zo.1 cell.depth with
            | .error e => (db1, .error e)
            | .ok (db2, acc2, cells2) => genLoop C keyMap db2 fuel cells2 acc2

/-- `generate_treerefs`: load the previous root (else "Could not find root")
and run the frontier collection from it. -/
def generateTreerefs (C : Ctx V) (db : DB) (root : Digest)
    (sortedKeys : List Key) (keyMap : List (Key × Digest)) :
    DB × Except MBErr (List TreeRef) :=
  match db.get_node root with
  | none => (db, .error .rootNotFound)
  | some rootNode =>
      genLoop C keyMap db (descentFuel C) [⟨root, sortedKeys, rootNode, 0⟩] []

/-! ## `MerkleBIT::generate_tree_ref_queue` (`src/merkle_bit.rs`, 629–662) -/

/-- The inner byte scan of `generate_tree_ref_queue` for one adjacent pair:
walk the bytes; identical keys through `KEY_LEN` fail with the duplicate-key
error; at the first differing byte the split bit is
`8*j + (7 - fast_log_2(xor))`.  (`none` is the fall-through of a zero-length
key, where the loop body never runs.) -/
def refSplitGo (keyLen : Nat) (a b : Key) : Nat → Nat → Except MBErr (Option Nat)
  | 0, _ => .ok none
  | rem + 1, j =>
    if a.getD j 0 = b.getD j 0 then
      if j = keyLen - 1 then .error .duplicateKey
      else refSplitGo keyLen a b rem (j + 1)
    else .ok (some (8 * j + (7 - fastLog2 (a.getD j 0 ^^^ b.getD j 0))))

/-- The split bit of one adjacent pair of tree refs. -/
def refSplit (keyLen : Nat) (a b : Key) : Except MBErr (Option Nat) :=
  refSplitGo keyLen a b keyLen 0

/-- The queue-building loop: for `i` in `0..len-1`, the split bit of the keys
at `i` and `i+1`, paired with `i`. -/
def buildQueueGo (keyLen : Nat) (A : Array TreeRef) :
    Nat → Nat → Except MBErr (List (Nat × Nat))
  | 0, _ => .ok []
  | rem + 1, i =>
    match refSplit keyLen (A.getD i default).key (A.getD (i + 1) default).key with
    | .error e => .error e
    | .ok none => buildQueueGo keyLen A rem (i + 1)
    | .ok (some s) =>
      match buildQueueGo keyLen A rem (i + 1) with
      | .error e => .error e
      | .ok q => .ok ((s, i) :: q)

/-- Pop order of the `BinaryHeap<(u8, *mut TreeRef, *mut TreeRef, isize)>`:
maximum split bit first; on equal split bits the larger raw pointer — i.e.
the larger index — first. -/
def queueGe (x y : Nat × Nat) : Bool :=
  if x.1 = y.1 then y.2 ≤ x.2 else y.1 ≤ x.1

/-- The queue in pop order (descending `(split, index)`). -/
def sortQueue (q : List (Nat × Nat)) : List (Nat × Nat) := sortBy queueGe q

/-! ## `MerkleBIT::create_tree` (`src/merkle_bit.rs`, lines 539–627) -/

/-- The lookahead walk of the merge loop: starting from count `cnt` read the
slot at `i + cnt`; while the count there keeps growing, jump again.  The fuel
(`A.size + 1` at the call site) is an artifact: the count strictly grows each
step, so the walk ends within the array in every reachable state. -/
def lookaheadGo (A : Array TreeRef) (i : Nat) : Nat → Nat → Nat
  | 0, cnt => i + cnt
  | fuel + 1, cnt =>
    let p := i + cnt
    let c' := (A.getD p default).count
    if c' > cnt then lookaheadGo A i fuel c' else p

/-- Find the rightmost edge of the adjacent subtree: the slot index of the
true right partner of the merge at left index `i`. -/
def lookaheadIndex (A : Array TreeRef) (i : Nat) : Nat :=
  let c0 := (A.getD (i + 1) default).count
  if c0 > 1 then lookaheadGo A i (A.size + 1) c0 else i + 1

/-- One iteration of the merge loop: build the branch joining the subtree at
slot `i` with the subtree ending at the lookahead slot, buffer it with
`refs = 1`, and overwrite both the lookahead slot and slot `i` with the
merged `TreeRef`.  When the queue empties, `batch_write` and return the last
branch location. -/
def mergeLoop (C : Ctx V) :
    DB → Array TreeRef → List (Nat × Nat) → DB × Except MBErr Digest
  | db, _, [] => (db, .error .buildFailed)
  | db, A, (s, i) :: rest =>
    let leftRef := A.getD i default
    let p := lookaheadIndex A i
    let rightRef := A.getD p default
    let bloc := branchHash C leftRef.location rightRef.location
    let nodeCount := leftRef.node_count + rightRef.node_count
    let br : TreeBranch :=
      ⟨nodeCount, leftRef.location, rightRef.location, s, leftRef.key⟩
    let db' := db.insert bloc ⟨1, .branch br⟩
    let newRef : TreeRef :=
      ⟨leftRef.key, bloc, nodeCount, rightRef.count + leftRef.count⟩
    let A' := (A.setD p newRef).setD i newRef
    if rest = [] then (db'.batch_write, .ok bloc)
    else mergeLoop C db' A' rest

/-- `create_tree`: a single tree ref is the root as it stands; otherwise sort
the refs by key, build the split-bit queue and run the merge loop in pop
order.  (The source `assert!`s non-emptiness; the empty case, unreachable
from `insert`, is mapped to the function's failure return.) -/
def createTree (C : Ctx V) (db : DB) (treeRefs : List TreeRef) :
    DB × Except MBErr Digest :=
  match treeRefs with
  | [] => (db, .error .buildFailed)
  | [r] => (db.batch_write, .ok r.location)
  | _ =>
    let sorted := sortRefs treeRefs
    let A := sorted.toArray
    match buildQueueGo C.keyLen A (A.size - 1) 0 with
    | .error e => (db, .error e)
    | .ok q => mergeLoop C db A (sortQueue q)

/-! ## `MerkleBIT::insert` (`src/merkle_bit.rs`, lines 199–240) -/

/-- `MerkleBIT::insert`: validate the batch, sort the keys, materialize the
leaves, collect the frontier of the previous tree when a previous root is
given, and merge everything into the new root. -/
def insert (C : Ctx V) (db : DB) (previousRoot : Option Digest)
    (keys : List Key) (values : List V) : DB × Except MBErr Digest :=
  if keys.length ≠ values.length then (db, .error .lengthMismatch)
  else if keys.isEmpty || values.isEmpty then (db, .error .emptyBatch)
  else
    let valueMap := (keys.zip values).foldl (fun m p => mapPut m p.1 p.2) []
    let skeys := sortKeys keys
    let ld := insertLeaves C valueMap db skeys
    let treeRefs := List.zipWith (fun loc k => TreeRef.mk k loc 1 1) ld.1 skeys
    let keyMap := (skeys.zip ld.1).foldl (fun m p => mapPut m p.1 p.2) []
    match previousRoot with
    | none => createTree C ld.2 treeRefs
    | some root =>
      match generateTreerefs C ld.2 root skeys keyMap with
      | (db2, .error e) => (db2, .error e)
      | (db2, .ok proofNodes) => createTree C db2 (treeRefs ++ proofNodes)

/-! ## `MerkleBIT::remove` (`src/merkle_bit.rs`, lines 664–724) -/

/-- The child locations a deleted node enqueues: both branch children, a
leaf's data hash, nothing for a data node. -/
def childLocs (n : TreeNode) : List Digest :=
  match n.variant with
  | .branch b => [b.zero, b.one]
  | .leaf l => [l.data]
  | .data _ => []

/-- One iteration of `remove`'s loop on a popped location: skip absent
nodes; decrement the reference count saturating at zero; at zero delete the
node and enqueue its children, otherwise buffer the node back with the
decremented count and enqueue nothing. -/
def removeStep (db : DB) (loc : Digest) : DB × List Digest :=
  match db.get_node loc with
  | none => (db, [])
  | some n =>
    let refs := if n.references > 0 then n.references - 1 else n.references
    if refs = 0 then (db.removeNode loc, childLocs n)
    else (db.insert loc ⟨refs, n.variant⟩, [])

/-- The FIFO deletion loop of `remove` (children are pushed to the back).
The fuel is an artifact: `2*|map| + |queue|` strictly decreases each
iteration, so the initial fuel `2*|map| + |queue| + 1` always suffices. -/
def removeLoop : DB → Nat → List Digest → DB × Except MBErr Unit
  | db, 0, _ => (db, .error .fuel)
  | db, _ + 1, [] => (db, .ok ())
  | db, fuel + 1, loc :: rest =>
    let st := removeStep db loc
    removeLoop st.1 fuel (rest ++ st.2)

/-- `MerkleBIT::remove`: seed the queue with the root.  (The source's "Empty
node queue" error is dead code: the pop is guarded by the loop condition.) -/
def remove (db : DB) (rootHash : Digest) : DB × Except MBErr Unit :=
  removeLoop db (2 * db.map.length + 2) [rootHash]

/-! ## Concrete instances for concrete runs -/

/-- An injective code of byte streams into `Nat`, used to instantiate the
abstract hasher in concrete runs (distinct inputs then give distinct
digests, which a collision-free hash provides on the inputs of a run). -/
def natListCode : List Nat → Nat
  | [] => 0
  | a :: r => Nat.pair a (natListCode r) + 1

theorem natListCode_injective : Function.Injective natListCode := by
  intro a
  induction a with
  | nil =>
      intro b h
      cases b with
      | nil => rfl
      | cons x r => simp [natListCode] at h
  | cons x r ih =>
      intro b h
      cases b with
      | nil => simp [natListCode] at h
      | cons y s =>
          simp only [natListCode, Nat.add_right_cancel_iff] at h
          have h2 := Nat.pair_eq_pair.mp h
          rw [h2.1, ih h2.2.symm.symm]

/-- A concrete context with one-byte keys: the hasher is the injective code
above (a one-element digest, so the digest length equals the key length). -/
def CtxB : Ctx (List Nat) :=
  { keyLen := 1, depth := 8, H := fun l => [natListCode l], enc := id,
    dec := some }

/-- The empty store. -/
def dbEmpty : DB := ⟨[], []⟩

deriving instance DecidableEq for Except

/-! ## Lemmas about the sorting model -/

/-- Sortedness for a boolean comparator. -/
def SortedBy {α : Type} (le : α → α → Bool) (l : List α) : Prop :=
  l.Pairwise (fun a b => le a b = true)

theorem insortBy_perm {α : Type} (le : α → α → Bool) (x : α) (l : List α) :
    (insortBy le x l).Perm (x :: l) := by
  induction l with
  | nil => exact List.Perm.refl _
  | cons y ys ih =>
      by_cases h : le x y
      · simp [insortBy, h]
      · simp only [insortBy, h, if_false, Bool.false_eq_true]
        exact (ih.cons y).trans (List.Perm.swap x y ys)

theorem sortBy_perm {α : Type} (le : α → α → Bool) (l : List α) :
    (sortBy le l).Perm l := by
  induction l with
  | nil => exact List.Perm.refl _
  | cons x xs ih => exact (insortBy_perm le x (sortBy le xs)).trans (ih.cons x)

theorem mem_insortBy {α : Type} (le : α → α → Bool) (x a : α) (l : List α) :
    a ∈ insortBy le x l ↔ a = x ∨ a ∈ l := by
  rw [(insortBy_perm le x l).mem_iff]
  simp

theorem insortBy_sorted {α : Type} (le : α → α → Bool)
    (htot : ∀ a b, le a b = true ∨ le b a = true)
    (htrans : ∀ a b c, le a b = true → le b c = true → le a c = true)
    (x : α) (l : List α) (h : SortedBy le l) : SortedBy le (insortBy le x l) := by
  induction l with
  | nil => simp [insortBy, SortedBy]
  | cons y ys ih =>
      by_cases hxy : le x y
      · simp only [insortBy, hxy, if_true]
        refine List.Pairwise.cons ?_ h
        intro b hb
        rcases List.mem_cons.mp hb with hb | hb
        · subst hb; exact hxy
        · exact htrans x y b hxy ((List.pairwise_cons.mp h).1 b hb)
      · simp only [insortBy, hxy, if_false, Bool.false_eq_true]
        have hyx : le y x = true := by
          rcases htot x y with h' | h'
          · exact absurd h' hxy
          · exact h'
        refine List.Pairwise.cons ?_ (ih (List.pairwise_cons.mp h).2)
        intro b hb
        rcases (mem_insortBy le x b ys).mp hb with hb | hb
        · subst hb; exact hyx
        · exact (List.pairwise_cons.mp h).1 b hb

theorem sortBy_sorted {α : Type} (le : α → α → Bool)
    (htot : ∀ a b, le a b = true ∨ le b a = true)
    (htrans : ∀ a b c, le a b = true → le b c = true → le a c = true)
    (l : List α) : SortedBy le (sortBy le l) := by
  induction l with
  | nil => simp [sortBy, SortedBy]
  | cons x xs ih => exact insortBy_sorted le htot htrans x (sortBy le xs) ih

theorem sortBy_eq_self {α : Type} (le : α → α → Bool) (l : List α)
    (h : SortedBy le l) : sortBy le l = l := by
  induction l with
  | nil => rfl
  | cons x xs ih =>
      have h' := List.pairwise_cons.mp h
      show insortBy le x (sortBy le xs) = x :: xs
      rw [ih h'.2]
      cases xs with
      | nil => rfl
      | cons y ys => simp [insortBy, h'.1 y (by simp)]

theorem keyLe_total (a b : List Nat) : keyLe a b = true ∨ keyLe b a = true := by
  induction a generalizing b with
  | nil => left; rfl
  | cons x xs ih =>
      cases b with
      | nil => right; rfl
      | cons y ys =>
          rcases Nat.lt_trichotomy x y with h | h | h
          · left; simp [keyLe, h]
          · subst h
            rcases ih ys with h' | h'
            · left; simp [keyLe, h']
            · right; simp [keyLe, h']
          · right; simp [keyLe, h]

theorem keyLe_trans (a b c : List Nat) (hab : keyLe a b = true)
    (hbc : keyLe b c = true) : keyLe a c = true := by
  induction a generalizing b c with
  | nil => rfl
  | cons x xs ih =>
      cases b with
      | nil => simp [keyLe] at hab
      | cons y ys =>
          cases c with
          | nil => simp [keyLe] at hbc
          | cons z zs =>
              simp only [keyLe] at hab hbc ⊢
              rcases Nat.lt_trichotomy x y with h1 | h1 | h1
              · rcases Nat.lt_trichotomy y z with h2 | h2 | h2
                · simp [Nat.lt_trans h1 h2]
                · subst h2; simp [h1]
                · rw [if_neg (by omega), if_pos h2] at hbc
                  exact absurd hbc (by simp)
              · subst h1
                rcases Nat.lt_trichotomy x z with h2 | h2 | h2
                · simp [h2]
                · subst h2
                  simp only [Nat.lt_irrefl, if_false] at hab hbc ⊢
                  exact ih ys zs hab hbc
                · rw [if_neg (by omega), if_pos h2] at hbc
                  exact absurd hbc (by simp)
              · rw [if_neg (by omega), if_pos h1] at hab
                exact absurd hab (by simp)

theorem keyLe_antisymm (a b : List Nat) (hlen : a.length = b.length)
    (hab : keyLe a b = true) (hba : keyLe b a = true) : a = b := by
  induction a generalizing b with
  | nil =>
      cases b with
      | nil => rfl
      | cons y ys => simp at hlen
  | cons x xs ih =>
      cases b with
      | nil => simp at hlen
      | cons y ys =>
          simp only [keyLe] at hab hba
          rcases Nat.lt_trichotomy x y with h | h | h
          · rw [if_neg (by omega), if_pos h] at hba
            exact absurd hba (by simp)
          · subst h
            simp only [Nat.lt_irrefl, if_false] at hab hba
            rw [ih ys (by simpa using hlen) hab hba]
          · rw [if_neg (by omega), if_pos h] at hab
            exact absurd hab (by simp)

theorem sortKeys_perm (l : List Key) : (sortKeys l).Perm l := sortBy_perm _ l

theorem sortKeys_sorted (l : List Key) : SortedBy keyLe (sortKeys l) :=
  sortBy_sorted keyLe keyLe_total keyLe_trans l

/-- In a sorted list of equal-length keys that is not duplicate-free, some
duplicate is adjacent. -/
theorem sorted_dup_adjacent (K : Nat) (l : List Key)
    (hs : SortedBy keyLe l) (hlen : ∀ k ∈ l, k.length = K)
    (hdup : ¬ l.Nodup) : ∃ l₁ a l₂, l = l₁ ++ a :: a :: l₂ := by
  induction l with
  | nil => exact absurd List.nodup_nil hdup
  | cons x xs ih =>
      by_cases hx : x ∈ xs
      · cases xs with
        | nil => simp at hx
        | cons y ys =>
            have hxy : keyLe x y = true :=
              (List.pairwise_cons.mp hs).1 y (by simp)
            have hyx : x = y := by
              rcases List.mem_cons.mp hx with hx | hx
              · exact hx
              · have hyx' : keyLe y x = true :=
                  (List.pairwise_cons.mp (List.pairwise_cons.mp hs).2).1 x hx
                exact keyLe_antisymm x y
                  (by rw [hlen x (by simp), hlen y (by simp)]) hxy hyx'
            exact ⟨[], x, ys, by rw [← hyx]; rfl⟩
      · have hdup' : ¬ xs.Nodup := by
          intro hn
          exact hdup (List.nodup_cons.mpr ⟨hx, hn⟩)
        obtain ⟨l₁, a, l₂, heq⟩ := ih (List.pairwise_cons.mp hs).2
          (fun k hk => hlen k (by simp [hk])) hdup'
        exact ⟨x :: l₁, a, l₂, by rw [heq]; rfl⟩

/-! ## Bit-level semantics of keys -/

/-- A proper key: exactly `KEY_LEN` bytes. -/
def ValidKey (K : Nat) (k : Key) : Prop := k.length = K ∧ ∀ x ∈ k, x < 256

theorem validKey_getD_lt (K : Nat) (k : Key) (hk : ValidKey K k) (j : Nat)
    (hj : j < K) : k.getD j 0 < 256 := by
  have hjl : j < k.length := by rw [hk.1]; exact hj
  rw [List.getD_eq_getElem _ _ hjl]
  exact hk.2 _ (k.getElem_mem hjl)

/-- `choose_zero` reads (the complement of) one bit of one byte. -/
theorem chooseZero_eq (k : Key) (t : Nat) :
    chooseZero k t = ! (k.getD (t / 8) 0).testBit (7 - t % 8) := by
  unfold chooseZero
  rw [Nat.and_one_is_mod, Nat.shiftRight_eq_div_pow, Nat.testBit_to_div_mod]
  show decide (List.getD k (t / 8) 0 / 2 ^ (7 - t % 8) % 2 = 0)
      = ! decide (List.getD k (t / 8) 0 / 2 ^ (7 - t % 8) % 2 = 1)
  rcases Nat.mod_two_eq_zero_or_one (List.getD k (t / 8) 0 / 2 ^ (7 - t % 8))
      with h | h <;> rw [h] <;> decide

/-- Above the highest set bit of the XOR, two numbers have equal bits. -/
theorem testBit_high_eq (p q t : Nat) (hne : p ≠ q)
    (ht : (p ^^^ q).log2 < t) : p.testBit t = q.testBit t := by
  have hx : p ^^^ q ≠ 0 := fun h => hne (Nat.xor_eq_zero.mp h)
  have hlt : p ^^^ q < 2 ^ t :=
    lt_of_lt_of_le Nat.lt_log2_self (Nat.pow_le_pow_right (by norm_num) ht)
  have hb : (p ^^^ q).testBit t = false := Nat.testBit_lt_two_pow hlt
  rw [Nat.testBit_xor] at hb
  simpa using hb

/-- At the highest set bit of the XOR, two distinct numbers differ. -/
theorem testBit_log2_ne (p q : Nat) (hne : p ≠ q) :
    p.testBit ((p ^^^ q).log2) ≠ q.testBit ((p ^^^ q).log2) := by
  have hx : p ^^^ q ≠ 0 := fun h => hne (Nat.xor_eq_zero.mp h)
  have h1 := Nat.log2_self_le hx
  have h2 : p ^^^ q < 2 ^ ((p ^^^ q).log2 + 1) := Nat.lt_log2_self
  have hdiv : (p ^^^ q) / 2 ^ ((p ^^^ q).log2) = 1 := by
    have hpos : 0 < 2 ^ ((p ^^^ q).log2) := Nat.pos_pow_of_pos _ (by norm_num)
    have hlow : (p ^^^ q) / 2 ^ ((p ^^^ q).log2) < 2 := by
      rw [Nat.div_lt_iff_lt_mul hpos]
      calc p ^^^ q < 2 ^ ((p ^^^ q).log2 + 1) := h2
        _ = 2 * 2 ^ ((p ^^^ q).log2) := by ring
    have hhi : 1 ≤ (p ^^^ q) / 2 ^ ((p ^^^ q).log2) :=
      (Nat.one_le_div_iff hpos).mpr h1
    omega
  have hb : (p ^^^ q).testBit ((p ^^^ q).log2) = true := by
    rw [Nat.testBit_to_div_mod, hdiv]
    decide
  rw [Nat.testBit_xor] at hb
  intro h
  rw [h] at hb
  simp at hb

/-- Two distinct numbers compare by their bit at the highest set bit of the
XOR: the smaller has bit 0 there. -/
theorem lt_iff_testBit_log2 (p q : Nat) (hne : p ≠ q) :
    p < q ↔ p.testBit ((p ^^^ q).log2) = false := by
  set h := (p ^^^ q).log2 with hh
  have hhi : p / 2 ^ (h + 1) = q / 2 ^ (h + 1) := by
    refine Nat.eq_of_testBit_eq ?_
    intro i
    rw [← Nat.shiftRight_eq_div_pow, ← Nat.shiftRight_eq_div_pow,
      Nat.testBit_shiftRight, Nat.testBit_shiftRight]
    exact testBit_high_eq p q (h + 1 + i) hne (by omega)
  have hps : p % 2 ^ (h + 1) = p % 2 ^ h + 2 ^ h * (p / 2 ^ h % 2) :=
    Nat.mod_pow_succ
  have hqs : q % 2 ^ (h + 1) = q % 2 ^ h + 2 ^ h * (q / 2 ^ h % 2) :=
    Nat.mod_pow_succ
  have hpd := Nat.div_add_mod p (2 ^ (h + 1))
  have hqd := Nat.div_add_mod q (2 ^ (h + 1))
  have hd := testBit_log2_ne p q hne
  rw [← hh] at hd
  rw [Nat.testBit_to_div_mod, Nat.testBit_to_div_mod] at hd
  have hplow : p % 2 ^ h < 2 ^ h := Nat.mod_lt _ (Nat.pos_pow_of_pos _ (by norm_num))
  have hqlow : q % 2 ^ h < 2 ^ h := Nat.mod_lt _ (Nat.pos_pow_of_pos _ (by norm_num))
  have hp2 : p / 2 ^ h % 2 = 0 ∨ p / 2 ^ h % 2 = 1 := Nat.mod_two_eq_zero_or_one _
  have hq2 : q / 2 ^ h % 2 = 0 ∨ q / 2 ^ h % 2 = 1 := Nat.mod_two_eq_zero_or_one _
  rw [Nat.testBit_to_div_mod]
  rw [← hhi] at hqd
  rcases hp2 with hp2 | hp2 <;> rcases hq2 with hq2 | hq2
  · rw [hp2, hq2] at hd
    exact absurd rfl hd
  · rw [hp2] at hps
    rw [hq2] at hqs
    constructor
    · intro _
      simp [hp2]
    · intro _
      omega
  · rw [hp2] at hps
    rw [hq2] at hqs
    constructor
    · intro hlt
      exfalso
      omega
    · intro hfalse
      exfalso
      rw [hp2] at hfalse
      simp at hfalse
  · rw [hp2, hq2] at hd
    exact absurd rfl hd

/-- The XOR of two distinct bytes has its top set bit within the byte. -/
theorem byte_log2_le7 (p q : Nat) (hp : p < 256) (hq : q < 256) (hne : p ≠ q) :
    (p ^^^ q).log2 ≤ 7 := by
  have hx0 : p ^^^ q ≠ 0 := fun h => hne (Nat.xor_eq_zero.mp h)
  have hx : p ^^^ q < 2 ^ 8 :=
    Nat.xor_lt_two_pow (hp.trans_eq (by norm_num)) (hq.trans_eq (by norm_num))
  have := (Nat.log2_lt hx0).mpr hx
  omega

/-! ## `first_diff_bit` against the bit semantics -/

theorem firstDiffBitGo_spec (K : Nat) (a b : Key) (j0 : Nat) (hj : j0 < K)
    (hd : a.getD j0 0 ≠ b.getD j0 0) :
    ∀ rem j, j + rem = K → j ≤ j0 →
    (∀ i, j ≤ i → i < j0 → a.getD i 0 = b.getD i 0) →
    firstDiffBitGo K a b rem j
      = 8 * j0 + (7 - (a.getD j0 0 ^^^ b.getD j0 0).log2) := by
  intro rem
  induction rem with
  | zero => intro j hrj hj0 _; omega
  | succ r ih =>
      intro j hrj hj0 hpre
      by_cases hjj : j = j0
      · subst hjj
        simp only [firstDiffBitGo, fastLog2]
        rw [if_neg hd]
      · have hlt : j < j0 := by omega
        have heq : a.getD j 0 = b.getD j 0 := hpre j (le_refl j) hlt
        simp only [firstDiffBitGo]
        rw [if_pos heq]
        exact ih (j + 1) (by omega) (by omega) (fun i h1 h2 => hpre i (by omega) h2)

/-- The first-differing-byte description of `firstDiffBit`. -/
theorem firstDiffBit_eq (K : Nat) (a b : Key) (j0 : Nat) (hj : j0 < K)
    (hpre : ∀ i, i < j0 → a.getD i 0 = b.getD i 0)
    (hd : a.getD j0 0 ≠ b.getD j0 0) :
    firstDiffBit K a b = 8 * j0 + (7 - (a.getD j0 0 ^^^ b.getD j0 0).log2) :=
  firstDiffBitGo_spec K a b j0 hj hd K 0 (by omega) (by omega)
    (fun i _ h2 => hpre i h2)

/-- On byte-wise identical keys the scan returns `8 * K`. -/
theorem firstDiffBit_ident (K : Nat) (a b : Key)
    (h : ∀ i, i < K → a.getD i 0 = b.getD i 0) :
    firstDiffBit K a b = 8 * K := by
  have hgo : ∀ rem j, j + rem = K → firstDiffBitGo K a b rem j = 8 * K := by
    intro rem
    induction rem with
    | zero => intro j _; rfl
    | succ r ih =>
        intro j hrj
        simp only [firstDiffBitGo]
        rw [if_pos (h j (by omega))]
        exact ih (j + 1) (by omega)
  exact hgo K 0 (by omega)

theorem keys_diff_exists (K : Nat) (a b : Key) (ha : a.length = K)
    (hb : b.length = K) (hne : a ≠ b) :
    ∃ j, j < K ∧ a.getD j 0 ≠ b.getD j 0 := by
  by_contra hcon
  push_neg at hcon
  refine hne (List.ext_getElem (ha.trans hb.symm) ?_)
  intro i h1 h2
  have h3 := hcon i (by omega)
  rwa [List.getD_eq_getElem a 0 h1, List.getD_eq_getElem b 0 h2] at h3

/-- The first differing byte of two distinct equal-length keys. -/
theorem exists_firstDiffByte (K : Nat) (a b : Key) (ha : a.length = K)
    (hb : b.length = K) (hne : a ≠ b) :
    ∃ j0, j0 < K ∧ (∀ i, i < j0 → a.getD i 0 = b.getD i 0) ∧
      a.getD j0 0 ≠ b.getD j0 0 := by
  obtain ⟨j, hj, hd⟩ := keys_diff_exists K a b ha hb hne
  classical
  let P := fun j => j < K ∧ a.getD j 0 ≠ b.getD j 0
  have hP : P j := ⟨hj, hd⟩
  have hfound := Nat.find_spec (⟨j, hP⟩ : ∃ j, P j)
  refine ⟨Nat.find (⟨j, hP⟩ : ∃ j, P j), hfound.1, ?_, hfound.2⟩
  intro i hi
  by_contra hcon
  have hiP : P i := ⟨lt_trans hi hfound.1, hcon⟩
  exact absurd hiP (Nat.find_min (⟨j, hP⟩ : ∃ j, P j) hi)

/-! ## The three facts about `firstDiffBit` on distinct valid keys -/

theorem fdb_lt (K : Nat) (a b : Key) (ha : ValidKey K a) (hb : ValidKey K b)
    (hne : a ≠ b) : firstDiffBit K a b < 8 * K := by
  obtain ⟨j0, hj, hpre, hd⟩ := exists_firstDiffByte K a b ha.1 hb.1 hne
  rw [firstDiffBit_eq K a b j0 hj hpre hd]
  omega

theorem fdb_agreeBelow (K : Nat) (a b : Key) (ha : ValidKey K a)
    (hb : ValidKey K b) (t : Nat) (ht : t < firstDiffBit K a b) :
    chooseZero a t = chooseZero b t := by
  by_cases hne : a = b
  · rw [hne]
  obtain ⟨j0, hj, hpre, hd⟩ := exists_firstDiffByte K a b ha.1 hb.1 hne
  have hs := firstDiffBit_eq K a b j0 hj hpre hd
  rw [hs] at ht
  rw [chooseZero_eq, chooseZero_eq]
  have hlog : (a.getD j0 0 ^^^ b.getD j0 0).log2 ≤ 7 :=
    byte_log2_le7 _ _ (validKey_getD_lt K a ha j0 hj)
      (validKey_getD_lt K b hb j0 hj) hd
  rcases Nat.lt_or_ge (t / 8) j0 with hb8 | hb8
  · rw [hpre (t / 8) hb8]
  · have hbyte : t / 8 = j0 := by omega
    rw [hbyte]
    have hmod : t % 8 < 7 - (a.getD j0 0 ^^^ b.getD j0 0).log2 := by omega
    congr 1
    exact testBit_high_eq _ _ _ hd (by omega)

theorem fdb_ne (K : Nat) (a b : Key) (ha : ValidKey K a) (hb : ValidKey K b)
    (hne : a ≠ b) :
    chooseZero a (firstDiffBit K a b) ≠ chooseZero b (firstDiffBit K a b) := by
  obtain ⟨j0, hj, hpre, hd⟩ := exists_firstDiffByte K a b ha.1 hb.1 hne
  have hs := firstDiffBit_eq K a b j0 hj hpre hd
  have hlog : (a.getD j0 0 ^^^ b.getD j0 0).log2 ≤ 7 :=
    byte_log2_le7 _ _ (validKey_getD_lt K a ha j0 hj)
      (validKey_getD_lt K b hb j0 hj) hd
  rw [hs, chooseZero_eq, chooseZero_eq]
  have hdiv : (8 * j0 + (7 - (a.getD j0 0 ^^^ b.getD j0 0).log2)) / 8 = j0 := by
    omega
  have hmod : (8 * j0 + (7 - (a.getD j0 0 ^^^ b.getD j0 0).log2)) % 8
      = 7 - (a.getD j0 0 ^^^ b.getD j0 0).log2 := by omega
  rw [hdiv, hmod]
  have h7 : 7 - (7 - (a.getD j0 0 ^^^ b.getD j0 0).log2)
      = (a.getD j0 0 ^^^ b.getD j0 0).log2 := by omega
  rw [h7]
  have := testBit_log2_ne (a.getD j0 0) (b.getD j0 0) hd
  intro hcon
  apply this
  rcases hb1 : (a.getD j0 0).testBit ((a.getD j0 0 ^^^ b.getD j0 0).log2) <;>
    rcases hb2 : (b.getD j0 0).testBit ((a.getD j0 0 ^^^ b.getD j0 0).log2) <;>
      rw [hb1, hb2] at hcon <;> simp_all

/-- Agreement up to `s` forces the first differing bit to be at least `s`. -/
theorem fdb_ge_of_agree (K : Nat) (a b : Key) (ha : ValidKey K a)
    (hb : ValidKey K b) (s : Nat) (hs : s ≤ 8 * K)
    (hag : ∀ t, t < s → chooseZero a t = chooseZero b t) :
    s ≤ firstDiffBit K a b := by
  by_cases hne : a = b
  · subst hne
    rw [firstDiffBit_ident K a a (fun _ _ => rfl)]
    exact hs
  by_contra hcon
  push_neg at hcon
  exact fdb_ne K a b ha hb hne (hag _ hcon)

/-- The smaller of two distinct keys (lexicographically) carries bit 0 — i.e.
`choose_zero` — at their first differing bit, the larger bit 1. -/
theorem keyLe_bits (K : Nat) (a b : Key) (ha : ValidKey K a)
    (hb : ValidKey K b) (hne : a ≠ b) (hle : keyLe a b = true) :
    chooseZero a (firstDiffBit K a b) = true ∧
    chooseZero b (firstDiffBit K a b) = false := by
  obtain ⟨j0, hj, hpre, hd⟩ := exists_firstDiffByte K a b ha.1 hb.1 hne
  have hs := firstDiffBit_eq K a b j0 hj hpre hd
  have hlog : (a.getD j0 0 ^^^ b.getD j0 0).log2 ≤ 7 :=
    byte_log2_le7 _ _ (validKey_getD_lt K a ha j0 hj)
      (validKey_getD_lt K b hb j0 hj) hd
  -- keyLe with the byte prefix equal up to j0 means byte j0 decides the order
  have hbyte : a.getD j0 0 < b.getD j0 0 := by
    have hgen : ∀ (a b : List Nat) (j0 : Nat), keyLe a b = true →
        (∀ i, i < j0 → a.getD i 0 = b.getD i 0) →
        a.getD j0 0 ≠ b.getD j0 0 → j0 < a.length → j0 < b.length →
        a.getD j0 0 < b.getD j0 0 := by
      intro a
      induction a with
      | nil => intro b j0 _ _ _ h4 _; simp at h4
      | cons x xs ih =>
          intro b j0 hle hpre hd h4 h5
          cases b with
          | nil => simp at h5
          | cons y ys =>
              cases j0 with
              | zero =>
                  simp only [List.getD_cons_zero] at hd ⊢
                  simp only [keyLe] at hle
                  rcases Nat.lt_trichotomy x y with h | h | h
                  · exact h
                  · exact absurd h hd
                  · rw [if_neg (by omega), if_pos h] at hle
                    exact absurd hle (by simp)
              | succ j =>
                  have hxy : x = y := by
                    have := hpre 0 (by omega)
                    simpa using this
                  subst hxy
                  simp only [keyLe, Nat.lt_irrefl, if_false] at hle
                  simp only [List.getD_cons_succ] at hd hpre ⊢
                  exact ih ys j hle (fun i hi => hpre (i + 1) (by omega)) hd
                    (by simpa using h4) (by simpa using h5)
    exact hgen a b j0 hle hpre hd (by rw [ha.1]; exact hj) (by rw [hb.1]; exact hj)
  have hfalse : (a.getD j0 0).testBit ((a.getD j0 0 ^^^ b.getD j0 0).log2) = false :=
    (lt_iff_testBit_log2 _ _ hd).mp hbyte
  have htrue : (b.getD j0 0).testBit ((a.getD j0 0 ^^^ b.getD j0 0).log2) = true := by
    have hne' := testBit_log2_ne (a.getD j0 0) (b.getD j0 0) hd
    rcases hb2 : (b.getD j0 0).testBit ((a.getD j0 0 ^^^ b.getD j0 0).log2)
    · rw [hfalse, hb2] at hne'
      exact absurd rfl hne'
    · rfl
  have hdiv : (8 * j0 + (7 - (a.getD j0 0 ^^^ b.getD j0 0).log2)) / 8 = j0 := by
    omega
  have hmod : (8 * j0 + (7 - (a.getD j0 0 ^^^ b.getD j0 0).log2)) % 8
      = 7 - (a.getD j0 0 ^^^ b.getD j0 0).log2 := by omega
  have h7 : 7 - (7 - (a.getD j0 0 ^^^ b.getD j0 0).log2)
      = (a.getD j0 0 ^^^ b.getD j0 0).log2 := by omega
  constructor
  · rw [hs, chooseZero_eq, hdiv, hmod, h7, hfalse]
    rfl
  · rw [hs, chooseZero_eq, hdiv, hmod, h7, htrue]
    rfl

/-! ## Lemmas about the split-bit scan and the queue builder -/

theorem refSplitGo_self (K : Nat) (a : Key) (rem j : Nat) (hrj : j + rem = K)
    (hrem : 0 < rem) : refSplitGo K a a rem j = .error .duplicateKey := by
  induction rem generalizing j with
  | zero => omega
  | succ r ih =>
      simp only [refSplitGo, if_pos rfl]
      by_cases hj : j = K - 1
      · simp [hj]
      · rw [if_neg hj]
        exact ih (j + 1) (by omega) (by omega)

theorem refSplit_self (K : Nat) (a : Key) (hK : 0 < K) :
    refSplit K a a = .error .duplicateKey :=
  refSplitGo_self K a K 0 (by omega) hK

theorem refSplitGo_cases (K : Nat) (a b : Key) (rem j : Nat) :
    (∃ o, refSplitGo K a b rem j = .ok o) ∨
    refSplitGo K a b rem j = .error .duplicateKey := by
  induction rem generalizing j with
  | zero => exact .inl ⟨none, rfl⟩
  | succ r ih =>
      by_cases hb : a.getD j 0 = b.getD j 0
      · by_cases hj : j = K - 1
        · right
          simp only [refSplitGo]
          rw [if_pos hb, if_pos hj]
        · have h := ih (j + 1)
          simp only [refSplitGo]
          rw [if_pos hb, if_neg hj]
          exact h
      · refine .inl ⟨some (8 * j + (7 - fastLog2 (a.getD j 0 ^^^ b.getD j 0))), ?_⟩
        simp only [refSplitGo]
        rw [if_neg hb]

theorem refSplitGo_ok_of_diff (K : Nat) (a b : Key) (rem j : Nat)
    (hrj : j + rem = K)
    (hdiff : ∃ j', j ≤ j' ∧ j' < K ∧ a.getD j' 0 ≠ b.getD j' 0) :
    refSplitGo K a b rem j = .ok (some (firstDiffBitGo K a b rem j)) := by
  induction rem generalizing j with
  | zero => obtain ⟨j', h1, h2, _⟩ := hdiff; omega
  | succ r ih =>
      by_cases hb : a.getD j 0 = b.getD j 0
      · have hj : j ≠ K - 1 := by
          intro hj
          obtain ⟨j', h1, h2, h3⟩ := hdiff
          have : j' = j := by omega
          exact h3 (this ▸ hb)
        simp only [refSplitGo, firstDiffBitGo]
        rw [if_pos hb, if_neg hj, if_pos hb]
        refine ih (j + 1) (by omega) ?_
        obtain ⟨j', h1, h2, h3⟩ := hdiff
        have : j' ≠ j := fun h => h3 (h ▸ hb)
        exact ⟨j', by omega, h2, h3⟩
      · simp only [refSplitGo, firstDiffBitGo]
        rw [if_neg hb, if_neg hb]

theorem refSplit_of_ne (K : Nat) (a b : Key) (ha : a.length = K)
    (hb : b.length = K) (hne : a ≠ b) :
    refSplit K a b = .ok (some (firstDiffBit K a b)) := by
  obtain ⟨j, hj, hd⟩ := keys_diff_exists K a b ha hb hne
  exact refSplitGo_ok_of_diff K a b K 0 (by omega) ⟨j, by omega, hj, hd⟩

/-- The queue `generate_tree_ref_queue` produces on an all-distinct segment:
one `(split, index)` pair per adjacent pair. -/
def adjQueue (K : Nat) (A : Array TreeRef) : Nat → Nat → List (Nat × Nat)
  | 0, _ => []
  | rem + 1, i =>
      (firstDiffBit K (A.getD i default).key (A.getD (i + 1) default).key, i) ::
        adjQueue K A rem (i + 1)

theorem buildQueueGo_dup (K : Nat) (hK : 0 < K) (A : Array TreeRef)
    (rem i : Nat)
    (hdup : ∃ j, i ≤ j ∧ j < i + rem ∧
      (A.getD j default).key = (A.getD (j + 1) default).key) :
    buildQueueGo K A rem i = .error .duplicateKey := by
  induction rem generalizing i with
  | zero => obtain ⟨j, h1, h2, _⟩ := hdup; omega
  | succ r ih =>
      by_cases h0 : (A.getD i default).key = (A.getD (i + 1) default).key
      · simp only [buildQueueGo, h0, refSplit_self K _ hK]
      · obtain ⟨j, h1, h2, h3⟩ := hdup
        have hji : j ≠ i := fun h => h0 (h ▸ h3)
        have hrec := ih (i + 1) ⟨j, by omega, by omega, h3⟩
        rcases refSplitGo_cases K (A.getD i default).key
            (A.getD (i + 1) default).key K 0 with ⟨o, ho⟩ | ho
        · cases o with
          | none => simp only [buildQueueGo, refSplit, ho, hrec]
          | some s => simp only [buildQueueGo, refSplit, ho, hrec]
        · simp only [buildQueueGo, refSplit, ho]

theorem buildQueueGo_ok (K : Nat) (A : Array TreeRef) (rem i : Nat)
    (hok : ∀ j, i ≤ j → j < i + rem →
      (A.getD j default).key ≠ (A.getD (j + 1) default).key ∧
      (A.getD j default).key.length = K ∧ (A.getD (j + 1) default).key.length = K) :
    buildQueueGo K A rem i = .ok (adjQueue K A rem i) := by
  induction rem generalizing i with
  | zero => rfl
  | succ r ih =>
      obtain ⟨hne, hl1, hl2⟩ := hok i (by omega) (by omega)
      have h0 := refSplit_of_ne K _ _ hl1 hl2 hne
      have hrec := ih (i + 1) (fun j hj1 hj2 => hok j (by omega) (by omega))
      simp only [buildQueueGo, h0, hrec, adjQueue]

theorem mergeLoop_ok (C : Ctx V) (db : DB) (A : Array TreeRef)
    (q : List (Nat × Nat)) (hq : q ≠ []) :
    ∃ db' r, mergeLoop C db A q = (db', .ok r) := by
  induction q generalizing db A with
  | nil => exact absurd rfl hq
  | cons si rest ih =>
      obtain ⟨s, i⟩ := si
      cases rest with
      | nil => exact ⟨_, _, rfl⟩
      | cons x xs =>
          have hne : ¬ (x :: xs : List (Nat × Nat)) = [] := by simp
          simp only [mergeLoop, if_neg hne]
          exact ih _ _ (by simp)

/-! ## Generic plumbing lemmas -/

theorem toArray_getD (l : List TreeRef) (i : Nat) (d : TreeRef) :
    (l.toArray).getD i d = l.getD i d := by
  unfold Array.getD
  split
  · rename_i h
    have hi : i < l.length := by simpa using h
    simp [Array.getElem_eq_getElem_toList, List.getD_eq_getElem?_getD,
      List.getElem?_eq_getElem hi]
  · rename_i h
    have hi : l.length ≤ i := by simpa using h
    simp [List.getD_eq_getElem?_getD, List.getElem?_eq_none hi]

theorem getD_append_cons {α : Type} (l₁ l₂ : List α) (x : α) (d : α) :
    (l₁ ++ x :: l₂).getD l₁.length d = x := by
  induction l₁ with
  | nil => rfl
  | cons a as ih => simpa using ih

theorem insertLeaves_fst_length (C : Ctx V) (vm : List (Key × V)) (db : DB)
    (ks : List Key) : (insertLeaves C vm db ks).1.length = ks.length := by
  induction ks generalizing db with
  | nil => rfl
  | cons k rest ih => simp only [insertLeaves, List.length_cons, ih]

theorem zipWith_ref_keys (locs : List Digest) (ks : List Key)
    (h : locs.length = ks.length) :
    (List.zipWith (fun loc k => TreeRef.mk k loc 1 1) locs ks).map TreeRef.key
      = ks := by
  induction locs generalizing ks with
  | nil =>
      cases ks with
      | nil => rfl
      | cons k r => simp at h
  | cons loc locs ih =>
      cases ks with
      | nil => simp at h
      | cons k r =>
          simp only [List.zipWith_cons_cons, List.map_cons, List.cons.injEq,
            true_and]
          exact ih r (by simpa using h)

theorem getD_key_map (refs : List TreeRef) (j : Nat) :
    (refs.getD j default).key
      = (refs.map TreeRef.key).getD j (default : TreeRef).key := by
  induction refs generalizing j with
  | nil => rfl
  | cons r rest ih =>
      cases j with
      | zero => rfl
      | succ j => simp only [List.getD_cons_succ, ih j, List.map_cons]

/-- `insert` with no previous root, on a valid batch, is `create_tree` of the
new-leaf tree refs over the store left by `insert_leaves`. -/
theorem insert_none_eq (C : Ctx V) (db : DB) (keys : List Key)
    (values : List V) (hlv : keys.length = values.length) (hne : keys ≠ []) :
    insert C db none keys values =
      createTree C
        (insertLeaves C ((keys.zip values).foldl (fun m p => mapPut m p.1 p.2) [])
          db (sortKeys keys)).2
        (List.zipWith (fun loc k => TreeRef.mk k loc 1 1)
          (insertLeaves C ((keys.zip values).foldl (fun m p => mapPut m p.1 p.2) [])
            db (sortKeys keys)).1
          (sortKeys keys)) := by
  have h1 : ¬ keys.length ≠ values.length := by simp [hlv]
  have h2 : ¬ (keys.isEmpty || values.isEmpty) = true := by
    have hv : values ≠ [] := by
      intro h
      subst h
      simp at hlv
      exact hne hlv
    simp [List.isEmpty_iff, hne, hv]
  unfold insert
  rw [if_neg h1, if_neg h2]

/-! ## Claim C7: empty or mismatched batches -/

/-- Claim C7: `insert` called with an empty keys slice, an empty values
slice, or keys and values of different lengths returns one of the two
batch-validation errors (both classified as EmptyBatch by the spec's error
taxonomy), and the store — committed map and pending buffer alike — is
exactly the input store: the error precedes every write. -/
theorem c7_empty_batch (C : Ctx V) (db : DB) (prev : Option Digest)
    (keys : List Key) (values : List V)
    (h : keys.length ≠ values.length ∨ keys = [] ∨ values = []) :
    insert C db prev keys values = (db, .error .lengthMismatch) ∨
    insert C db prev keys values = (db, .error .emptyBatch) := by
  by_cases hlen : keys.length = values.length
  · right
    rcases h with h | h | h
    · exact absurd hlen h
    · subst h
      simp [insert, hlen]
    · subst h
      simp [insert, hlen]
  · left
    simp [insert, hlen]

/-- Witness for C7 at a concrete input: a one-key, zero-value batch. -/
theorem c7_empty_batch_witness :
    insert CtxB dbEmpty none [[0]] [] = (dbEmpty, .error .lengthMismatch) ∨
    insert CtxB dbEmpty none [[0]] [] = (dbEmpty, .error .emptyBatch) :=
  c7_empty_batch CtxB dbEmpty none [[0]] [] (.inl (by decide))

/-! ## Claim C8: the per-node processing of `remove` -/

/-- Claim C8: `remove` seeds its FIFO queue with the root and processes each
popped location with `removeStep` (third conjunct, the loop law).  For a
location holding a node, the step decrements the reference count saturating
at zero; if the count is then zero (stored count ≤ 1) the node is deleted
from the committed map and its children — both branch children, or a leaf's
data hash — are enqueued for the same treatment; if the count is still
positive the node is written back with the decremented count and nothing is
enqueued, so its children are not visited. -/
theorem c8_remove_processing (db : DB) (loc : Digest) (n : TreeNode)
    (hn : db.get_node loc = some n) :
    (n.references ≤ 1 → removeStep db loc = (db.removeNode loc, childLocs n)) ∧
    (2 ≤ n.references →
      removeStep db loc = (db.insert loc ⟨n.references - 1, n.variant⟩, [])) ∧
    (∀ fuel rest, removeLoop db (fuel + 1) (loc :: rest) =
      removeLoop (removeStep db loc).1 fuel (rest ++ (removeStep db loc).2)) := by
  refine ⟨?_, ?_, ?_⟩
  · intro h1
    simp only [removeStep, hn]
    have hz : (if n.references > 0 then n.references - 1 else n.references) = 0 := by
      split <;> omega
    rw [hz]
    simp
  · intro h2
    simp only [removeStep, hn]
    have hz : (if n.references > 0 then n.references - 1 else n.references)
        = n.references - 1 := by split <;> omega
    rw [hz]
    have hnz : ¬ (n.references - 1 = 0) := by omega
    simp [hnz]
  · intro fuel rest
    rfl

/-- Witness for C8 at a concrete input: a store holding one branch with one
reference; the step deletes it and enqueues its two children. -/
theorem c8_remove_processing_witness :
    removeStep ⟨[([0], ⟨1, .branch ⟨2, [1], [2], 0, [0]⟩⟩)], []⟩ [0] =
      ((DB.mk [([0], ⟨1, .branch ⟨2, [1], [2], 0, [0]⟩⟩)] []).removeNode [0],
       childLocs ⟨1, .branch ⟨2, [1], [2], 0, [0]⟩⟩) :=
  (c8_remove_processing ⟨[([0], ⟨1, .branch ⟨2, [1], [2], 0, [0]⟩⟩)], []⟩ [0]
    ⟨1, .branch ⟨2, [1], [2], 0, [0]⟩⟩ (by decide)).1 (by decide)

/-! ## Claim C10: `remove` on locations absent from the store -/

/-- Claim C10: for a hash not present in the committed store, `remove`
returns success and leaves the store — committed map and pending buffer —
unchanged; and in general the loop's step on any enqueued location that does
not resolve leaves the state unchanged and enqueues nothing, rather than
reporting an error. -/
theorem c10_remove_absent (db : DB) (h : Digest)
    (habs : db.get_node h = none) :
    remove db h = (db, .ok ()) ∧ removeStep db h = (db, []) := by
  have hstep : removeStep db h = (db, []) := by
    simp [removeStep, habs]
  refine ⟨?_, hstep⟩
  have h2 : 2 * db.map.length + 2 = (2 * db.map.length + 1) + 1 := by omega
  rw [remove, h2]
  show removeLoop (removeStep db h).1 (2 * db.map.length + 1) ([] ++ (removeStep db h).2)
      = (db, .ok ())
  rw [hstep]
  rfl

/-- Witness for C10 at a concrete input: the empty store. -/
theorem c10_remove_absent_witness :
    remove dbEmpty [0] = (dbEmpty, .ok ()) ∧ removeStep dbEmpty [0] = (dbEmpty, []) :=
  c10_remove_absent dbEmpty [0] (by decide)

/-- `create_tree` on at least two tree refs: sort, build the queue, merge. -/
theorem createTree_big (C : Ctx V) (db : DB) (refs : List TreeRef)
    (h2 : 2 ≤ refs.length) :
    createTree C db refs =
      match buildQueueGo C.keyLen (sortRefs refs).toArray
          ((sortRefs refs).toArray.size - 1) 0 with
      | .error e => (db, .error e)
      | .ok q => mergeLoop C db (sortRefs refs).toArray (sortQueue q) := by
  match refs, h2 with
  | r0 :: r1 :: rest, _ => rfl

/-- `create_tree` when the queue builder fails. -/
theorem createTree_big_err (C : Ctx V) (db : DB) (refs : List TreeRef)
    (h2 : 2 ≤ refs.length) (e : MBErr)
    (he : buildQueueGo C.keyLen (sortRefs refs).toArray
      ((sortRefs refs).toArray.size - 1) 0 = .error e) :
    createTree C db refs = (db, .error e) := by
  rw [createTree_big C db refs h2, he]

/-- `create_tree` when the queue builder succeeds. -/
theorem createTree_big_ok (C : Ctx V) (db : DB) (refs : List TreeRef)
    (h2 : 2 ≤ refs.length) (q : List (Nat × Nat))
    (hq : buildQueueGo C.keyLen (sortRefs refs).toArray
      ((sortRefs refs).toArray.size - 1) 0 = .ok q) :
    createTree C db refs = mergeLoop C db (sortRefs refs).toArray (sortQueue q) := by
  rw [createTree_big C db refs h2, hq]

/-! ## Heap views of the store -/

/-- Point update of a heap function. -/
def hput (h : Digest → Option TreeNode) (a : Digest) (v : TreeNode) :
    Digest → Option TreeNode :=
  fun x => if x = a then some v else h x

theorem mapGet_mapPut {α β : Type} [DecidableEq α] (m : List (α × β)) (a : α)
    (v : β) (x : α) :
    mapGet (mapPut m a v) x = if x = a then some v else mapGet m x := by
  induction m with
  | nil =>
      show (if a = x then some v else mapGet ([] : List (α × β)) x)
        = if x = a then some v else mapGet ([] : List (α × β)) x
      by_cases hx : x = a
      · rw [if_pos hx.symm, if_pos hx]
      · rw [if_neg (fun h => hx h.symm), if_neg hx]
  | cons p rest ih =>
      obtain ⟨k, w⟩ := p
      show mapGet (if k = a then (a, v) :: rest
        else (k, w) :: mapPut rest a v) x = _
      by_cases hk : k = a
      · rw [if_pos hk]
        show (if a = x then some v else mapGet rest x) = _
        by_cases hx : x = a
        · rw [if_pos hx.symm, if_pos hx]
        · rw [if_neg (fun h => hx h.symm), if_neg hx]
          show mapGet rest x = if k = x then some w else mapGet rest x
          rw [if_neg (fun h => hx (h.symm.trans hk))]
      · rw [if_neg hk]
        show (if k = x then some w else mapGet (mapPut rest a v) x) = _
        by_cases hkx : k = x
        · rw [if_pos hkx, if_neg (fun h => hk (hkx.trans h))]
          show some w = if k = x then some w else mapGet rest x
          rw [if_pos hkx]
        · rw [if_neg hkx, ih]
          show (if x = a then some v else mapGet rest x)
            = if x = a then some v else if k = x then some w else mapGet rest x
          by_cases hx : x = a
          · rw [if_pos hx, if_pos hx]
          · rw [if_neg hx, if_neg hx, if_neg hkx]

theorem view_insert (db : DB) (a : Digest) (v : TreeNode) :
    (db.insert a v).view = hput db.view a v := by
  funext x
  show mapGet (((db.pending ++ [(a, v)]).foldl (fun m p => mapPut m p.1 p.2)
    db.map)) x = _
  rw [List.foldl_append]
  show mapGet (mapPut (db.pending.foldl (fun m p => mapPut m p.1 p.2) db.map)
    a v) x = _
  rw [mapGet_mapPut]
  rfl

theorem view_batch_write (db : DB) :
    db.batch_write.view = db.view ∧ db.batch_write.get_node = db.view := by
  constructor
  · funext x
    show mapGet (([] : List (Digest × TreeNode)).foldl _ _) x = _
    rfl
  · funext x
    rfl

theorem get_node_eq_view (db : DB) (h : db.pending = []) :
    db.get_node = db.view := by
  funext x
  show mapGet db.map x = mapGet (db.pending.foldl (fun m p => mapPut m p.1 p.2)
    db.map) x
  rw [h]
  rfl

/-! ## The Patricia-trie shape of a stored tree -/

/-- The subtree at `loc` in heap `h` is a well-formed Patricia trie holding
exactly the bindings `E`, hanging at prefix level `pl` (every split index in
it is ≥ `pl`).  The predicate also records the hash coherence of every node
(its location is the domain-separated hash of its contents), the zero/one
bit discipline at every branch, the witness key's agreement with every key
of the subtree below the split bit, and the branch's leaf count. -/
inductive Trie (C : Ctx V) (h : Digest → Option TreeNode) :
    Digest → List (Key × V) → Nat → Prop
  | leaf (loc : Digest) (k : Key) (v : V) (r r' : Nat) (pl : Nat)
      (hk : ValidKey C.keyLen k)
      (hn : h loc = some ⟨r, .leaf ⟨k, dataHash C k (C.enc v)⟩⟩)
      (hd : h (dataHash C k (C.enc v)) = some ⟨r', .data ⟨C.enc v⟩⟩)
      (hloc : loc = leafHash C k (dataHash C k (C.enc v))) :
      Trie C h loc [(k, v)] pl
  | branch (loc : Digest) (b : TreeBranch) (r : Nat)
      (E0 E1 : List (Key × V)) (pl : Nat)
      (hn : h loc = some ⟨r, .branch b⟩)
      (hloc : loc = branchHash C b.zero b.one)
      (hpl : pl ≤ b.split_index)
      (hsK : b.split_index < 8 * C.keyLen)
      (hcount : b.count = (E0 ++ E1).length)
      (h0 : Trie C h b.zero E0 (b.split_index + 1))
      (h1 : Trie C h b.one E1 (b.split_index + 1))
      (hz : ∀ e ∈ E0, chooseZero e.1 b.split_index = true)
      (ho : ∀ e ∈ E1, chooseZero e.1 b.split_index = false)
      (hw : ∃ e ∈ E0, e.1 = b.key)
      (hagree : ∀ e ∈ E0 ++ E1, ∀ t, t < b.split_index →
          chooseZero e.1 t = chooseZero b.key t) :
      Trie C h loc (E0 ++ E1) pl

theorem trie_ne_nil (C : Ctx V) (h : Digest → Option TreeNode) (loc : Digest)
    (E : List (Key × V)) (pl : Nat) (hT : Trie C h loc E pl) : E ≠ [] := by
  induction hT with
  | leaf => simp
  | branch loc b r E0 E1 pl hn hloc hpl hsK hcount h0 h1 hz ho hw hagree ih0 ih1 =>
      simp only [ne_eq, List.append_eq_nil]
      intro ⟨he0, _⟩
      exact ih0 he0

theorem trie_valid_keys (C : Ctx V) (h : Digest → Option TreeNode)
    (loc : Digest) (E : List (Key × V)) (pl : Nat) (hT : Trie C h loc E pl) :
    ∀ e ∈ E, ValidKey C.keyLen e.1 := by
  induction hT with
  | leaf loc k v r r' pl hk hn hd hloc =>
      intro e he
      rw [List.mem_singleton.mp he]
      exact hk
  | branch loc b r E0 E1 pl hn hloc hpl hsK hcount h0 h1 hz ho hw hagree ih0 ih1 =>
      intro e he
      rcases List.mem_append.mp he with he | he
      · exact ih0 e he
      · exact ih1 e he

theorem trie_mono (C : Ctx V) (h : Digest → Option TreeNode) (loc : Digest)
    (E : List (Key × V)) (pl pl' : Nat) (hle : pl' ≤ pl)
    (hT : Trie C h loc E pl) : Trie C h loc E pl' := by
  cases hT with
  | leaf loc k v r r' pl hk hn hd hloc => exact .leaf loc k v r r' pl' hk hn hd hloc
  | branch loc b r E0 E1 pl hn hloc hpl hsK hcount h0 h1 hz ho hw hagree =>
      exact .branch loc b r E0 E1 pl' hn hloc (le_trans hle hpl) hsK hcount
        h0 h1 hz ho hw hagree

/-- A heap location determines the keys of the trie below it. -/
theorem trie_det_keys (C : Ctx V) (h : Digest → Option TreeNode)
    (loc : Digest) (E : List (Key × V)) (pl : Nat) (hT : Trie C h loc E pl) :
    ∀ E' pl', Trie C h loc E' pl' → E.map Prod.fst = E'.map Prod.fst := by
  induction hT with
  | leaf loc k v r r' pl hk hn hd hloc =>
      intro E' pl' hT'
      cases hT' with
      | leaf loc k2 v2 r2 r2' pl2 hk2 hn2 hd2 hloc2 =>
          rw [hn] at hn2
          simp only [Option.some.injEq, TreeNode.mk.injEq,
            NodeVariant.leaf.injEq, TreeLeaf.mk.injEq] at hn2
          rw [hn2.2.1]
          rfl
      | branch loc b2 r2 E02 E12 pl2 hn2 =>
          rw [hn] at hn2
          cases hn2
  | branch loc b r E0 E1 pl hn hloc hpl hsK hcount h0 h1 hz ho hw hagree ih0 ih1 =>
      intro E' pl' hT'
      cases hT' with
      | leaf loc k2 v2 r2 r2' pl2 hk2 hn2 hd2 hloc2 =>
          rw [hn] at hn2
          cases hn2
      | branch loc b2 r2 E02 E12 pl2 hn2 hloc2 hpl2 hsK2 hcount2 h02 h12 hz2 ho2
          hw2 hagree2 =>
          rw [hn] at hn2
          cases hn2
          rw [List.map_append, List.map_append, ih0 E02 _ h02, ih1 E12 _ h12]

/-- Updating the heap at a location that is neither the data location of an
entry nor the root of any subtrie whose entries sit inside `E` preserves the
trie. -/
theorem trie_put (C : Ctx V) (h : Digest → Option TreeNode) (loc : Digest)
    (E : List (Key × V)) (pl : Nat) (a : Digest) (w : TreeNode)
    (hT : Trie C h loc E pl)
    (hdata : ∀ e ∈ E, a ≠ dataHash C e.1 (C.enc e.2))
    (hroot : ∀ E' pl', Trie C h a E' pl' → ¬ (E' ≠ [] ∧ ∀ x ∈ E', x ∈ E)) :
    Trie C (hput h a w) loc E pl := by
  induction hT with
  | leaf loc k v r r' pl hk hn hd hloc =>
      have hla : loc ≠ a := by
        intro he
        exact hroot [(k, v)] pl (he ▸ .leaf loc k v r r' pl hk hn hd hloc)
          ⟨by simp, by simp⟩
      have hda : dataHash C k (C.enc v) ≠ a := by
        intro he
        exact hdata (k, v) (by simp) he.symm
      refine .leaf loc k v r r' pl hk ?_ ?_ hloc
      · rw [hput, if_neg hla]
        exact hn
      · rw [hput, if_neg hda]
        exact hd
  | branch loc b r E0 E1 pl hn hloc hpl hsK hcount h0 h1 hz ho hw hagree ih0 ih1 =>
      have hla : loc ≠ a := by
        intro he
        exact hroot (E0 ++ E1) pl
          (he ▸ .branch loc b r E0 E1 pl hn hloc hpl hsK hcount h0 h1 hz ho hw
            hagree)
          ⟨trie_ne_nil C h loc _ pl
            (.branch loc b r E0 E1 pl hn hloc hpl hsK hcount h0 h1 hz ho hw
              hagree), fun x hx => hx⟩
      refine .branch loc b r E0 E1 pl ?_ hloc hpl hsK hcount ?_ ?_ hz ho hw hagree
      · rw [hput, if_neg hla]
        exact hn
      · refine ih0 (fun e he => hdata e (List.mem_append_left _ he)) ?_
        intro E' pl' hT' ⟨hne, hsub⟩
        exact hroot E' pl' hT'
          ⟨hne, fun x hx => List.mem_append_left _ (hsub x hx)⟩
      · refine ih1 (fun e he => hdata e (List.mem_append_right _ he)) ?_
        intro E' pl' hT' ⟨hne, hsub⟩
        exact hroot E' pl' hT'
          ⟨hne, fun x hx => List.mem_append_right _ (hsub x hx)⟩

/-! ## The hash-preimage discipline (for claim C5) -/

/-- A stored node is well-hashed when its location is the domain-separated
hash of its contents: `H('d' ‖ key ‖ value)` for Data (bound to the key of
the pair it was created for, which the Data node itself does not record),
`H('l' ‖ key ‖ data_location)` for Leaf, `H('b' ‖ zero ‖ one)` for Branch. -/
def NodeHashed (C : Ctx V) (loc : Digest) (n : TreeNode) : Prop :=
  match n.variant with
  | .data d => ∃ k, loc = dataHash C k d.value
  | .leaf l => loc = leafHash C l.key l.data
  | .branch b => loc = branchHash C b.zero b.one

/-- Every node of the store — committed or pending — is well-hashed. -/
def WellHashed (C : Ctx V) (db : DB) : Prop :=
  ∀ loc n, ((loc, n) ∈ db.map ∨ (loc, n) ∈ db.pending) → NodeHashed C loc n

theorem mapGet_mem {α β : Type} [DecidableEq α] (m : List (α × β)) (k : α)
    (v : β) (h : mapGet m k = some v) : (k, v) ∈ m := by
  induction m with
  | nil => simp [mapGet] at h
  | cons p rest ih =>
      by_cases hk : p.1 = k
      · obtain ⟨k', v'⟩ := p
        simp only [mapGet] at h
        rw [if_pos hk] at h
        cases h
        simp only at hk
        subst hk
        exact List.mem_cons_self _ _
      · obtain ⟨k', v'⟩ := p
        simp only [mapGet] at h
        rw [if_neg hk] at h
        exact List.mem_cons_of_mem _ (ih h)

theorem mem_mapPut {α β : Type} [DecidableEq α] (m : List (α × β)) (a : α)
    (b : β) (x : α × β) (h : x ∈ mapPut m a b) : x = (a, b) ∨ x ∈ m := by
  induction m with
  | nil => simpa [mapPut] using h
  | cons p rest ih =>
      by_cases hk : p.1 = a
      · obtain ⟨k', v'⟩ := p
        simp only [mapPut] at h
        rw [if_pos hk] at h
        rcases List.mem_cons.mp h with h | h
        · exact .inl h
        · exact .inr (List.mem_cons_of_mem _ h)
      · obtain ⟨k', v'⟩ := p
        simp only [mapPut] at h
        rw [if_neg hk] at h
        rcases List.mem_cons.mp h with h | h
        · exact .inr (h ▸ List.mem_cons_self _ _)
        · rcases ih h with h | h
          · exact .inl h
          · exact .inr (List.mem_cons_of_mem _ h)

theorem mem_foldl_mapPut {α β : Type} [DecidableEq α] (l : List (α × β))
    (m0 : List (α × β)) (x : α × β)
    (h : x ∈ l.foldl (fun m p => mapPut m p.1 p.2) m0) : x ∈ m0 ∨ x ∈ l := by
  induction l generalizing m0 with
  | nil => exact .inl h
  | cons p rest ih =>
      rcases ih (mapPut m0 p.1 p.2) h with h' | h'
      · rcases mem_mapPut m0 p.1 p.2 x h' with h'' | h''
        · exact .inr (by simp [h''])
        · exact .inl h''
      · exact .inr (List.mem_cons_of_mem _ h')

theorem wellHashed_insert (C : Ctx V) (db : DB) (loc : Digest) (n : TreeNode)
    (hwh : WellHashed C db) (hn : NodeHashed C loc n) :
    WellHashed C (db.insert loc n) := by
  intro loc' n' h
  rcases h with h | h
  · exact hwh loc' n' (.inl h)
  · simp only [DB.insert, List.mem_append] at h
    rcases h with h | h
    · exact hwh loc' n' (.inr h)
    · simp only [List.mem_singleton, Prod.mk.injEq] at h
      rw [h.1, h.2]
      exact hn

theorem wellHashed_batch_write (C : Ctx V) (db : DB) (hwh : WellHashed C db) :
    WellHashed C db.batch_write := by
  intro loc n h
  rcases h with h | h
  · rcases mem_foldl_mapPut db.pending db.map (loc, n) h with h' | h'
    · exact hwh loc n (.inl h')
    · exact hwh loc n (.inr h')
  · simp [DB.batch_write] at h

theorem get_node_hashed (C : Ctx V) (db : DB) (loc : Digest) (n : TreeNode)
    (hwh : WellHashed C db) (h : db.get_node loc = some n) :
    NodeHashed C loc n :=
  hwh loc n (.inl (mapGet_mem db.map loc n h))

/-- The variant alone decides well-hashedness; reference counts do not. -/
theorem nodeHashed_refs (C : Ctx V) (loc : Digest) (n : TreeNode) (r : Nat)
    (h : NodeHashed C loc n) : NodeHashed C loc ⟨r, n.variant⟩ := h

theorem insertLeaves_wellHashed (C : Ctx V) (vm : List (Key × V)) (db : DB)
    (ks : List Key) (hwh : WellHashed C db) :
    WellHashed C (insertLeaves C vm db ks).2 := by
  induction ks generalizing db with
  | nil => exact hwh
  | cons k rest ih =>
      refine ih _ ?_
      refine wellHashed_insert C _ _ _ (wellHashed_insert C _ _ _ hwh ?_) ?_
      · exact ⟨k, rfl⟩
      · rfl

theorem genSide_spec (C : Ctx V) (db : DB) (acc : List TreeRef)
    (cells : List TreeCell) (sideLoc : Digest) (sideKeys : List Key)
    (depth : Nat) (hwh : WellHashed C db)
    (hcells : ∀ c ∈ cells, (c.location, c.node) ∈ db.map)
    (db' : DB) (acc' : List TreeRef) (cells' : List TreeCell)
    (h : genSide db acc cells sideLoc sideKeys depth = .ok (db', acc', cells')) :
    WellHashed C db' ∧ db'.map = db.map ∧
      ∀ c ∈ cells', (c.location, c.node) ∈ db.map := by
  unfold genSide at h
  cases hn : db.get_node sideLoc with
  | none =>
      rw [hn] at h
      dsimp only at h
      cases h
      exact ⟨hwh, rfl, hcells⟩
  | some sideNode =>
      rw [hn] at h
      dsimp only at h
      by_cases hk : sideKeys ≠ []
      · rw [if_pos hk] at h
        cases h
        refine ⟨hwh, rfl, ?_⟩
        intro c hc
        rcases List.mem_cons.mp hc with hc | hc
        · rw [hc]
          exact mapGet_mem db.map sideLoc sideNode hn
        · exact hcells c hc
      · rw [if_neg hk] at h
        have hside := get_node_hashed C db sideLoc sideNode hwh hn
        cases hv : sideNode.variant with
        | branch b =>
            rw [hv] at h
            dsimp only at h
            cases h
            refine ⟨?_, rfl, hcells⟩
            refine wellHashed_insert C _ _ _ hwh ?_
            have hh : NodeHashed C sideLoc
                ⟨sideNode.references + 1, sideNode.variant⟩ :=
              nodeHashed_refs C _ _ _ hside
            rwa [hv] at hh
        | leaf l =>
            rw [hv] at h
            dsimp only at h
            cases h
            refine ⟨?_, rfl, hcells⟩
            refine wellHashed_insert C _ _ _ hwh ?_
            have hh : NodeHashed C sideLoc
                ⟨sideNode.references + 1, sideNode.variant⟩ :=
              nodeHashed_refs C _ _ _ hside
            rwa [hv] at hh
        | data d =>
            rw [hv] at h
            dsimp only at h
            cases h

theorem genLoop_wellHashed (C : Ctx V) (keyMap : List (Key × Digest))
    (fuel : Nat) :
    ∀ (db : DB) (cells : List TreeCell) (acc : List TreeRef),
      WellHashed C db → (∀ c ∈ cells, (c.location, c.node) ∈ db.map) →
      WellHashed C (genLoop C keyMap db fuel cells acc).1 := by
  induction fuel with
  | zero => intro db cells acc hwh _; exact hwh
  | succ fuel ih =>
      intro db cells acc hwh hcells
      cases cells with
      | nil => exact hwh
      | cons cell cells =>
        show WellHashed C (genLoop C keyMap db (fuel + 1) (cell :: cells) acc).1
        rw [genLoop]
        by_cases hd : cell.depth > C.depth
        · rw [if_pos hd]
          exact hwh
        · rw [if_neg hd]
          have hcell : NodeHashed C cell.location cell.node :=
            hwh cell.location cell.node (.inl (hcells cell (by simp)))
          have hcells' : ∀ c ∈ cells, (c.location, c.node) ∈ db.map :=
            fun c hc => hcells c (List.mem_cons_of_mem _ hc)
          cases hv : cell.node.variant with
          | leaf l =>
              dsimp only
              cases hk : mapGet keyMap l.key with
              | some loc =>
                  dsimp only
                  by_cases hloc : loc = cell.location
                  · rw [if_pos hloc]
                    cases hn : db.get_node cell.location with
                    | some n =>
                        dsimp only
                        refine ih _ cells acc ?_ hcells'
                        exact wellHashed_insert C _ _ _ hwh
                          (nodeHashed_refs C _ _ _
                            (get_node_hashed C db _ _ hwh hn))
                    | none => exact hwh
                  · rw [if_neg hloc]
                    exact ih _ cells acc hwh hcells'
              | none =>
                  dsimp only
                  cases hn : db.get_node cell.location with
                  | some n =>
                      dsimp only
                      refine ih _ cells _ ?_ hcells'
                      exact wellHashed_insert C _ _ _ hwh
                        (nodeHashed_refs C _ _ _
                          (get_node_hashed C db _ _ hwh hn))
                  | none => exact hwh
          | data d => exact hwh
          | branch b =>
              dsimp only
              by_cases hms : calcMinSplitIndex C.keyLen cell.keys b.key
                  < b.split_index
              · rw [if_pos hms]
                by_cases hde : checkDescendants C.keyLen cell.keys b.split_index
                    b.key (calcMinSplitIndex C.keyLen cell.keys b.key) = []
                · rw [if_pos hde]
                  refine ih _ cells _ ?_ hcells'
                  refine wellHashed_insert C _ _ _ hwh ?_
                  have hh : NodeHashed C cell.location
                      ⟨cell.node.references + 1, cell.node.variant⟩ :=
                    nodeHashed_refs C _ _ _ hcell
                  rwa [hv] at hh
                · rw [if_neg hde]
                  cases h1 : genSide db acc cells b.one
                      (splitPairs (checkDescendants C.keyLen cell.keys
                        b.split_index b.key
                        (calcMinSplitIndex C.keyLen cell.keys b.key))
                        b.split_index).2 cell.depth with
                  | error e => exact hwh
                  | ok t1 =>
                      obtain ⟨db1, acc1, cells1⟩ := t1
                      dsimp only
                      obtain ⟨hwh1, hmap1, hcells1⟩ := genSide_spec C db acc
                        cells b.one _ cell.depth hwh hcells' db1 acc1 cells1 h1
                      cases h2 : genSide db1 acc1 cells1 b.zero
                          (splitPairs (checkDescendants C.keyLen cell.keys
                            b.split_index b.key
                            (calcMinSplitIndex C.keyLen cell.keys b.key))
                            b.split_index).1 cell.depth with
                      | error e => exact hwh1
                      | ok t2 =>
                          obtain ⟨db2, acc2, cells2⟩ := t2
                          dsimp only
                          obtain ⟨hwh2, hmap2, hcells2⟩ := genSide_spec C db1
                            acc1 cells1 b.zero _ cell.depth hwh1
                            (by rw [hmap1]; exact hcells1) db2 acc2 cells2 h2
                          refine ih db2 cells2 acc2 hwh2 ?_
                          rw [hmap2]
                          exact hcells2
              · rw [if_neg hms]
                cases h1 : genSide db acc cells b.one
                    (splitPairs cell.keys b.split_index).2 cell.depth with
                | error e => exact hwh
                | ok t1 =>
                    obtain ⟨db1, acc1, cells1⟩ := t1
                    dsimp only
                    obtain ⟨hwh1, hmap1, hcells1⟩ := genSide_spec C db acc
                      cells b.one _ cell.depth hwh hcells' db1 acc1 cells1 h1
                    cases h2 : genSide db1 acc1 cells1 b.zero
                        (splitPairs cell.keys b.split_index).1 cell.depth with
                    | error e => exact hwh1
                    | ok t2 =>
                        obtain ⟨db2, acc2, cells2⟩ := t2
                        dsimp only
                        obtain ⟨hwh2, hmap2, hcells2⟩ := genSide_spec C db1
                          acc1 cells1 b.zero _ cell.depth hwh1
                          (by rw [hmap1]; exact hcells1) db2 acc2 cells2 h2
                        refine ih db2 cells2 acc2 hwh2 ?_
                        rw [hmap2]
                        exact hcells2

theorem mergeLoop_wellHashed (C : Ctx V) (q : List (Nat × Nat)) :
    ∀ (db : DB) (A : Array TreeRef), WellHashed C db →
      WellHashed C (mergeLoop C db A q).1 := by
  induction q with
  | nil => intro db A hwh; exact hwh
  | cons si rest ih =>
      intro db A hwh
      obtain ⟨s, i⟩ := si
      have hwh' : WellHashed C (db.insert
          (branchHash C (A.getD i default).location
            (A.getD (lookaheadIndex A i) default).location)
          ⟨1, .branch ⟨(A.getD i default).node_count +
              (A.getD (lookaheadIndex A i) default).node_count,
            (A.getD i default).location,
            (A.getD (lookaheadIndex A i) default).location, s,
            (A.getD i default).key⟩⟩) :=
        wellHashed_insert C _ _ _ hwh rfl
      show WellHashed C (mergeLoop C db A ((s, i) :: rest)).1
      rw [mergeLoop]
      by_cases hr : rest = []
      · rw [if_pos hr]
        exact wellHashed_batch_write C _ hwh'
      · rw [if_neg hr]
        exact ih _ _ hwh'

theorem createTree_wellHashed (C : Ctx V) (db : DB) (refs : List TreeRef)
    (hwh : WellHashed C db) : WellHashed C (createTree C db refs).1 := by
  match refs with
  | [] => exact hwh
  | [r] => exact wellHashed_batch_write C db hwh
  | r0 :: r1 :: rest =>
      rw [createTree_big C db (r0 :: r1 :: rest) (by simp)]
      cases hq : buildQueueGo C.keyLen (sortRefs (r0 :: r1 :: rest)).toArray
          ((sortRefs (r0 :: r1 :: rest)).toArray.size - 1) 0 with
      | error e =>
          dsimp only
          exact hwh
      | ok q =>
          dsimp only
          exact mergeLoop_wellHashed C (sortQueue q) db _ hwh

theorem insert_wellHashed (C : Ctx V) (db : DB) (prev : Option Digest)
    (keys : List Key) (values : List V) (hwh : WellHashed C db) :
    WellHashed C (insert C db prev keys values).1 := by
  unfold insert
  by_cases h1 : keys.length ≠ values.length
  · rw [if_pos h1]
    exact hwh
  · rw [if_neg h1]
    by_cases h2 : (keys.isEmpty || values.isEmpty) = true
    · rw [if_pos h2]
      exact hwh
    · rw [if_neg h2]
      dsimp only
      have hld : WellHashed C (insertLeaves C
          ((keys.zip values).foldl (fun m p => mapPut m p.1 p.2) []) db
          (sortKeys keys)).2 :=
        insertLeaves_wellHashed C _ db _ hwh
      cases prev with
      | none => exact createTree_wellHashed C _ _ hld
      | some root =>
          dsimp only
          unfold generateTreerefs
          cases hr : (insertLeaves C
              ((keys.zip values).foldl (fun m p => mapPut m p.1 p.2) []) db
              (sortKeys keys)).2.get_node root with
          | none =>
              dsimp only
              exact hld
          | some rootNode =>
              dsimp only
              cases hg : genLoop C
                  (((sortKeys keys).zip (insertLeaves C
                    ((keys.zip values).foldl (fun m p => mapPut m p.1 p.2) []) db
                    (sortKeys keys)).1).foldl (fun m p => mapPut m p.1 p.2) [])
                  (insertLeaves C
                    ((keys.zip values).foldl (fun m p => mapPut m p.1 p.2) []) db
                    (sortKeys keys)).2
                  (descentFuel C) [⟨root, sortKeys keys, rootNode, 0⟩] [] with
              | mk db2 res =>
                have hdb2 : WellHashed C db2 := by
                  have hgen := genLoop_wellHashed C
                    (((sortKeys keys).zip (insertLeaves C
                      ((keys.zip values).foldl (fun m p => mapPut m p.1 p.2) []) db
                      (sortKeys keys)).1).foldl (fun m p => mapPut m p.1 p.2) [])
                    (descentFuel C)
                    (insertLeaves C
                      ((keys.zip values).foldl (fun m p => mapPut m p.1 p.2) []) db
                      (sortKeys keys)).2
                    [⟨root, sortKeys keys, rootNode, 0⟩] [] hld ?_
                  · rw [hg] at hgen
                    exact hgen
                  · intro c hc
                    rcases List.mem_cons.mp hc with hc | hc
                    · rw [hc]
                      exact mapGet_mem _ _ _ hr
                    · simp at hc
                cases res with
                | error e =>
                    dsimp only
                    exact hdb2
                | ok proofNodes =>
                    dsimp only
                    exact createTree_wellHashed C db2 _ hdb2

theorem insertLeaves_fst_single (C : Ctx V) (db : DB) (k : Key) (v : V) :
    (insertLeaves C [(k, v)] db [k]).1
      = [leafHash C k (dataHash C k (C.enc v))] := by
  have hm : mapGet [(k, v)] k = some v := by simp [mapGet]
  simp only [insertLeaves, hm]

/-- Inserting a single pair into any store returns as root exactly the leaf
hash `H('l' ‖ key ‖ H('d' ‖ key ‖ encoded_value))`. -/
theorem insert_single_root (C : Ctx V) (db : DB) (k : Key) (v : V) :
    (insert C db none [k] [v]).2
      = .ok (leafHash C k (dataHash C k (C.enc v))) := by
  rw [insert_none_eq C db [k] [v] rfl (by simp)]
  have hvm : (([k] : List Key).zip [v]).foldl (fun m p => mapPut m p.1 p.2) []
      = [(k, v)] := rfl
  have hsk : sortKeys [k] = [k] := rfl
  rw [hvm, hsk, insertLeaves_fst_single C db k v]
  rfl

/-! ## Claim C5: the hash-preimage discipline of stored nodes -/

/-- Claim C5: `insert` preserves the hash discipline of the store — every
Data node it stores sits at `H('d' ‖ key ‖ encoded_value)` for the key it
was created under, every Leaf node at `H('l' ‖ key ‖ data_location)`, every
Branch node at `H('b' ‖ zero ‖ one)` (first conjunct: if every node of the
incoming store is so addressed, every node of the store `insert` leaves
behind is too, on every path including errors).  In particular (second
conjunct) inserting a single pair into a tree with no previous root returns
as root exactly `H('l' ‖ key ‖ H('d' ‖ key ‖ encoded_value))`. -/
theorem c5_hash_locations (C : Ctx V) (db : DB) (prev : Option Digest)
    (keys : List Key) (values : List V) (hwh : WellHashed C db) :
    WellHashed C (insert C db prev keys values).1 ∧
    ∀ k v, (insert C db none [k] [v]).2
      = .ok (leafHash C k (dataHash C k (C.enc v))) :=
  ⟨insert_wellHashed C db prev keys values hwh,
   fun k v => insert_single_root C db k v⟩

/-- Witness for C5 at a concrete input: the empty store (vacuously
well-hashed) and the pair `([0x00], [0x01])`. -/
theorem c5_hash_locations_witness :
    WellHashed CtxB (insert CtxB dbEmpty none [[0]] [[1]]).1 ∧
    (insert CtxB dbEmpty none [[0]] [[1]]).2
      = .ok (leafHash CtxB [0] (dataHash CtxB [0] (CtxB.enc [1]))) := by
  have hwh : WellHashed CtxB dbEmpty := by
    intro loc n h
    rcases h with h | h <;> simp [dbEmpty] at h
  exact ⟨(c5_hash_locations CtxB dbEmpty none [[0]] [[1]] hwh).1,
    (c5_hash_locations CtxB dbEmpty none [[0]] [[1]] hwh).2 [0] [1]⟩

/-! ## Claim C6: duplicate keys within a batch -/

/-- An adversarially corrupted store for the second half of the C6
counterexample: the root `[9]` is a branch whose zero child `[1]` claims the
batch key `[0x80]` as its own leaf key while the key routes to the one side,
so the frontier collection promotes that child as a tree ref duplicating the
batch key. -/
def dbAdversarial : DB :=
  ⟨[([9], ⟨1, .branch ⟨2, [1], [3], 0, [0]⟩⟩),
    ([1], ⟨1, .leaf ⟨[128], [2]⟩⟩),
    ([3], ⟨1, .leaf ⟨[5], [4]⟩⟩)], []⟩

/-- Counterexample to claim C6, both halves.  First: a batch with two
identical keys but an unresolvable previous root fails with the
root-not-found error, not DuplicateKey — the duplicate check is only reached
after the earlier phases succeed.  Second: a batch of pairwise-distinct keys
(a single key!) inserted over a corrupted store raises DuplicateKey, because
a frontier node's stored witness key can collide with a batch key. -/
theorem c6_counterexample :
    (insert CtxB dbEmpty (some [9]) [[0], [0]] [[1], [1]]).2
        = .error .rootNotFound ∧
    (insert CtxB dbAdversarial (some [9]) [[128]] [[7]]).2
        = .error .duplicateKey := by
  constructor
  · decide
  · decide

/-- Claim C6 as amended, restricted to `insert` with no previous root (with a
previous root an earlier failure such as root-not-found can preempt the
check, and a corrupted store can raise the error spuriously): a nonempty
equal-length batch containing two identical keys always fails with
DuplicateKey, and one with pairwise-distinct keys never does — indeed it
returns a new root. -/
theorem c6_duplicate_key (C : Ctx V) (db : DB) (keys : List Key)
    (values : List V) (hK : 0 < C.keyLen)
    (hlen : ∀ k ∈ keys, k.length = C.keyLen)
    (hlv : keys.length = values.length) (hne : keys ≠ []) :
    (¬ keys.Nodup → (insert C db none keys values).2 = .error .duplicateKey) ∧
    (keys.Nodup → ∃ r, (insert C db none keys values).2 = .ok r) := by
  have hins := insert_none_eq C db keys values hlv hne
  set vm := (keys.zip values).foldl (fun m p => mapPut m p.1 p.2) [] with hvm
  set skeys := sortKeys keys with hskdef
  set locs := (insertLeaves C vm db skeys).1 with hlocsdef
  set refs := List.zipWith (fun loc k => TreeRef.mk k loc 1 1) locs skeys
    with hrefsdef
  have hperm := sortKeys_perm keys
  have hsorted := sortKeys_sorted keys
  have hlenS : ∀ k ∈ skeys, k.length = C.keyLen := fun k hk =>
    hlen k (hperm.subset hk)
  have hlocs_len : locs.length = skeys.length :=
    insertLeaves_fst_length C vm db skeys
  have hkeys_eq : refs.map TreeRef.key = skeys :=
    zipWith_ref_keys locs skeys hlocs_len
  have hrefs_len : refs.length = skeys.length := by
    rw [← hkeys_eq, List.length_map]
  have hsortedR : SortedBy (fun a b => keyLe a.key b.key) refs := by
    have h := hsorted
    rw [← hskdef, ← hkeys_eq] at h
    exact List.pairwise_map.mp h
  have hsr : sortRefs refs = refs := sortBy_eq_self _ refs hsortedR
  have hsize : (sortRefs refs).toArray.size = refs.length := by
    rw [hsr]
    try simp
  have hkey_at : ∀ j, ((sortRefs refs).toArray.getD j default).key
      = skeys.getD j [] := by
    intro j
    rw [toArray_getD, hsr, getD_key_map, hkeys_eq]
    rfl
  constructor
  · intro hdup
    have hdupS : ¬ skeys.Nodup := fun h => hdup (hperm.nodup h)
    obtain ⟨l₁, a, l₂, hshape⟩ :=
      sorted_dup_adjacent C.keyLen skeys hsorted hlenS hdupS
    have hlen2 : 2 ≤ refs.length := by
      rw [hrefs_len, hshape]
      simp
      try omega
    have hadj : (skeys.getD l₁.length []) = (skeys.getD (l₁.length + 1) []) := by
      rw [hshape, getD_append_cons l₁ (a :: l₂) a []]
      have hshift : l₁ ++ a :: a :: l₂ = (l₁ ++ [a]) ++ a :: l₂ := by simp
      rw [hshift]
      have hla : (l₁ ++ [a]).length = l₁.length + 1 := by simp
      rw [← hla, getD_append_cons (l₁ ++ [a]) l₂ a []]
    have hrange : l₁.length < 0 + ((sortRefs refs).toArray.size - 1) := by
      rw [hsize, hrefs_len, hshape]
      simp
      try omega
    have hq := buildQueueGo_dup C.keyLen hK (sortRefs refs).toArray
      ((sortRefs refs).toArray.size - 1) 0
      ⟨l₁.length, by omega, hrange, by rw [hkey_at, hkey_at]; exact hadj⟩
    rw [hins, createTree_big_err C _ refs hlen2 _ hq]
  · intro hnodup
    have hnodupS : skeys.Nodup := hperm.nodup_iff.mpr hnodup
    have hlen1 : 1 ≤ refs.length := by
      rw [hrefs_len, hskdef, (sortKeys_perm keys).length_eq]
      cases keys with
      | nil => exact absurd rfl hne
      | cons k ks => simp
    rcases Nat.lt_or_ge refs.length 2 with hsmall | hbig
    · -- a single tree ref: its location is the root
      match hre : refs, hlen1, hsmall with
      | [r0], _, _ =>
          refine ⟨r0.location, ?_⟩
          rw [hins, hre]
          rfl
    · have hadjne : ∀ j, j + 1 < skeys.length →
          skeys.getD j [] ≠ skeys.getD (j + 1) [] := by
        intro j hj heq
        have hj0 : j < skeys.length := by omega
        rw [List.getD_eq_getElem _ _ hj0, List.getD_eq_getElem _ _ hj] at heq
        have := (List.Nodup.getElem_inj_iff hnodupS).mp heq
        omega
      have hmem : ∀ j, j < skeys.length → skeys.getD j [] ∈ skeys := by
        intro j hj
        rw [List.getD_eq_getElem _ _ hj]
        exact skeys.getElem_mem hj
      have hq := buildQueueGo_ok C.keyLen (sortRefs refs).toArray
        ((sortRefs refs).toArray.size - 1) 0 ?hyp
      case hyp =>
        intro j hj0 hjr
        rw [hsize, hrefs_len] at hjr
        refine ⟨?_, ?_, ?_⟩
        · rw [hkey_at, hkey_at]
          exact hadjne j (by omega)
        · rw [hkey_at]
          exact hlenS _ (hmem j (by omega))
        · rw [hkey_at]
          exact hlenS _ (hmem (j + 1) (by omega))
      have hq_ne : adjQueue C.keyLen (sortRefs refs).toArray
          ((sortRefs refs).toArray.size - 1) 0 ≠ [] := by
        rw [hsize]
        have h1 : refs.length - 1 = (refs.length - 2) + 1 := by omega
        rw [h1]
        simp [adjQueue]
      have hsq_ne : sortQueue (adjQueue C.keyLen (sortRefs refs).toArray
          ((sortRefs refs).toArray.size - 1) 0) ≠ [] := by
        intro h
        have hp : (sortQueue (adjQueue C.keyLen (sortRefs refs).toArray
            ((sortRefs refs).toArray.size - 1) 0)).Perm
              (adjQueue C.keyLen (sortRefs refs).toArray
                ((sortRefs refs).toArray.size - 1) 0) :=
          sortBy_perm queueGe _
        rw [h] at hp
        exact hq_ne hp.symm.eq_nil
      obtain ⟨db', r, hmerge⟩ := mergeLoop_ok C
        (insertLeaves C vm db skeys).2 (sortRefs refs).toArray _ hsq_ne
      refine ⟨r, ?_⟩
      rw [hins, createTree_big_ok C _ refs hbig _ hq, hmerge]

/-- Witness for the amended C6 at a concrete input: the batch
`[(0x00, 0x01), (0x00, 0x02)]` duplicates its key and fails. -/
theorem c6_duplicate_key_witness :
    (insert CtxB dbEmpty none [[0], [0]] [[1], [2]]).2 = .error .duplicateKey :=
  (c6_duplicate_key CtxB dbEmpty [[0], [0]] [[1], [2]] (by decide)
    (by decide) (by decide) (by decide)).1 (by decide)

/-! ## Claim C3: `get` and nodes absent from the store -/

/-- The store left by inserting `([0x00], [0x01])` into the empty store. -/
def dbOneLeaf : DB := (insert CtxB dbEmpty none [[0]] [[1]]).1

/-- The location of the leaf for `([0x00], [0x01])` under `CtxB`. -/
def oldLeafLoc : Digest := leafHash CtxB [0] (dataHash CtxB [0] [1])

/-- Counterexample to claim C4: rebind key `[0x00]` (bound to `[0x01]` at
`oldLeafLoc` in `dbOneLeaf`) to the new value `[0x02]`.  The batch contains
the leaf's key but the builder chose a different location, so the claim
requires the old leaf's reference count to be incremented and the leaf to be
emitted as a TreeRef; instead the old leaf is left completely untouched
(still 1 reference) and the new root is just the new leaf — the old leaf was
neither re-counted nor woven into the new tree. -/
theorem c4_counterexample :
    (insert CtxB dbOneLeaf (some oldLeafLoc) [[0]] [[2]]).1.get_node oldLeafLoc
      = some ⟨1, .leaf ⟨[0], dataHash CtxB [0] [1]⟩⟩ ∧
    (insert CtxB dbOneLeaf (some oldLeafLoc) [[0]] [[2]]).2
      = .ok (leafHash CtxB [0] (dataHash CtxB [0] [2])) := by
  constructor
  · decide
  · decide

/-- Claim C4 as amended, characterizing the three leaf cases of the frontier
collection loop (`key_map` is the builder's map from batch key to new leaf
location): a leaf whose key is in the batch at the same location is
re-written with its committed reference count + 1 (the same write phase 1
already buffered) and no TreeRef is emitted; a leaf whose key is in the
batch at a different location is skipped entirely — no reference-count
change and no TreeRef; a leaf whose key is not in the batch has its
reference count incremented and is emitted as a TreeRef with
`node_count = 1`. -/
theorem c4_gen_leaf_cases (C : Ctx V) (keyMap : List (Key × Digest)) (db : DB)
    (fuel : Nat) (cells : List TreeCell) (acc : List TreeRef)
    (cell : TreeCell) (l : TreeLeaf)
    (hv : cell.node.variant = .leaf l) (hd : cell.depth ≤ C.depth) :
    (∀ loc n, mapGet keyMap l.key = some loc → loc = cell.location →
      db.get_node cell.location = some n →
      genLoop C keyMap db (fuel + 1) (cell :: cells) acc =
        genLoop C keyMap (db.insert cell.location ⟨n.references + 1, n.variant⟩)
          fuel cells acc) ∧
    (∀ loc, mapGet keyMap l.key = some loc → loc ≠ cell.location →
      genLoop C keyMap db (fuel + 1) (cell :: cells) acc =
        genLoop C keyMap db fuel cells acc) ∧
    (mapGet keyMap l.key = none → ∀ n, db.get_node cell.location = some n →
      genLoop C keyMap db (fuel + 1) (cell :: cells) acc =
        genLoop C keyMap (db.insert cell.location ⟨n.references + 1, n.variant⟩)
          fuel cells (acc ++ [⟨l.key, cell.location, 1, 1⟩])) := by
  have hnd : ¬ cell.depth > C.depth := by omega
  refine ⟨?_, ?_, ?_⟩
  · intro loc n hk hloc hn
    subst hloc
    simp [genLoop, hv, hnd, hk, hn]
  · intro loc hk hloc
    simp [genLoop, hv, hnd, hk, hloc]
  · intro hk n hn
    simp [genLoop, hv, hnd, hk, hn]

/-- Witness for the amended C4 at a concrete input: the rebind scenario of
the counterexample, whose old leaf is skipped entirely. -/
theorem c4_gen_leaf_cases_witness :
    genLoop CtxB [([0], leafHash CtxB [0] (dataHash CtxB [0] [2]))] dbOneLeaf 1
        [⟨oldLeafLoc, [[0]], ⟨1, .leaf ⟨[0], dataHash CtxB [0] [1]⟩⟩, 0⟩] [] =
      genLoop CtxB [([0], leafHash CtxB [0] (dataHash CtxB [0] [2]))] dbOneLeaf 0
        [] [] := by
  have h := (c4_gen_leaf_cases CtxB
    [([0], leafHash CtxB [0] (dataHash CtxB [0] [2]))] dbOneLeaf 0 [] []
    ⟨oldLeafLoc, [[0]], ⟨1, .leaf ⟨[0], dataHash CtxB [0] [1]⟩⟩, 0⟩
    ⟨[0], dataHash CtxB [0] [1]⟩ rfl (by decide)).2.1
  exact h (leafHash CtxB [0] (dataHash CtxB [0] [2])) (by decide) (by decide)

/-! ## Array plumbing for the merge loop -/

theorem size_setD {α : Type} (A : Array α) (i : Nat) (v : α) :
    (A.setD i v).size = A.size := by
  unfold Array.setD
  split <;> simp

theorem getD_setD_self {α : Type} (A : Array α) (i : Nat) (v d : α)
    (h : i < A.size) : (A.setD i v).getD i d = v := by
  unfold Array.setD Array.getD
  rw [dif_pos h]
  have h2 : i < (A.set ⟨i, h⟩ v).size := by simpa using h
  rw [dif_pos h2]
  simp

theorem getD_setD_ne {α : Type} (A : Array α) (i j : Nat) (v d : α)
    (hne : i ≠ j) : (A.setD i v).getD j d = A.getD j d := by
  unfold Array.setD Array.getD
  by_cases h : i < A.size
  · rw [dif_pos h]
    by_cases hj : j < A.size
    · have h2 : j < (A.set ⟨i, h⟩ v).size := by simpa using hj
      rw [dif_pos h2, dif_pos hj]
      show (A.set ⟨i, h⟩ v)[j] = A[j]
      exact Array.getElem_set_ne _ _ _ h2 hne
    · have h2 : ¬ j < (A.set ⟨i, h⟩ v).size := by simpa using hj
      rw [dif_neg h2, dif_neg hj]
  · rw [dif_neg h]

/-! ## The lookahead walk of the merge loop

`lookahead_go` keeps jumping to `i + cnt` while the count found there exceeds
the running count.  `WalkEnds A i cnt r` is the graph of that walk. -/

inductive WalkEnds (A : Array TreeRef) (i : Nat) : Nat → Nat → Prop
  | stop (cnt : Nat) (h1 : 1 ≤ cnt) (h : (A.getD (i + cnt) default).count ≤ cnt) :
      WalkEnds A i cnt (i + cnt)
  | step (cnt r : Nat) (h1 : 1 ≤ cnt) (h : cnt < (A.getD (i + cnt) default).count)
      (h2 : WalkEnds A i ((A.getD (i + cnt) default).count) r) :
      WalkEnds A i cnt r

theorem walkEnds_le (A : Array TreeRef) (i cnt r : Nat)
    (h : WalkEnds A i cnt r) : i + cnt ≤ r := by
  induction h with
  | stop cnt h1 h => exact le_refl _
  | step cnt r h1 h h2 ih => omega

theorem lookaheadGo_walk (A : Array TreeRef) (i : Nat) :
    ∀ cnt r fuel, WalkEnds A i cnt r → r < i + cnt + fuel →
      lookaheadGo A i fuel cnt = r := by
  intro cnt r fuel hw
  induction fuel generalizing cnt with
  | zero =>
      intro hlt
      have := walkEnds_le A i cnt r hw
      omega
  | succ f ih =>
      intro hlt
      cases hw with
      | stop cnt h1 h =>
          show (if (A.getD (i + cnt) default).count > cnt then _ else i + cnt)
            = i + cnt
          rw [if_neg (by omega)]
      | step cnt r h1 h h2 =>
          show (if (A.getD (i + cnt) default).count > cnt then
            lookaheadGo A i f ((A.getD (i + cnt) default).count) else i + cnt)
            = r
          rw [if_pos (by omega)]
          exact ih _ h2 (by have := walkEnds_le A i _ r h2; omega)

/-- The walk is unaffected by array changes strictly outside the window
`(i, r]` it reads. -/
theorem walk_congr (A A' : Array TreeRef) (i : Nat) (cnt r : Nat)
    (hw : WalkEnds A i cnt r)
    (hagree : ∀ q, i < q → q ≤ r → A'.getD q default = A.getD q default) :
    WalkEnds A' i cnt r := by
  induction hw with
  | stop cnt h1 h =>
      exact .stop cnt h1
        (by rw [hagree (i + cnt) (by omega) (le_refl _)]; exact h)
  | step cnt r h1 h h2 ih =>
      have hle := walkEnds_le A i _ r h2
      have he : A'.getD (i + cnt) default = A.getD (i + cnt) default :=
        hagree (i + cnt) (by omega) (by omega)
      refine .step cnt r h1 (by rw [he]; exact h) ?_
      rw [he]
      exact ih hagree

/-- When the count at the walk's endpoint grows, the walk continues from
there: the old endpoint turns into one more jump. -/
theorem walk_extend (A A' : Array TreeRef) (i : Nat) (cnt r r' : Nat)
    (hw : WalkEnds A i cnt r)
    (hagree : ∀ q, q < r → A'.getD q default = A.getD q default)
    (hgrow : r < i + (A'.getD r default).count)
    (hcont : WalkEnds A' i ((A'.getD r default).count) r') :
    WalkEnds A' i cnt r' := by
  induction hw with
  | stop cnt h1 h =>
      exact .step cnt r' h1 (by omega) hcont
  | step cnt r h1 h h2 ih =>
      have hle := walkEnds_le A i _ r h2
      have he : A'.getD (i + cnt) default = A.getD (i + cnt) default :=
        hagree (i + cnt) (by omega)
      refine .step cnt r' h1 (by rw [he]; omega) ?_
      rw [he]
      exact ih hagree hgrow hcont

/-! ## `takeWhile`/`dropWhile` on bit-partitioned sorted key lists -/

theorem takeWhile_filter {α : Type} (p : α → Bool) (l : List α)
    (h : l.Pairwise (fun x y => p y = true → p x = true)) :
    l.takeWhile p = l.filter p ∧
      l.dropWhile p = l.filter (fun x => ! p x) := by
  induction l with
  | nil => exact ⟨rfl, rfl⟩
  | cons x xs ih =>
      obtain ⟨hx, hxs⟩ := List.pairwise_cons.mp h
      by_cases hp : p x = true
      · have := ih hxs
        simp only [List.takeWhile_cons, List.filter_cons, List.dropWhile_cons,
          hp, if_true, Bool.not_true]
        constructor
        · rw [this.1]
        · rw [this.2]
          simp
      · have hall : ∀ y ∈ xs, ¬ p y = true := fun y hy hpy => hp (hx y hy hpy)
        have hf1 : xs.filter p = [] := List.filter_eq_nil_iff.mpr hall
        have hf2 : (x :: xs).filter (fun a => ! p a) = x :: xs := by
          refine List.filter_eq_self.mpr ?_
          intro a ha
          rcases List.mem_cons.mp ha with ha | ha
          · subst ha
            simp [hp]
          · simp [hall a ha]
      -- takeWhile stops at x; the positive filter is empty
        constructor
        · simp [List.takeWhile_cons, hp, List.filter_cons, hf1]
        · rw [List.dropWhile_cons, if_neg (by simp [hp]), hf2]

/-! ## The key sequence of a sorted batch and its adjacent split bits -/

/-- The `j`-th key of the sorted batch. -/
def kf (ks : List Key) (j : Nat) : Key := ks.getD j []

/-- The split bit of the adjacent pair `(j, j+1)` of the sorted batch: what
`generate_tree_ref_queue` pushes for that pair. -/
def sB (K : Nat) (ks : List Key) (j : Nat) : Nat :=
  firstDiffBit K (kf ks j) (kf ks (j + 1))

theorem kf_getElem (ks : List Key) (j : Nat) (hj : j < ks.length) :
    kf ks j = ks.get ⟨j, hj⟩ := by
  show ks.getD j [] = _
  rw [List.getD_eq_getElem?_getD, List.getElem?_eq_getElem hj]
  rfl

theorem sortedBy_kf (ks : List Key) (hs : SortedBy keyLe ks) (i j : Nat)
    (hij : i < j) (hj : j < ks.length) : keyLe (kf ks i) (kf ks j) = true := by
  rw [kf_getElem ks i (by omega), kf_getElem ks j hj]
  exact (List.pairwise_iff_getElem.mp hs) i j (by omega) hj hij

theorem nodup_kf (ks : List Key) (hn : ks.Nodup) (i j : Nat)
    (hij : i < j) (hj : j < ks.length) : kf ks i ≠ kf ks j := by
  rw [kf_getElem ks i (by omega), kf_getElem ks j hj]
  exact (List.pairwise_iff_getElem.mp hn) i j (by omega) hj hij

theorem valid_kf (K : Nat) (ks : List Key) (hv : ∀ k ∈ ks, ValidKey K k)
    (j : Nat) (hj : j < ks.length) : ValidKey K (kf ks j) := by
  rw [kf_getElem ks j hj]
  exact hv _ (List.getElem_mem hj)

/-- Agreement propagates along a run of adjacent pairs whose split bits are
all at least `s`: every key of the run has the same bits below `s`. -/
theorem chain_agree (K : Nat) (ks : List Key) (hs : SortedBy keyLe ks)
    (hv : ∀ k ∈ ks, ValidKey K k) (s a : Nat) :
    ∀ b, a ≤ b → b < ks.length → (∀ m, a ≤ m → m < b → s ≤ sB K ks m) →
      ∀ t, t < s → chooseZero (kf ks b) t = chooseZero (kf ks a) t := by
  intro b
  induction b with
  | zero =>
      intro hab _ _ t _
      have : a = 0 := by omega
      rw [this]
  | succ b ih =>
      intro hab hb hm t ht
      by_cases hab' : a = b + 1
      · rw [hab']
      · have h1 : chooseZero (kf ks b) t = chooseZero (kf ks (b + 1)) t := by
          have hvb := valid_kf K ks hv b (by omega)
          have hvb1 := valid_kf K ks hv (b + 1) hb
          exact fdb_agreeBelow K _ _ hvb hvb1 t
            (lt_of_lt_of_le ht (hm b (by omega) (by omega)))
        rw [← h1]
        exact ih (by omega) (by omega) (fun m h1 h2 => hm m h1 (by omega)) t ht

/-- A key carrying bit 1 at `s` passes that bit right along a run whose
adjacent split bits are all at least `s`. -/
theorem chain_ones (K : Nat) (ks : List Key) (hs : SortedBy keyLe ks)
    (hn : ks.Nodup) (hv : ∀ k ∈ ks, ValidKey K k) (s a : Nat)
    (hbit : chooseZero (kf ks a) s = false) :
    ∀ b, a ≤ b → b < ks.length → (∀ m, a ≤ m → m < b → s ≤ sB K ks m) →
      chooseZero (kf ks b) s = false := by
  intro b
  induction b with
  | zero =>
      intro hab _ _
      have : a = 0 := by omega
      rw [← this]
      exact hbit
  | succ b ih =>
      intro hab hb hm
      by_cases hab' : a = b + 1
      · rw [← hab']; exact hbit
      · have hprev : chooseZero (kf ks b) s = false :=
          ih (by omega) (by omega) (fun m h1 h2 => hm m h1 (by omega))
        have hvb := valid_kf K ks hv b (by omega)
        have hvb1 := valid_kf K ks hv (b + 1) hb
        have hne := nodup_kf ks hn b (b + 1) (by omega) hb
        rcases Nat.lt_or_ge s (sB K ks b) with hlt | hge
        · rw [← fdb_agreeBelow K _ _ hvb hvb1 s hlt]
          exact hprev
        · have hseq : firstDiffBit K (kf ks b) (kf ks (b + 1)) = s :=
            le_antisymm hge (hm b (by omega) (by omega))
          have := (keyLe_bits K _ _ hvb hvb1 hne
            (sortedBy_kf ks hs b (b + 1) (by omega) hb)).1
          rw [hseq] at this
          rw [this] at hprev
          exact absurd hprev (by simp)

/-- A key carrying bit 0 at `s` passes that bit left along a run whose
adjacent split bits are all strictly above `s`. -/
theorem chain_zeros (K : Nat) (ks : List Key) (hs : SortedBy keyLe ks)
    (hv : ∀ k ∈ ks, ValidKey K k) (s a b c : Nat)
    (hbit : chooseZero (kf ks b) s = true) (hab : a ≤ b) (hb : b < ks.length)
    (hm : ∀ m, a ≤ m → m < b → s < sB K ks m) (hc : a ≤ c) (hcb : c ≤ b) :
    chooseZero (kf ks c) s = true := by
  have := chain_agree K ks hs hv (s + 1) c b hcb hb
    (fun m h1 h2 => hm m (by omega) h2) s (by omega)
  rw [← this]
  exact hbit

/-- Agreement below `s` plus disagreement at `s` pins the first differing
bit to exactly `s`. -/
theorem fdb_eq_exact (K : Nat) (a b : Key) (ha : ValidKey K a)
    (hb : ValidKey K b) (s : Nat) (hsK : s ≤ 8 * K)
    (hag : ∀ t, t < s → chooseZero a t = chooseZero b t)
    (hd : chooseZero a s ≠ chooseZero b s) : firstDiffBit K a b = s := by
  have hge := fdb_ge_of_agree K a b ha hb s hsK hag
  rcases Nat.lt_or_ge s (firstDiffBit K a b) with hlt | hle
  · exact absurd (fdb_agreeBelow K a b ha hb s hlt) hd
  · omega

/-! ## Contiguous entry segments of the sorted batch -/

/-- The entries of the sorted batch between positions `l` and `r`
inclusive. -/
def segEnts {V : Type} (ents : List (Key × V)) (l r : Nat) : List (Key × V) :=
  (ents.drop l).take (r + 1 - l)

theorem segEnts_getElem {V : Type} (ents : List (Key × V)) (l r j : Nat)
    (hj : j < r + 1 - l) : (segEnts ents l r)[j]? = ents[l + j]? := by
  show ((ents.drop l).take (r + 1 - l))[j]? = _
  rw [List.getElem?_take, if_pos hj, List.getElem?_drop]

theorem segEnts_append {V : Type} (ents : List (Key × V)) (l i r : Nat)
    (hli : l ≤ i) (hir : i < r) :
    segEnts ents l i ++ segEnts ents (i + 1) r = segEnts ents l r := by
  show (ents.drop l).take (i + 1 - l) ++ (ents.drop (i + 1)).take (r + 1 - (i + 1))
      = (ents.drop l).take (r + 1 - l)
  have h1 : r + 1 - l = (i + 1 - l) + (r - i) := by omega
  rw [h1, List.take_add]
  congr 1
  rw [List.drop_drop]
  rw [show l + (i + 1 - l) = i + 1 from by omega,
    show r + 1 - (i + 1) = r - i from by omega]

theorem segEnts_single {V : Type} (ents : List (Key × V)) (j : Nat)
    (e : Key × V) (hj : ents[j]? = some e) : segEnts ents j j = [e] := by
  have hlt : j < ents.length := (List.getElem?_eq_some.mp hj).1
  show (ents.drop j).take (j + 1 - j) = _
  have h0 : j + 1 - j = 1 := by omega
  rw [h0, List.drop_eq_getElem_cons hlt]
  have : ents[j] = e := by
    have := (List.getElem?_eq_some.mp hj).2
    exact this
  rw [this]
  rfl

theorem segEnts_mem {V : Type} (ents : List (Key × V)) (l r : Nat)
    (e : Key × V) (he : e ∈ segEnts ents l r) :
    ∃ j, l ≤ j ∧ j ≤ r ∧ ents[j]? = some e := by
  obtain ⟨j, hj, hget⟩ := List.mem_iff_getElem.mp he
  have hj1 : j < r + 1 - l := by
    have := hj.trans_le (List.length_take_le _ _)
    exact this
  have hq : (segEnts ents l r)[j]? = some e := by
    rw [List.getElem?_eq_getElem hj, hget]
  rw [segEnts_getElem ents l r j hj1] at hq
  exact ⟨l + j, by omega, by omega, hq⟩

theorem segEnts_mem_of {V : Type} (ents : List (Key × V)) (l r j : Nat)
    (e : Key × V) (hj : ents[j]? = some e) (hlj : l ≤ j) (hjr : j ≤ r) :
    e ∈ segEnts ents l r := by
  refine List.mem_iff_getElem?.mpr ⟨j - l, ?_⟩
  rw [segEnts_getElem ents l r (j - l) (by omega)]
  rw [show l + (j - l) = j from by omega]
  exact hj

theorem segEnts_ne_nil {V : Type} (ents : List (Key × V)) (l r : Nat)
    (hl : l < ents.length) (hlr : l ≤ r) : segEnts ents l r ≠ [] := by
  have hg : ents[l]? = some (ents.get ⟨l, hl⟩) := List.getElem?_eq_getElem hl
  have := segEnts_mem_of ents l r l _ hg (le_refl _) hlr
  intro hcon
  rw [hcon] at this
  exact absurd this (List.not_mem_nil _)

/-! ## Injectivity consequences of the domain-separated hasher -/

theorem hash_head_ne {V : Type} (C : Ctx V) (hinj : Function.Injective C.H)
    (c1 c2 : Nat) (x y : List Nat) (hc : c1 ≠ c2) :
    C.H (c1 :: x) ≠ C.H (c2 :: y) := by
  intro h
  have := hinj h
  exact hc (List.head_eq_of_cons_eq this)

theorem leafHash_inj {V : Type} (C : Ctx V) (hinj : Function.Injective C.H)
    (K : Nat) (k1 k2 : Key) (d1 d2 : Digest) (h1 : k1.length = K)
    (h2 : k2.length = K) (heq : leafHash C k1 d1 = leafHash C k2 d2) :
    k1 = k2 ∧ d1 = d2 := by
  have := hinj heq
  have htl : k1 ++ d1 = k2 ++ d2 := List.tail_eq_of_cons_eq this
  exact List.append_inj htl (by omega)

theorem dataHash_inj {V : Type} (C : Ctx V) (hinj : Function.Injective C.H)
    (K : Nat) (k1 k2 : Key) (v1 v2 : List Nat) (h1 : k1.length = K)
    (h2 : k2.length = K) (heq : dataHash C k1 v1 = dataHash C k2 v2) :
    k1 = k2 ∧ v1 = v2 := by
  have := hinj heq
  have htl : k1 ++ v1 = k2 ++ v2 := List.tail_eq_of_cons_eq this
  exact List.append_inj htl (by omega)

theorem branchHash_inj {V : Type} (C : Ctx V) (hinj : Function.Injective C.H)
    (z1 z2 o1 o2 : Digest) (hz : z1.length = z2.length)
    (heq : branchHash C z1 o1 = branchHash C z2 o2) : z1 = z2 ∧ o1 = o2 := by
  have := hinj heq
  have htl : z1 ++ o1 = z2 ++ o2 := List.tail_eq_of_cons_eq this
  exact List.append_inj htl hz

/-- Every trie root is an output of the hasher. -/
theorem trie_loc_isH {V : Type} (C : Ctx V) (h : Digest → Option TreeNode)
    (loc : Digest) (E : List (Key × V)) (pl : Nat) (hT : Trie C h loc E pl) :
    ∃ x, loc = C.H x := by
  cases hT with
  | leaf loc k v r r' pl hk hn hd hloc => exact ⟨_, hloc⟩
  | branch loc b r E0 E1 pl hn hloc => exact ⟨_, hloc⟩

/-! ## The leaf phase against the flushed view -/

/-- The encoded value `insert_leaves` stores for a key (its lookup in the
batch's value map). -/
def encOf {V : Type} (C : Ctx V) (vm : List (Key × V)) (k : Key) : List Nat :=
  match mapGet vm k with
  | some v => C.enc v
  | none => []

/-- The data location `insert_leaves` computes for a key. -/
def dlocOf {V : Type} (C : Ctx V) (vm : List (Key × V)) (k : Key) : Digest :=
  dataHash C k (encOf C vm k)

/-- The leaf location `insert_leaves` computes for a key. -/
def llocOf {V : Type} (C : Ctx V) (vm : List (Key × V)) (k : Key) : Digest :=
  leafHash C k (dlocOf C vm k)

/-- The bumped reference count `insert_leaves` gives a node it writes. -/
def bumpRefs (db : DB) (loc : Digest) : Nat :=
  match db.get_node loc with
  | some n => n.references + 1
  | none => 1

/-- The store after the two buffered writes of one `insert_leaves`
iteration. -/
def leafStep {V : Type} (C : Ctx V) (vm : List (Key × V)) (db : DB)
    (k : Key) : DB :=
  (db.insert (dlocOf C vm k)
      ⟨bumpRefs db (dlocOf C vm k), .data ⟨encOf C vm k⟩⟩).insert
    (llocOf C vm k)
    ⟨bumpRefs ((db.insert (dlocOf C vm k)
        ⟨bumpRefs db (dlocOf C vm k), .data ⟨encOf C vm k⟩⟩))
      (llocOf C vm k), .leaf ⟨k, dlocOf C vm k⟩⟩

theorem insertLeaves_cons (C : Ctx V) (vm : List (Key × V)) (db : DB)
    (k : Key) (rest : List Key) :
    insertLeaves C vm db (k :: rest)
      = (llocOf C vm k :: (insertLeaves C vm (leafStep C vm db k) rest).1,
         (insertLeaves C vm (leafStep C vm db k) rest).2) := rfl

theorem insertLeaves_locs (C : Ctx V) (vm : List (Key × V)) (db : DB)
    (ks : List Key) :
    (insertLeaves C vm db ks).1 = ks.map (llocOf C vm) := by
  induction ks generalizing db with
  | nil => rfl
  | cons k rest ih =>
      rw [insertLeaves_cons, List.map_cons]
      show llocOf C vm k :: (insertLeaves C vm (leafStep C vm db k) rest).1 = _
      rw [ih]

theorem insertLeaves_view_frame (C : Ctx V) (vm : List (Key × V)) (db : DB)
    (ks : List Key) (x : Digest)
    (hx : ∀ k ∈ ks, x ≠ llocOf C vm k ∧ x ≠ dlocOf C vm k) :
    (insertLeaves C vm db ks).2.view x = db.view x := by
  induction ks generalizing db with
  | nil => rfl
  | cons k rest ih =>
      rw [insertLeaves_cons]
      show (insertLeaves C vm (leafStep C vm db k) rest).2.view x = _
      rw [ih _ (fun k' hk' => hx k' (List.mem_cons_of_mem _ hk'))]
      rw [leafStep, view_insert, view_insert, hput, hput]
      rw [if_neg (hx k (by simp)).1, if_neg (hx k (by simp)).2]

/-- After `insert_leaves`, the flushed view holds, at every batch key's leaf
and data locations, exactly the leaf and data nodes of that key. -/
theorem insertLeaves_view (C : Ctx V) (vm : List (Key × V)) (db : DB)
    (ks : List Key) (K : Nat) (hinj : Function.Injective C.H)
    (hval : ∀ k ∈ ks, k.length = K) (hnd : ks.Nodup) :
    ∀ k ∈ ks, ∃ r1 r2,
      (insertLeaves C vm db ks).2.view (llocOf C vm k)
        = some ⟨r1, .leaf ⟨k, dlocOf C vm k⟩⟩ ∧
      (insertLeaves C vm db ks).2.view (dlocOf C vm k)
        = some ⟨r2, .data ⟨encOf C vm k⟩⟩ := by
  induction ks generalizing db with
  | nil => intro k hk; exact absurd hk (List.not_mem_nil _)
  | cons k0 rest ih =>
      intro k hk
      rcases List.mem_cons.mp hk with hk | hk
      · subst hk
        have hfr : ∀ y, (y = llocOf C vm k ∨ y = dlocOf C vm k) →
            (insertLeaves C vm (leafStep C vm db k) rest).2.view y
              = (leafStep C vm db k).view y := by
          intro y hy
          apply insertLeaves_view_frame
          intro k' hk'
          have hne : k' ≠ k := by
            intro he
            rw [he] at hk'
            exact (List.nodup_cons.mp hnd).1 hk'
          have hlk : k'.length = K := hval k' (List.mem_cons_of_mem _ hk')
          have hkk : k.length = K := hval k (by simp)
          rcases hy with hy | hy <;> subst hy
          · constructor
            · intro he
              exact hne ((leafHash_inj C hinj K k k' _ _ hkk hlk he).1).symm
            · exact hash_head_ne C hinj 108 100 _ _ (by omega)
          · constructor
            · exact hash_head_ne C hinj 100 108 _ _ (by omega)
            · intro he
              exact hne ((dataHash_inj C hinj K k k' _ _ hkk hlk he).1).symm
        have h1 : (insertLeaves C vm db (k :: rest)).2.view (llocOf C vm k)
            = some ⟨bumpRefs (db.insert (dlocOf C vm k)
                ⟨bumpRefs db (dlocOf C vm k), .data ⟨encOf C vm k⟩⟩)
                (llocOf C vm k), .leaf ⟨k, dlocOf C vm k⟩⟩ := by
          rw [insertLeaves_cons]
          show (insertLeaves C vm (leafStep C vm db k) rest).2.view
            (llocOf C vm k) = _
          rw [hfr _ (Or.inl rfl), leafStep, view_insert, hput, if_pos rfl]
        have h2 : (insertLeaves C vm db (k :: rest)).2.view (dlocOf C vm k)
            = some ⟨bumpRefs db (dlocOf C vm k), .data ⟨encOf C vm k⟩⟩ := by
          rw [insertLeaves_cons]
          show (insertLeaves C vm (leafStep C vm db k) rest).2.view
            (dlocOf C vm k) = _
          have hne2 : ¬ dlocOf C vm k = llocOf C vm k :=
            hash_head_ne C hinj 100 108 (k ++ encOf C vm k)
              (k ++ dlocOf C vm k) (by omega)
          rw [hfr _ (Or.inr rfl), leafStep, view_insert, hput, if_neg hne2,
            view_insert, hput, if_pos rfl]
        exact ⟨_, _, h1, h2⟩
      · have := ih (leafStep C vm db k0)
          (fun k' h' => hval k' (List.mem_cons_of_mem _ h'))
          (List.nodup_cons.mp hnd).2 k hk
        rw [insertLeaves_cons]
        exact this

/-! ## Lookups in the folded maps -/

theorem foldl_mapPut_not_mem {α β : Type} [DecidableEq α]
    (l : List (α × β)) (m0 : List (α × β)) (k : α) (hk : k ∉ l.map Prod.fst) :
    mapGet (l.foldl (fun m p => mapPut m p.1 p.2) m0) k = mapGet m0 k := by
  induction l generalizing m0 with
  | nil => rfl
  | cons p rest ih =>
      show mapGet (rest.foldl _ (mapPut m0 p.1 p.2)) k = _
      rw [ih _ (fun h => hk (by simp [h])), mapGet_mapPut,
        if_neg (fun h => hk (by simp [h]))]

theorem foldl_mapPut_get {α β : Type} [DecidableEq α]
    (l : List (α × β)) (m0 : List (α × β)) (k : α) (v : β)
    (hnd : (l.map Prod.fst).Nodup) (hkv : (k, v) ∈ l) :
    mapGet (l.foldl (fun m p => mapPut m p.1 p.2) m0) k = some v := by
  induction l generalizing m0 with
  | nil => exact absurd hkv (List.not_mem_nil _)
  | cons p rest ih =>
      rw [List.map_cons, List.nodup_cons] at hnd
      rcases List.mem_cons.mp hkv with hkv | hkv
      · subst hkv
        show mapGet (rest.foldl _ (mapPut m0 k v)) k = _
        rw [foldl_mapPut_not_mem rest _ k hnd.1, mapGet_mapPut, if_pos rfl]
      · exact ih _ hnd.2 hkv

theorem zip_total (keys : List Key) (values : List V)
    (hlen : keys.length = values.length) :
    ∀ k ∈ keys, ∃ v, (k, v) ∈ keys.zip values := by
  induction keys generalizing values with
  | nil => intro k hk; exact absurd hk (List.not_mem_nil _)
  | cons k0 rest ih =>
      intro k hk
      cases values with
      | nil => simp at hlen
      | cons v0 vrest =>
          rcases List.mem_cons.mp hk with hk | hk
          · exact ⟨v0, by rw [hk]; simp⟩
          · obtain ⟨v, hv⟩ := ih vrest (by simpa using hlen) k hk
            exact ⟨v, by simp [hv]⟩

theorem zip_fst_eq (keys : List Key) (values : List V) (k : Key) (v : V)
    (h : (k, v) ∈ keys.zip values) : k ∈ keys :=
  (List.of_mem_zip h).1

/-- A list of entries realizing the sorted keys with their values from the
value map. -/
theorem exists_ents {V : Type} (skeys : List Key) (vm : List (Key × V))
    (htot : ∀ k ∈ skeys, ∃ v, mapGet vm k = some v) :
    ∃ ents : List (Key × V), ents.map Prod.fst = skeys ∧
      ∀ e ∈ ents, mapGet vm e.1 = some e.2 := by
  induction skeys with
  | nil => exact ⟨[], rfl, fun e he => absurd he (List.not_mem_nil _)⟩
  | cons k rest ih =>
      obtain ⟨v, hv⟩ := htot k (by simp)
      obtain ⟨ents, he1, he2⟩ := ih (fun k' h' => htot k' (by simp [h']))
      refine ⟨(k, v) :: ents, by simp [he1], ?_⟩
      intro e he
      rcases List.mem_cons.mp he with he | he
      · rw [he]; exact hv
      · exact he2 e he

theorem genLeafMap_get {V : Type} (ks : List Key) (k : Key) :
    mapGet (generateLeafMap (V := V) ks) k
      = if k ∈ ks then some none else none := by
  have hgen : ∀ (m0 : List (Key × Option V)),
      mapGet (ks.foldl (fun m k => mapPut m k none) m0) k
        = if k ∈ ks then some none else mapGet m0 k := by
    induction ks with
    | nil => intro m0; simp
    | cons x rest ih =>
        intro m0
        show mapGet (rest.foldl _ (mapPut m0 x none)) k = _
        rw [ih]
        by_cases hk : k ∈ rest
        · rw [if_pos hk, if_pos (by simp [hk])]
        · rw [if_neg hk, mapGet_mapPut]
          by_cases hkx : k = x
          · rw [if_pos hkx, if_pos (by simp [hkx])]
          · rw [if_neg hkx, if_neg (by simp [hkx, hk])]
  exact hgen []

/-- A batch of tree refs built over already-sorted keys is sorted as the
builder sorts it. -/
theorem sortRefs_eq_self (refs : List TreeRef)
    (hs : SortedBy keyLe (refs.map TreeRef.key)) : sortRefs refs = refs := by
  apply sortBy_eq_self
  exact (List.pairwise_map).mp hs

/-! ## Segmentations of the merge array

During `create_tree`'s merge loop the slots `0 .. n-1` of the ref array are
partitioned into consecutive segments of already-merged subtrees; the queue
indices still to pop are exactly the boundaries between adjacent segments. -/

/-- `SegsChain segs a c`: the intervals in `segs` are consecutive and cover
`[a, c)`. -/
def SegsChain : List (Nat × Nat) → Nat → Nat → Prop
  | [], a, c => a = c
  | (l, r) :: rest, a, c => l = a ∧ l ≤ r ∧ SegsChain rest (r + 1) c

/-- The boundaries between adjacent segments: every right end except the
last. -/
def interBounds (segs : List (Nat × Nat)) : List Nat :=
  (segs.map Prod.snd).dropLast

theorem segsChain_bounds (segs : List (Nat × Nat)) (a c : Nat)
    (h : SegsChain segs a c) : ∀ p ∈ segs, a ≤ p.1 ∧ p.1 ≤ p.2 ∧ p.2 < c := by
  induction segs generalizing a with
  | nil => intro p hp; exact absurd hp (List.not_mem_nil _)
  | cons q rest ih =>
      obtain ⟨l, r⟩ := q
      obtain ⟨h1, h2, h3⟩ := h
      intro p hp
      have hrc : r < c := by
        cases rest with
        | nil => show r < c; have : r + 1 = c := h3; omega
        | cons q' rest' =>
            have ha := (ih _ h3 q' (by simp)).1
            have hb := (ih _ h3 q' (by simp)).2.1
            have hc := (ih _ h3 q' (by simp)).2.2
            omega
      rcases List.mem_cons.mp hp with hp | hp
      · rw [hp]
        exact ⟨by omega, h2, hrc⟩
      · have := ih _ h3 p hp
        exact ⟨by omega, this.2.1, this.2.2⟩

theorem segsChain_append (xs ys : List (Nat × Nat)) (a c : Nat) :
    SegsChain (xs ++ ys) a c ↔ ∃ b, SegsChain xs a b ∧ SegsChain ys b c := by
  induction xs generalizing a with
  | nil =>
      constructor
      · intro h
        exact ⟨a, rfl, h⟩
      · intro ⟨b, h1, h2⟩
        have : a = b := h1
        rw [this]
        exact h2
  | cons q rest ih =>
      obtain ⟨l, r⟩ := q
      constructor
      · intro ⟨h1, h2, h3⟩
        obtain ⟨b, hb1, hb2⟩ := (ih _).mp h3
        exact ⟨b, ⟨h1, h2, hb1⟩, hb2⟩
      · intro ⟨b, ⟨h1, h2, h3⟩, h4⟩
        exact ⟨h1, h2, (ih _).mpr ⟨b, h3, h4⟩⟩

theorem mem_interBounds_exists (segs : List (Nat × Nat)) (m : Nat)
    (h : m ∈ interBounds segs) : ∃ p ∈ segs, m = p.2 := by
  have := List.dropLast_subset _ h
  obtain ⟨p, hp, he⟩ := List.mem_map.mp this
  exact ⟨p, hp, he.symm⟩

/-- An inter-segment boundary splits the segmentation as the right end of
one segment followed by the segment starting just after it. -/
theorem interBounds_decomp (segs : List (Nat × Nat)) (a c m : Nat)
    (hch : SegsChain segs a c) (hm : m ∈ interBounds segs) :
    ∃ pre l r2 post, segs = pre ++ (l, m) :: (m + 1, r2) :: post := by
  induction segs generalizing a with
  | nil => exact absurd hm (List.not_mem_nil _)
  | cons q rest ih =>
      obtain ⟨l, r⟩ := q
      obtain ⟨h1, h2, h3⟩ := hch
      cases rest with
      | nil => exact absurd hm (List.not_mem_nil _)
      | cons q' rest' =>
          obtain ⟨l', r'⟩ := q'
          have hl' : l' = r + 1 := h3.1
          rw [show interBounds ((l, r) :: (l', r') :: rest')
              = r :: interBounds ((l', r') :: rest') from
            List.dropLast_cons₂] at hm
          rcases List.mem_cons.mp hm with hm1 | hm2
          · subst hm1
            exact ⟨[], l, r', rest', by subst hl'; rfl⟩
          · obtain ⟨pre, l0, r2, post, heq⟩ := ih _ h3 hm2
            refine ⟨(l, r) :: pre, l0, r2, post, ?_⟩
            rw [heq, List.cons_append]

theorem interior_not_boundary (segs : List (Nat × Nat)) (a c l r m : Nat)
    (hch : SegsChain segs a c) (hmem : (l, r) ∈ segs) (hlm : l ≤ m)
    (hmr : m < r) : m ∉ interBounds segs := by
  induction segs generalizing a with
  | nil => exact absurd hmem (List.not_mem_nil _)
  | cons q rest ih =>
      obtain ⟨l0, r0⟩ := q
      obtain ⟨h1, h2, h3⟩ := hch
      cases rest with
      | nil => exact List.not_mem_nil _
      | cons q' rest' =>
          rw [show interBounds ((l0, r0) :: q' :: rest')
              = r0 :: interBounds (q' :: rest') from List.dropLast_cons₂]
          intro hcon
          rcases List.mem_cons.mp hcon with hc1 | hc2
          · -- m is the head's right end
            rcases List.mem_cons.mp hmem with hm1 | hm2
            · rw [Prod.mk.injEq] at hm1
              omega
            · have := (segsChain_bounds _ _ _ h3 _ hm2).1
              omega
          · rcases List.mem_cons.mp hmem with hm1 | hm2
            · rw [Prod.mk.injEq] at hm1
              obtain ⟨p, hp, he⟩ := mem_interBounds_exists _ _ hc2
              have ha := (segsChain_bounds _ _ _ h3 p hp).1
              have hb := (segsChain_bounds _ _ _ h3 p hp).2.1
              omega
            · exact ih _ h3 hm2 hc2

theorem boundary_left (segs : List (Nat × Nat)) (a c l r : Nat)
    (hch : SegsChain segs a c) (hmem : (l, r) ∈ segs) (hl : a < l) :
    (l - 1) ∈ interBounds segs := by
  induction segs generalizing a with
  | nil => exact absurd hmem (List.not_mem_nil _)
  | cons q rest ih =>
      obtain ⟨l0, r0⟩ := q
      obtain ⟨h1, h2, h3⟩ := hch
      rcases List.mem_cons.mp hmem with hmem | hmem
      · rw [Prod.mk.injEq] at hmem
        omega
      · cases rest with
        | nil => exact absurd hmem (List.not_mem_nil _)
        | cons q' rest' =>
            rw [show interBounds ((l0, r0) :: q' :: rest')
                = r0 :: interBounds (q' :: rest') from List.dropLast_cons₂]
            by_cases hl0 : l = r0 + 1
            · have hl1 : l - 1 = r0 := by omega
              rw [hl1]
              exact List.mem_cons.mpr (Or.inl rfl)
            · have hgt : r0 + 1 < l := by
                have := (segsChain_bounds _ _ _ h3 _ hmem).1
                omega
              exact List.mem_cons.mpr (Or.inr (ih _ h3 hmem hgt))

theorem boundary_right (segs : List (Nat × Nat)) (a c l r : Nat)
    (hch : SegsChain segs a c) (hmem : (l, r) ∈ segs) (hr : r + 1 < c) :
    r ∈ interBounds segs := by
  induction segs generalizing a with
  | nil => exact absurd hmem (List.not_mem_nil _)
  | cons q rest ih =>
      obtain ⟨l0, r0⟩ := q
      obtain ⟨h1, h2, h3⟩ := hch
      rcases List.mem_cons.mp hmem with hmem | hmem
      · rw [Prod.mk.injEq] at hmem
        obtain ⟨he1, he2⟩ := hmem
        subst he1
        subst he2
        cases rest with
        | nil =>
            have : r + 1 = c := h3
            omega
        | cons q' rest' =>
            rw [show interBounds ((l, r) :: q' :: rest')
                = r :: interBounds (q' :: rest') from List.dropLast_cons₂]
            exact List.mem_cons.mpr (Or.inl rfl)
      · cases rest with
        | nil => exact absurd hmem (List.not_mem_nil _)
        | cons q' rest' =>
            rw [show interBounds ((l0, r0) :: q' :: rest')
                = r0 :: interBounds (q' :: rest') from List.dropLast_cons₂]
            exact List.mem_cons.mpr (Or.inr (ih _ h3 hmem))

/-- The starting segmentation: each slot is its own segment. -/
def initSegs : Nat → Nat → List (Nat × Nat)
  | _, 0 => []
  | a, c + 1 => (a, a) :: initSegs (a + 1) c

theorem initSegs_chain (c a : Nat) : SegsChain (initSegs a c) a (a + c) := by
  induction c generalizing a with
  | zero => show a = a + 0; omega
  | succ c ih =>
      refine ⟨rfl, le_refl _, ?_⟩
      have := ih (a + 1)
      rw [show a + 1 + c = a + (c + 1) from by omega] at this
      exact this

theorem initSegs_interBounds (c a m : Nat) :
    m ∈ interBounds (initSegs a c) ↔ a ≤ m ∧ m + 1 < a + c := by
  induction c generalizing a with
  | zero =>
      show m ∈ ([] : List Nat) ↔ _
      constructor
      · intro h
        exact absurd h (List.not_mem_nil _)
      · intro h
        exact absurd h (by omega)
  | succ c ih =>
      cases c with
      | zero =>
          show m ∈ ([] : List Nat) ↔ _
          constructor
          · intro h
            exact absurd h (List.not_mem_nil _)
          · intro h
            exact absurd h (by omega)
      | succ c' =>
          show m ∈ interBounds ((a, a) :: (a + 1, a + 1) :: initSegs (a + 2) c') ↔ _
          rw [show interBounds ((a, a) :: (a + 1, a + 1) :: initSegs (a + 2) c')
              = a :: interBounds ((a + 1, a + 1) :: initSegs (a + 2) c') from
            List.dropLast_cons₂]
          rw [List.mem_cons]
          have := ih (a + 1)
          rw [show initSegs (a + 1) (c' + 1) = (a + 1, a + 1) :: initSegs (a + 2) c'
              from rfl] at this
          rw [this]
          omega

/-! ## Support lemmas for the merge invariant -/

theorem segEnts_length {V : Type} (ents : List (Key × V)) (l r : Nat)
    (hr : r < ents.length) : (segEnts ents l r).length = r + 1 - l := by
  show ((ents.drop l).take (r + 1 - l)).length = _
  rw [List.length_take, List.length_drop]
  omega

theorem segEnts_full {V : Type} (ents : List (Key × V)) (hne : ents ≠ []) :
    segEnts ents 0 (ents.length - 1) = ents := by
  show (ents.drop 0).take (ents.length - 1 + 1 - 0) = ents
  rw [List.drop_zero]
  have hlen : 0 < ents.length := List.length_pos.mpr hne
  exact List.take_of_length_le (by omega)

theorem ents_key_at {V : Type} (ents : List (Key × V)) (j : Nat)
    (e : Key × V) (hj : ents[j]? = some e) :
    kf (ents.map Prod.fst) j = e.1 := by
  have hm : (ents.map Prod.fst)[j]? = some e.1 := by
    rw [List.getElem?_map, hj]
    rfl
  show (ents.map Prod.fst).getD j [] = e.1
  rw [List.getD_eq_getElem?_getD, hm]
  rfl

/-- Entry membership in a segment, with its index and key. -/
theorem segEnts_index {V : Type} (ents : List (Key × V)) (l r : Nat)
    (e : Key × V) (he : e ∈ segEnts ents l r) :
    ∃ j, l ≤ j ∧ j ≤ r ∧ j < ents.length ∧ ents[j]? = some e ∧
      kf (ents.map Prod.fst) j = e.1 := by
  obtain ⟨j, h1, h2, h3⟩ := segEnts_mem ents l r e he
  exact ⟨j, h1, h2, (List.getElem?_eq_some.mp h3).1, h3, ents_key_at ents j e h3⟩

/-! ## The merge-loop invariant -/

/-- The standing hypotheses on the batch: a collision-free fixed-width
hasher, sorted distinct valid keys, and a positive key length. -/
def BatchOK {V : Type} (C : Ctx V) (ents : List (Key × V)) : Prop :=
  Function.Injective C.H ∧
  (∀ x y : List Nat, (C.H x).length = (C.H y).length) ∧
  SortedBy keyLe (ents.map Prod.fst) ∧
  (ents.map Prod.fst).Nodup ∧
  (∀ e ∈ ents, ValidKey C.keyLen e.1) ∧
  0 < C.keyLen

/-- The per-segment invariant: the slot at the segment's right end holds the
segment's merged ref (its count and node count are the segment's width, its
witness key the leftmost key, its location the root of a trie holding exactly
the segment's entries, hanging strictly below both exterior split bits); and
when the segment is wider than one slot, the lookahead walk launched from the
boundary left of it lands on its right end. -/
def SegOne {V : Type} (C : Ctx V) (h : Digest → Option TreeNode)
    (ents : List (Key × V)) (A : Array TreeRef) (l r : Nat) : Prop :=
  (A.getD r default).count = r + 1 - l ∧
  (A.getD r default).node_count = r + 1 - l ∧
  (A.getD r default).key = kf (ents.map Prod.fst) l ∧
  (∃ pl, Trie C h (A.getD r default).location (segEnts ents l r) pl ∧
    (1 ≤ l → sB C.keyLen (ents.map Prod.fst) (l - 1) < pl) ∧
    (r + 1 < ents.length → sB C.keyLen (ents.map Prod.fst) r < pl)) ∧
  (1 ≤ l → l < r →
    1 < (A.getD l default).count ∧
    WalkEnds A (l - 1) ((A.getD l default).count) r)

/-- The queue invariant: the remaining queue is sorted in pop order, holds
each inter-segment boundary exactly once with its true split bit, and every
already-merged boundary compares strictly above every remaining entry. -/
def QueueInv {V : Type} (C : Ctx V) (ents : List (Key × V))
    (segs : List (Nat × Nat)) (queue : List (Nat × Nat)) : Prop :=
  SortedBy queueGe queue ∧
  (queue.map Prod.snd).Nodup ∧
  (∀ m, m ∈ queue.map Prod.snd ↔ m ∈ interBounds segs) ∧
  (∀ p ∈ queue, p.1 = sB C.keyLen (ents.map Prod.fst) p.2) ∧
  (∀ m, m + 1 < ents.length → m ∉ interBounds segs →
    ∀ p ∈ queue, p.1 < sB C.keyLen (ents.map Prod.fst) m ∨
      (p.1 = sB C.keyLen (ents.map Prod.fst) m ∧ p.2 < m))

/-- The full state invariant of the merge loop. -/
def MergeInv {V : Type} (C : Ctx V) (ents : List (Key × V)) (db : DB)
    (A : Array TreeRef) (segs queue : List (Nat × Nat)) : Prop :=
  A.size = ents.length ∧
  SegsChain segs 0 ents.length ∧
  (∀ p ∈ segs, SegOne C db.view ents A p.1 p.2) ∧
  QueueInv C ents segs queue

/-- Any trie rooted at the branch hash of the two segment roots is forced,
by hash injectivity, to be a branch over exactly those two subtrees: its key
list is the two segments' key lists. -/
theorem bloc_no_trie {V : Type} (C : Ctx V) (ents : List (Key × V))
    (h : Digest → Option TreeNode) (hinj : Function.Injective C.H)
    (hlen : ∀ x y : List Nat, (C.H x).length = (C.H y).length)
    (locL locR : Digest) (EL ER : List (Key × V)) (plL plR : Nat)
    (hTL : Trie C h locL EL plL) (hTR : Trie C h locR ER plR)
    (E' : List (Key × V)) (pl' : Nat)
    (hT' : Trie C h (branchHash C locL locR) E' pl') :
    E'.map Prod.fst = EL.map Prod.fst ++ ER.map Prod.fst := by
  cases hT' with
  | leaf loc k v r r' pl hk hn hd hloc =>
      exact absurd hloc.symm
        (hash_head_ne C hinj 108 98 (k ++ dataHash C k (C.enc v))
          (locL ++ locR) (by omega))
  | branch loc b r E0 E1 pl hn hloc hpl hsK hcount h0 h1 hz ho hw hagree =>
      obtain ⟨xL, hxL⟩ := trie_loc_isH C h locL EL plL hTL
      obtain ⟨xz, hxz⟩ := trie_loc_isH C h b.zero E0 (b.split_index + 1) h0
      have hlocs : b.zero = locL ∧ b.one = locR := by
        have := branchHash_inj C hinj b.zero locL b.one locR
          (by rw [hxL, hxz]; exact hlen _ _) hloc.symm
        exact this
      rw [List.map_append,
        trie_det_keys C h b.zero E0 _ h0 EL plL (hlocs.1 ▸ hTL),
        trie_det_keys C h b.one E1 _ h1 ER plR (hlocs.2 ▸ hTR)]

/-- The hypothesis `trie_put` needs at a merge write: no nonempty trie lives
at the new branch location whose entries sit inside a segment disjoint from
one of the merged halves. -/
theorem merge_put_safe {V : Type} (C : Ctx V) (ents : List (Key × V))
    (h : Digest → Option TreeNode) (hinj : Function.Injective C.H)
    (hlen : ∀ x y : List Nat, (C.H x).length = (C.H y).length)
    (hnd : (ents.map Prod.fst).Nodup)
    (locL locR : Digest) (l i r2 : Nat) (plL plR : Nat)
    (hTL : Trie C h locL (segEnts ents l i) plL)
    (hTR : Trie C h locR (segEnts ents (i + 1) r2) plR)
    (hli : l ≤ i) (hir : i + 1 ≤ r2) (hr2 : r2 < ents.length)
    (l2 r2' : Nat)
    (hdisj : (r2' < l ∨ i < l2) ∨ (r2' < i + 1 ∨ r2 < l2)) :
    ∀ E' pl', Trie C h (branchHash C locL locR) E' pl' →
      ¬ (E' ≠ [] ∧ ∀ x ∈ E', x ∈ segEnts ents l2 r2') := by
  intro E' pl' hT' ⟨hne, hsub⟩
  have hkeys := bloc_no_trie C ents h hinj hlen locL locR _ _ plL plR hTL hTR
    E' pl' hT'
  -- pick an entry of E' lying in the half disjoint from the target segment
  have hpick : ∀ (lo hi : Nat), lo ≤ hi → hi < ents.length →
      ((segEnts ents lo hi).map Prod.fst) <+: E'.map Prod.fst ∨
        (∃ pref, E'.map Prod.fst = pref ++ (segEnts ents lo hi).map Prod.fst) →
      (r2' < lo ∨ hi < l2) → False := by
    intro lo hi hlohi hhi hpos hdis
    have hnel : segEnts ents lo hi ≠ [] := segEnts_ne_nil ents lo hi (by omega) hlohi
    obtain ⟨e0, he0⟩ := List.exists_mem_of_ne_nil _ hnel
    have hkey0 : e0.1 ∈ E'.map Prod.fst := by
      rcases hpos with hp | ⟨pref, hp⟩
      · exact hp.subset (List.mem_map_of_mem _ he0)
      · rw [hp]
        exact List.mem_append_right _ (List.mem_map_of_mem _ he0)
    obtain ⟨e1, he1, hkeq⟩ := List.mem_map.mp hkey0
    have he1t := hsub e1 he1
    obtain ⟨j1, hj1a, hj1b, hj1c, hj1d, hj1e⟩ := segEnts_index ents l2 r2' e1 he1t
    obtain ⟨j0, hj0a, hj0b, hj0c, hj0d, hj0e⟩ := segEnts_index ents lo hi e0 he0
    have hkk : kf (ents.map Prod.fst) j0 = kf (ents.map Prod.fst) j1 := by
      rw [hj0e, hj1e, hkeq]
    have hjj : j0 = j1 := by
      by_contra hne'
      rcases Nat.lt_or_ge j0 j1 with hlt | hge
      · exact nodup_kf _ hnd j0 j1 hlt (by simpa using hj1c) hkk
      · exact nodup_kf _ hnd j1 j0 (by omega) (by simpa using hj0c) hkk.symm
    omega
  rcases hdisj with hd | hd
  · -- the target segment misses the left half: pick from the left keys
    exact hpick l i hli (by omega)
      (Or.inl ⟨(segEnts ents (i + 1) r2).map Prod.fst, hkeys.symm⟩) hd
  · -- the target segment misses the right half: pick from the right keys
    exact hpick (i + 1) r2 hir hr2
      (Or.inr ⟨(segEnts ents l i).map Prod.fst, hkeys⟩) hd

/-! ## One step of the merge loop, named -/

/-- The location of the branch a merge step writes. -/
def mrgBloc {V : Type} (C : Ctx V) (A : Array TreeRef) (i : Nat) : Digest :=
  branchHash C (A.getD i default).location
    (A.getD (lookaheadIndex A i) default).location

/-- The branch a merge step writes. -/
def mrgBr {V : Type} (C : Ctx V) (A : Array TreeRef) (s i : Nat) : TreeBranch :=
  ⟨(A.getD i default).node_count
      + (A.getD (lookaheadIndex A i) default).node_count,
    (A.getD i default).location, (A.getD (lookaheadIndex A i) default).location,
    s, (A.getD i default).key⟩

/-- The merged ref a merge step stores at both ends. -/
def mrgRef {V : Type} (C : Ctx V) (A : Array TreeRef) (i : Nat) : TreeRef :=
  ⟨(A.getD i default).key, mrgBloc C A i,
    (A.getD i default).node_count
      + (A.getD (lookaheadIndex A i) default).node_count,
    (A.getD (lookaheadIndex A i) default).count + (A.getD i default).count⟩

theorem mergeLoop_cons {V : Type} (C : Ctx V) (db : DB) (A : Array TreeRef)
    (s i : Nat) (rest : List (Nat × Nat)) :
    mergeLoop C db A ((s, i) :: rest) =
      if rest = [] then
        ((db.insert (mrgBloc C A i) ⟨1, .branch (mrgBr C A s i)⟩).batch_write,
          .ok (mrgBloc C A i))
      else
        mergeLoop C (db.insert (mrgBloc C A i) ⟨1, .branch (mrgBr C A s i)⟩)
          ((A.setD (lookaheadIndex A i) (mrgRef C A i)).setD i (mrgRef C A i))
          rest := rfl

/-- The walk clause of the freshly merged segment `[l, r2]`. -/
theorem newSeg_walk (A A' : Array TreeRef) (i l r2 : Nat) (newRef : TreeRef)
    (hA' : A' = (A.setD r2 newRef).setD i newRef)
    (hli : l ≤ i) (hir : i < r2) (hr2 : r2 < A.size)
    (hcnt : newRef.count = r2 + 1 - l)
    (hwalkL : 1 ≤ l → l < i →
      1 < (A.getD l default).count ∧
      WalkEnds A (l - 1) ((A.getD l default).count) i) :
    1 ≤ l → l < r2 →
      1 < (A'.getD l default).count ∧
      WalkEnds A' (l - 1) ((A'.getD l default).count) r2 := by
  intro h1l hlr
  have hsize : (A.setD r2 newRef).size = A.size := size_setD _ _ _
  have hAi : A'.getD i default = newRef := by
    rw [hA', getD_setD_self _ i newRef default (by rw [hsize]; omega)]
  have hAr2 : A'.getD r2 default = newRef := by
    rw [hA', getD_setD_ne _ i r2 newRef default (by omega),
      getD_setD_self _ r2 newRef default (by omega)]
  have hframe : ∀ q, q ≠ i → q ≠ r2 → A'.getD q default = A.getD q default := by
    intro q hq1 hq2
    rw [hA', getD_setD_ne _ i q newRef default (fun h => hq1 h.symm),
      getD_setD_ne _ r2 q newRef default (fun h => hq2 h.symm)]
  have hstop : WalkEnds A' (l - 1) (r2 + 1 - l) r2 := by
    have := WalkEnds.stop (A := A') (i := l - 1) (r2 + 1 - l) (by omega)
      (by rw [show l - 1 + (r2 + 1 - l) = r2 from by omega, hAr2]; omega)
    rw [show l - 1 + (r2 + 1 - l) = r2 from by omega] at this
    exact this
  by_cases hcase : l = i
  · -- the left segment was a single slot, overwritten with the merged ref
    subst hcase
    rw [hAi, hcnt]
    exact ⟨by omega, hstop⟩
  · have hlt : l < i := by omega
    obtain ⟨hc0, hw⟩ := hwalkL h1l hlt
    have hAl : A'.getD l default = A.getD l default :=
      hframe l hcase (by omega)
    rw [hAl]
    refine ⟨hc0, ?_⟩
    refine walk_extend A A' (l - 1) _ i r2 hw ?_ ?_ ?_
    · intro q hq
      exact hframe q (by omega) (by omega)
    · rw [hAi, hcnt]
      omega
    · rw [hAi, hcnt]
      exact hstop

theorem sB_eq (K : Nat) (ks : List Key) (j : Nat) :
    sB K ks j = firstDiffBit K (kf ks j) (kf ks (j + 1)) := rfl

theorem segsChain_cons (l r : Nat) (rest : List (Nat × Nat)) (a c : Nat) :
    SegsChain ((l, r) :: rest) a c ↔
      l = a ∧ l ≤ r ∧ SegsChain rest (r + 1) c := Iff.rfl

set_option maxHeartbeats 2000000 in
/-- One full pop of the merge loop: given the popped boundary's segment
decomposition and the chain facts derived from the queue order, the write of
the joining branch preserves every segment invariant, the merged segment
satisfies it afresh, and the loop either finishes with the full trie or
recurses into a state satisfying the invariant again. -/
theorem mergeLoop_trie_rest {V : Type} (C : Ctx V) (ents : List (Key × V))
    (hinj : Function.Injective C.H)
    (hlen : ∀ x y : List Nat, (C.H x).length = (C.H y).length)
    (hsort : SortedBy keyLe (ents.map Prod.fst))
    (hnd : (ents.map Prod.fst).Nodup)
    (hval : ∀ e ∈ ents, ValidKey C.keyLen e.1)
    (hK : 0 < C.keyLen)
    (s i : Nat) (rest : List (Nat × Nat))
    (ih : ∀ (db : DB) (A : Array TreeRef) (segs : List (Nat × Nat)),
      MergeInv C ents db A segs rest → rest ≠ [] →
      ∃ (db2 : DB) (root : Digest),
        mergeLoop C db A rest = (db2.batch_write, .ok root) ∧
        Trie C db2.view root ents 0)
    (db : DB) (A : Array TreeRef) (segs pre : List (Nat × Nat))
    (l r2 : Nat) (post : List (Nat × Nat))
    (hsize : A.size = ents.length)
    (hchain : SegsChain segs 0 ents.length)
    (hsegs : ∀ p ∈ segs, SegOne C db.view ents A p.1 p.2)
    (hqsort : SortedBy queueGe ((s, i) :: rest))
    (hqnd : (((s, i) :: rest).map Prod.snd).Nodup)
    (hqset : ∀ m, m ∈ ((s, i) :: rest).map Prod.snd ↔ m ∈ interBounds segs)
    (hqsplit : ∀ p ∈ (s, i) :: rest, p.1 = sB C.keyLen (ents.map Prod.fst) p.2)
    (hqgt : ∀ m, m + 1 < ents.length → m ∉ interBounds segs →
      ∀ p ∈ (s, i) :: rest, p.1 < sB C.keyLen (ents.map Prod.fst) m ∨
        (p.1 = sB C.keyLen (ents.map Prod.fst) m ∧ p.2 < m))
    (hdec : segs = pre ++ (l, i) :: (i + 1, r2) :: post)
    (hcpre : SegsChain pre 0 l)
    (hli : l ≤ i) (hir2 : i + 1 ≤ r2)
    (hcpost : SegsChain post (r2 + 1) ents.length)
    (hr2n : r2 < ents.length)
    (hmemL : (l, i) ∈ segs) (hmemR : (i + 1, r2) ∈ segs)
    (hcntL : (A.getD i default).count = i + 1 - l)
    (hncL : (A.getD i default).node_count = i + 1 - l)
    (hkeyL : (A.getD i default).key = kf (ents.map Prod.fst) l)
    (plL : Nat)
    (hTL : Trie C db.view (A.getD i default).location (segEnts ents l i) plL)
    (hplL1 : 1 ≤ l → sB C.keyLen (ents.map Prod.fst) (l - 1) < plL)
    (hplL2 : i + 1 < ents.length → sB C.keyLen (ents.map Prod.fst) i < plL)
    (hwalkL : 1 ≤ l → l < i → 1 < (A.getD l default).count ∧
      WalkEnds A (l - 1) ((A.getD l default).count) i)
    (hcntR : (A.getD r2 default).count = r2 + 1 - (i + 1))
    (hncR : (A.getD r2 default).node_count = r2 + 1 - (i + 1))
    (hkeyR : (A.getD r2 default).key = kf (ents.map Prod.fst) (i + 1))
    (plR : Nat)
    (hTR : Trie C db.view (A.getD r2 default).location
      (segEnts ents (i + 1) r2) plR)
    (hplR1 : 1 ≤ i + 1 → sB C.keyLen (ents.map Prod.fst) (i + 1 - 1) < plR)
    (hplR2 : r2 + 1 < ents.length → sB C.keyLen (ents.map Prod.fst) r2 < plR)
    (hwalkR : 1 ≤ i + 1 → i + 1 < r2 → 1 < (A.getD (i + 1) default).count ∧
      WalkEnds A (i + 1 - 1) ((A.getD (i + 1) default).count) r2)
    (hsi : s = sB C.keyLen (ents.map Prod.fst) i)
    (hp : lookaheadIndex A i = r2)
    (hsK : s < 8 * C.keyLen)
    (hzE0 : ∀ e ∈ segEnts ents l i, chooseZero e.1 s = true)
    (hoE1 : ∀ e ∈ segEnts ents (i + 1) r2, chooseZero e.1 s = false)
    (hagreeE : ∀ e ∈ segEnts ents l r2, ∀ t, t < s →
      chooseZero e.1 t = chooseZero (kf (ents.map Prod.fst) l) t)
    (e0 : Key × V)
    (hwitness : e0 ∈ segEnts ents l i ∧ e0.1 = kf (ents.map Prod.fst) l)
    (hExtL : 1 ≤ l → sB C.keyLen (ents.map Prod.fst) (l - 1) < s)
    (hExtR : r2 + 1 < ents.length →
      sB C.keyLen (ents.map Prod.fst) r2 < s) :
    ∃ (db2 : DB) (root : Digest),
      mergeLoop C db A ((s, i) :: rest) = (db2.batch_write, .ok root) ∧
      Trie C db2.view root ents 0 := by
  have hbloc : mrgBloc C A i
      = branchHash C (A.getD i default).location (A.getD r2 default).location := by
    rw [mrgBloc, hp]
  have hbr : mrgBr C A s i
      = ⟨(i + 1 - l) + (r2 + 1 - (i + 1)), (A.getD i default).location,
          (A.getD r2 default).location, s, kf (ents.map Prod.fst) l⟩ := by
    rw [mrgBr, hp, hncL, hncR, hkeyL]
  have href : mrgRef C A i
      = ⟨kf (ents.map Prod.fst) l, mrgBloc C A i,
          (i + 1 - l) + (r2 + 1 - (i + 1)),
          (r2 + 1 - (i + 1)) + (i + 1 - l)⟩ := by
    rw [mrgRef, hp, hncL, hncR, hkeyL, hcntL, hcntR]
  set db' := db.insert (mrgBloc C A i) ⟨1, .branch (mrgBr C A s i)⟩ with hdb'
  have hview : db'.view
      = hput db.view (mrgBloc C A i) ⟨1, .branch (mrgBr C A s i)⟩ :=
    view_insert _ _ _
  -- any segment trie disjoint from one half survives the branch write
  have hpres : ∀ l2 r2' pl2 loc2, l2 ≤ r2' → r2' < ents.length →
      ((r2' < l ∨ i < l2) ∨ (r2' < i + 1 ∨ r2 < l2)) →
      Trie C db.view loc2 (segEnts ents l2 r2') pl2 →
      Trie C db'.view loc2 (segEnts ents l2 r2') pl2 := by
    intro l2 r2' pl2 loc2 hl2 hr2' hdisj hT
    rw [hview, hbloc]
    exact trie_put C db.view loc2 _ pl2 _ _ hT
      (fun e he => hash_head_ne C hinj 98 100 _ _ (by omega))
      (merge_put_safe C ents db.view hinj hlen hnd _ _ l i r2 plL plR
        hTL hTR hli hir2 hr2n l2 r2' hdisj)
  -- the freshly written branch is a trie over the joined segment
  have hTnew : Trie C db'.view (mrgBloc C A i) (segEnts ents l r2) s := by
    rw [← segEnts_append ents l i r2 hli (by omega), hview]
    have h0' : Trie C (hput db.view (mrgBloc C A i)
        ⟨1, .branch (mrgBr C A s i)⟩) (A.getD i default).location
        (segEnts ents l i) plL := by
      rw [← hview]
      exact hpres l i plL _ hli (by omega) (Or.inr (Or.inl (by omega))) hTL
    have h1' : Trie C (hput db.view (mrgBloc C A i)
        ⟨1, .branch (mrgBr C A s i)⟩) (A.getD r2 default).location
        (segEnts ents (i + 1) r2) plR := by
      rw [← hview]
      exact hpres (i + 1) r2 plR _ hir2 hr2n (Or.inl (Or.inr (by omega))) hTR
    have hplLs : s + 1 ≤ plL := by
      have := hplL2 (by omega)
      omega
    have hplRs : s + 1 ≤ plR := by
      have := hplR1 (by omega)
      have h1i : i + 1 - 1 = i := by omega
      rw [h1i] at this
      omega
    refine Trie.branch (mrgBloc C A i)
      ⟨(i + 1 - l) + (r2 + 1 - (i + 1)), (A.getD i default).location,
        (A.getD r2 default).location, s, kf (ents.map Prod.fst) l⟩ 1
      (segEnts ents l i) (segEnts ents (i + 1) r2) s
      ?_ ?_ (le_refl s) hsK ?_ ?_ ?_ ?_ ?_ ?_ ?_
    · rw [hput, if_pos rfl, hbr]
    · exact hbloc
    · show (i + 1 - l) + (r2 + 1 - (i + 1)) = _
      rw [List.length_append, segEnts_length ents l i (by omega),
        segEnts_length ents (i + 1) r2 hr2n]
    · exact trie_mono C _ _ _ plL (s + 1) hplLs h0'
    · exact trie_mono C _ _ _ plR (s + 1) hplRs h1'
    · exact hzE0
    · exact hoE1
    · exact ⟨e0, hwitness.1, hwitness.2⟩
    · show ∀ e ∈ segEnts ents l i ++ segEnts ents (i + 1) r2, _
      rw [segEnts_append ents l i r2 hli (by omega)]
      exact hagreeE
  set A' := (A.setD (lookaheadIndex A i) (mrgRef C A i)).setD i (mrgRef C A i)
    with hAdef2
  have hA'2 : A' = (A.setD r2 (mrgRef C A i)).setD i (mrgRef C A i) := by
    rw [hAdef2, hp]
  have hAsize' : A'.size = ents.length := by
    rw [hA'2, size_setD, size_setD, hsize]
  have hAr2' : A'.getD r2 default = mrgRef C A i := by
    rw [hA'2, getD_setD_ne _ i r2 _ default (by omega),
      getD_setD_self _ r2 _ default (by rw [hsize]; omega)]
  have hframe : ∀ q, q ≠ i → q ≠ r2 →
      A'.getD q default = A.getD q default := by
    intro q h1 h2
    rw [hA'2, getD_setD_ne _ i q _ default (fun h => h1 h.symm),
      getD_setD_ne _ r2 q _ default (fun h => h2 h.symm)]
  have hSegNew : SegOne C db'.view ents A' l r2 := by
    refine ⟨?_, ?_, ?_, ⟨s, ?_, fun h1l => hExtL h1l, fun hrn => hExtR hrn⟩, ?_⟩
    · rw [hAr2', href]
      show (r2 + 1 - (i + 1)) + (i + 1 - l) = r2 + 1 - l
      omega
    · rw [hAr2', href]
      show (i + 1 - l) + (r2 + 1 - (i + 1)) = r2 + 1 - l
      omega
    · rw [hAr2', href]
    · rw [hAr2', href]
      exact hTnew
    · exact newSeg_walk A A' i l r2 (mrgRef C A i) hA'2 hli (by omega)
        (by rw [hsize]; omega)
        (by rw [href]; show (r2 + 1 - (i + 1)) + (i + 1 - l) = r2 + 1 - l; omega)
        hwalkL
  have hsegs' : ∀ p ∈ pre ++ (l, r2) :: post,
      SegOne C db'.view ents A' p.1 p.2 := by
    intro p hp'
    rcases List.mem_append.mp hp' with hpre | hrest2
    · have hb := segsChain_bounds pre 0 l hcpre p hpre
      obtain ⟨hc1, hc2, hc3, ⟨pl2, hT2, hpl21, hpl22⟩, hwalk2⟩ :=
        hsegs p (by rw [hdec]; exact List.mem_append_left _ hpre)
      have hne1 : p.2 ≠ i := by omega
      have hne2 : p.2 ≠ r2 := by omega
      refine ⟨?_, ?_, ?_, ⟨pl2, ?_, hpl21, hpl22⟩, ?_⟩
      · rw [hframe p.2 hne1 hne2]; exact hc1
      · rw [hframe p.2 hne1 hne2]; exact hc2
      · rw [hframe p.2 hne1 hne2]; exact hc3
      · rw [hframe p.2 hne1 hne2]
        exact hpres p.1 p.2 pl2 _ hb.2.1 (by omega)
          (Or.inl (Or.inl (by omega))) hT2
      · intro hw1 hw2
        obtain ⟨hwa, hwb⟩ := hwalk2 hw1 hw2
        rw [hframe p.1 (by omega) (by omega)]
        refine ⟨hwa, walk_congr A A' (p.1 - 1) _ p.2 hwb ?_⟩
        intro q hq1 hq2
        exact hframe q (by omega) (by omega)
    · rcases List.mem_cons.mp hrest2 with hpl' | hpost
      · rw [hpl']
        exact hSegNew
      · have hb := segsChain_bounds post (r2 + 1) ents.length hcpost p hpost
        obtain ⟨hc1, hc2, hc3, ⟨pl2, hT2, hpl21, hpl22⟩, hwalk2⟩ :=
          hsegs p (by
            rw [hdec]
            exact List.mem_append_right _
              (List.mem_cons_of_mem _ (List.mem_cons_of_mem _ hpost)))
        have hne1 : p.2 ≠ i := by omega
        have hne2 : p.2 ≠ r2 := by omega
        refine ⟨?_, ?_, ?_, ⟨pl2, ?_, hpl21, hpl22⟩, ?_⟩
        · rw [hframe p.2 hne1 hne2]; exact hc1
        · rw [hframe p.2 hne1 hne2]; exact hc2
        · rw [hframe p.2 hne1 hne2]; exact hc3
        · rw [hframe p.2 hne1 hne2]
          exact hpres p.1 p.2 pl2 _ hb.2.1 (by omega)
            (Or.inr (Or.inr (by omega))) hT2
        · intro hw1 hw2
          obtain ⟨hwa, hwb⟩ := hwalk2 hw1 hw2
          rw [hframe p.1 (by omega) (by omega)]
          refine ⟨hwa, walk_congr A A' (p.1 - 1) _ p.2 hwb ?_⟩
          intro q hq1 hq2
          exact hframe q (by omega) (by omega)
  have hchain' : SegsChain (pre ++ (l, r2) :: post) 0 ents.length :=
    (segsChain_append _ _ _ _).mpr ⟨l, hcpre, rfl, by omega, hcpost⟩
  have hIBold : interBounds segs
      = pre.map Prod.snd ++ i :: (r2 :: post.map Prod.snd).dropLast := by
    rw [hdec, interBounds, List.map_append,
      List.dropLast_append_of_ne_nil _ (by simp), List.map_cons, List.map_cons]
    exact congrArg (fun x => pre.map Prod.snd ++ x) List.dropLast_cons₂
  have hIBnew : interBounds (pre ++ (l, r2) :: post)
      = pre.map Prod.snd ++ (r2 :: post.map Prod.snd).dropLast := by
    rw [interBounds, List.map_append,
      List.dropLast_append_of_ne_nil _ (by simp), List.map_cons]
  have hprelt : ∀ x ∈ pre.map Prod.snd, x < l := by
    intro x hx
    obtain ⟨p, hpm, he⟩ := List.mem_map.mp hx
    rw [← he]
    exact (segsChain_bounds pre 0 l hcpre p hpm).2.2
  have hpostge : ∀ x ∈ r2 :: post.map Prod.snd, r2 ≤ x := by
    intro x hx
    rcases List.mem_cons.mp hx with hx | hx
    · omega
    · obtain ⟨p, hpm, he⟩ := List.mem_map.mp hx
      have := (segsChain_bounds post (r2 + 1) ents.length hcpost p hpm).1
      have := (segsChain_bounds post (r2 + 1) ents.length hcpost p hpm).2.1
      omega
  have hinot2 : i ∉ pre.map Prod.snd ++ (r2 :: post.map Prod.snd).dropLast := by
    intro hcon
    rcases List.mem_append.mp hcon with h | h
    · exact absurd (hprelt i h) (by omega)
    · exact absurd (hpostge i (List.dropLast_subset _ h)) (by omega)
  have hIBiff : ∀ m, m ∈ interBounds (pre ++ (l, r2) :: post)
      ↔ m ∈ interBounds segs ∧ m ≠ i := by
    intro m
    rw [hIBold, hIBnew]
    constructor
    · intro h
      refine ⟨?_, ?_⟩
      · rcases List.mem_append.mp h with h | h
        · exact List.mem_append_left _ h
        · exact List.mem_append_right _ (List.mem_cons_of_mem _ h)
      · intro he
        subst he
        exact hinot2 h
    · intro ⟨h1, h2⟩
      rcases List.mem_append.mp h1 with h | h
      · exact List.mem_append_left _ h
      · rcases List.mem_cons.mp h with h | h
        · exact absurd h h2
        · exact List.mem_append_right _ h
  have hqnd1 : i ∉ rest.map Prod.snd ∧ (rest.map Prod.snd).Nodup := by
    rw [List.map_cons] at hqnd
    exact List.nodup_cons.mp hqnd
  have hqsort' : SortedBy queueGe rest := (List.pairwise_cons.mp hqsort).2
  have hqset' : ∀ m, m ∈ rest.map Prod.snd
      ↔ m ∈ interBounds (pre ++ (l, r2) :: post) := by
    intro m
    rw [hIBiff m]
    constructor
    · intro h
      refine ⟨(hqset m).mp ?_, ?_⟩
      · rw [List.map_cons]
        exact List.mem_cons_of_mem _ h
      · intro he
        subst he
        exact hqnd1.1 h
    · intro ⟨h1, h2⟩
      have := (hqset m).mpr h1
      rw [List.map_cons] at this
      rcases List.mem_cons.mp this with h | h
      · exact absurd h h2
      · exact h
  have hqsplit' : ∀ p ∈ rest, p.1 = sB C.keyLen (ents.map Prod.fst) p.2 :=
    fun p hp'' => hqsplit p (List.mem_cons_of_mem _ hp'')
  have hqgt' : ∀ m, m + 1 < ents.length →
      m ∉ interBounds (pre ++ (l, r2) :: post) → ∀ p ∈ rest,
      p.1 < sB C.keyLen (ents.map Prod.fst) m ∨
        (p.1 = sB C.keyLen (ents.map Prod.fst) m ∧ p.2 < m) := by
    intro m hm1 hm2 p hp''
    by_cases hmi : m = i
    · rw [hmi]
      have hge : queueGe (s, i) p = true :=
        (List.pairwise_cons.mp hqsort).1 p hp''
      have hpne : p.2 ≠ i := by
        intro he
        exact hqnd1.1 (he ▸ List.mem_map_of_mem _ hp'')
      rw [← hsi]
      by_cases hcase : s = p.1
      · right
        have hd : (if (s, i).1 = p.1 then decide (p.2 ≤ (s, i).2)
            else decide (p.1 ≤ (s, i).1)) = true := hge
        rw [if_pos hcase] at hd
        have hle2 : p.2 ≤ i := of_decide_eq_true hd
        exact ⟨hcase.symm, by omega⟩
      · left
        have hd : (if (s, i).1 = p.1 then decide (p.2 ≤ (s, i).2)
            else decide (p.1 ≤ (s, i).1)) = true := hge
        rw [if_neg hcase] at hd
        have hle1 : p.1 ≤ s := of_decide_eq_true hd
        omega
    · have hmold : m ∉ interBounds segs := by
        intro hc
        exact hm2 ((hIBiff m).mpr ⟨hc, hmi⟩)
      exact hqgt m hm1 hmold p (List.mem_cons_of_mem _ hp'')
  rw [mergeLoop_cons]
  by_cases hrest : rest = []
  · rw [if_pos hrest]
    have hempty : interBounds (pre ++ (l, r2) :: post) = [] := by
      apply List.eq_nil_iff_forall_not_mem.mpr
      intro m hm
      have := (hqset' m).mpr hm
      rw [hrest] at this
      simp at this
    rw [hIBnew] at hempty
    obtain ⟨h1, h2⟩ := List.append_eq_nil.mp hempty
    have hpre0 : pre = [] := List.map_eq_nil_iff.mp h1
    have hpost0 : post = [] := by
      have hl2 := congrArg List.length h2
      rw [List.length_dropLast] at hl2
      simp only [List.length_cons, List.length_nil] at hl2
      have hplen : (post.map Prod.snd).length = 0 := by omega
      exact List.map_eq_nil_iff.mp (List.length_eq_zero.mp hplen)
    have hl0 : l = 0 := by
      rw [hpre0] at hcpre
      have : (0 : Nat) = l := hcpre
      omega
    have hr2top : r2 + 1 = ents.length := by
      rw [hpost0] at hcpost
      exact hcpost
    refine ⟨db', mrgBloc C A i, rfl, ?_⟩
    have hfull : segEnts ents l r2 = ents := by
      rw [hl0, show r2 = ents.length - 1 from by omega]
      refine segEnts_full ents ?_
      intro hcon
      rw [hcon] at hr2top
      simp at hr2top
    exact trie_mono C db'.view _ ents s 0 (by omega) (hfull ▸ hTnew)
  · rw [if_neg hrest]
    exact ih db' A' (pre ++ (l, r2) :: post)
      ⟨hAsize', hchain', hsegs', hqsort', hqnd1.2, hqset', hqsplit', hqgt'⟩
      hrest

/-- The merge loop, started in any state satisfying the invariant with a
nonempty queue, builds a trie holding exactly the batch entries and returns
its root over the flushed store. -/
theorem mergeLoop_trie {V : Type} (C : Ctx V) (ents : List (Key × V))
    (hB : BatchOK C ents) :
    ∀ (queue : List (Nat × Nat)) (db : DB) (A : Array TreeRef)
      (segs : List (Nat × Nat)),
      MergeInv C ents db A segs queue → queue ≠ [] →
      ∃ (db2 : DB) (root : Digest),
        mergeLoop C db A queue = (db2.batch_write, .ok root) ∧
        Trie C db2.view root ents 0 := by
  obtain ⟨hinj, hlen, hsort, hnd, hval, hK⟩ := hB
  have hvks : ∀ k ∈ ents.map Prod.fst, ValidKey C.keyLen k := by
    intro k hk
    obtain ⟨e, he, hek⟩ := List.mem_map.mp hk
    rw [← hek]
    exact hval e he
  have hkslen : (ents.map Prod.fst).length = ents.length := List.length_map _ _
  have hvalj : ∀ j, j < ents.length → ValidKey C.keyLen (kf (ents.map Prod.fst) j) :=
    fun j hj => valid_kf _ _ hvks j (by omega)
  have hadj_ne : ∀ j, j + 1 < ents.length →
      kf (ents.map Prod.fst) j ≠ kf (ents.map Prod.fst) (j + 1) :=
    fun j hj => nodup_kf _ hnd j (j + 1) (by omega) (by rw [hkslen]; omega)
  intro queue
  induction queue with
  | nil => intro db A segs _ hne; exact absurd rfl hne
  | cons si rest ih =>
      obtain ⟨s, i⟩ := si
      intro db A segs hInv _
      obtain ⟨hsize, hchain, hsegs, hqsort, hqnd, hqset, hqsplit, hqgt⟩ := hInv
      have hib : i ∈ interBounds segs := (hqset i).mp (by simp)
      obtain ⟨pre, l, r2, post, hdec⟩ :=
        interBounds_decomp segs 0 ents.length i hchain hib
      have hchain2 : SegsChain (pre ++ (l, i) :: (i + 1, r2) :: post) 0
          ents.length := hdec ▸ hchain
      obtain ⟨b0, hcpre, hcr⟩ := (segsChain_append _ _ _ _).mp hchain2
      obtain ⟨hb0, hli, hcrest2⟩ := (segsChain_cons _ _ _ _ _).mp hcr
      obtain ⟨-, hir2, hcpost⟩ := (segsChain_cons _ _ _ _ _).mp hcrest2
      have hr2n : r2 < ents.length :=
        (segsChain_bounds _ _ _ hcrest2 (i + 1, r2) (by simp)).2.2
      have hi1n : i + 1 < ents.length := by omega
      have hmemL : (l, i) ∈ segs := by rw [hdec]; simp
      have hmemR : (i + 1, r2) ∈ segs := by rw [hdec]; simp
      have hSL : SegOne C db.view ents A l i := hsegs _ hmemL
      have hSR : SegOne C db.view ents A (i + 1) r2 := hsegs _ hmemR
      obtain ⟨hcntL, hncL, hkeyL, ⟨plL, hTL, hplL1, hplL2⟩, hwalkL⟩ := hSL
      obtain ⟨hcntR, hncR, hkeyR, ⟨plR, hTR, hplR1, hplR2⟩, hwalkR⟩ := hSR
      have hsi : s = sB C.keyLen (ents.map Prod.fst) i := hqsplit (s, i) (by simp)
      -- the lookahead lands on the right segment's right end
      have hp : lookaheadIndex A i = r2 := by
        by_cases hsing : i + 1 = r2
        · have hc1 : (A.getD (i + 1) default).count = 1 := by
            rw [hsing, hcntR]
            omega
          show (if (A.getD (i + 1) default).count > 1 then _ else i + 1) = r2
          rw [if_neg (by omega)]
          exact hsing
        · have hlt : i + 1 < r2 := by omega
          obtain ⟨hc0, hw⟩ := hwalkR (by omega) hlt
          rw [show i + 1 - 1 = i from by omega] at hw
          show (if (A.getD (i + 1) default).count > 1 then
            lookaheadGo A i (A.size + 1) ((A.getD (i + 1) default).count)
            else i + 1) = r2
          rw [if_pos (by omega)]
          exact lookaheadGo_walk A i _ r2 (A.size + 1) hw
            (by have := walkEnds_le A i _ r2 hw; omega)
      have hsK : s < 8 * C.keyLen := by
        rw [hsi, sB_eq]
        exact fdb_lt _ _ _ (hvalj i (by omega)) (hvalj (i + 1) (by omega))
          (hadj_ne i (by omega))
      -- interior boundaries of the two segments compare strictly / weakly
      have hIntL : ∀ m, l ≤ m → m < i →
          s < sB C.keyLen (ents.map Prod.fst) m := by
        intro m h1 h2
        have hmni : m ∉ interBounds segs :=
          interior_not_boundary segs 0 ents.length l i m hchain hmemL h1 h2
        rcases hqgt m (by omega) hmni (s, i) (by simp) with h | h
        · exact h
        · omega
      have hIntR : ∀ m, i + 1 ≤ m → m < r2 →
          s ≤ sB C.keyLen (ents.map Prod.fst) m := by
        intro m h1 h2
        have hmni : m ∉ interBounds segs :=
          interior_not_boundary segs 0 ents.length (i + 1) r2 m hchain hmemR h1 h2
        rcases hqgt m (by omega) hmni (s, i) (by simp) with h | h
        · omega
        · omega
      have hIntAll : ∀ m, l ≤ m → m < r2 →
          s ≤ sB C.keyLen (ents.map Prod.fst) m := by
        intro m h1 h2
        rcases Nat.lt_trichotomy m i with h | h | h
        · exact le_of_lt (hIntL m h1 h)
        · rw [← h] at hsi
          omega
        · exact hIntR m (by omega) h2
      -- the bit pattern at the popped split
      have hbits := keyLe_bits C.keyLen (kf (ents.map Prod.fst) i)
        (kf (ents.map Prod.fst) (i + 1)) (hvalj i (by omega))
        (hvalj (i + 1) (by omega)) (hadj_ne i (by omega))
        (sortedBy_kf _ hsort i (i + 1) (by omega) (by rw [hkslen]; omega))
      have hz_i : chooseZero (kf (ents.map Prod.fst) i) s = true := by
        rw [hsi, sB_eq]
        exact hbits.1
      have ho_i : chooseZero (kf (ents.map Prod.fst) (i + 1)) s = false := by
        rw [hsi, sB_eq]
        exact hbits.2
      have hzl : ∀ j, l ≤ j → j ≤ i →
          chooseZero (kf (ents.map Prod.fst) j) s = true := by
        intro j h1 h2
        exact chain_zeros C.keyLen _ hsort hvks s l i j hz_i hli
          (by rw [hkslen]; omega) hIntL h1 h2
      have hzE0 : ∀ e ∈ segEnts ents l i, chooseZero e.1 s = true := by
        intro e he
        obtain ⟨j, h1, h2, h3, h4, h5⟩ := segEnts_index ents l i e he
        rw [← h5]
        exact hzl j h1 h2
      have hoE1 : ∀ e ∈ segEnts ents (i + 1) r2, chooseZero e.1 s = false := by
        intro e he
        obtain ⟨j, h1, h2, h3, h4, h5⟩ := segEnts_index ents (i + 1) r2 e he
        rw [← h5]
        exact chain_ones C.keyLen _ hsort hnd hvks s (i + 1) ho_i j h1
          (by rw [hkslen]; omega) (fun m a b => hIntR m a (by omega))
      have hagreeE : ∀ e ∈ segEnts ents l r2, ∀ t, t < s →
          chooseZero e.1 t = chooseZero (kf (ents.map Prod.fst) l) t := by
        intro e he t ht
        obtain ⟨j, h1, h2, h3, h4, h5⟩ := segEnts_index ents l r2 e he
        rw [← h5]
        exact chain_agree C.keyLen _ hsort hvks s l j h1 (by rw [hkslen]; omega)
          (fun m a b => hIntAll m a (by omega)) t ht
      have hln : l < ents.length := by omega
      obtain ⟨e0, he0⟩ : ∃ e0, ents[l]? = some e0 :=
        ⟨ents.get ⟨l, hln⟩, List.getElem?_eq_getElem hln⟩
      have hwitness : e0 ∈ segEnts ents l i ∧
          e0.1 = kf (ents.map Prod.fst) l :=
        ⟨segEnts_mem_of ents l i l e0 he0 (le_refl _) hli,
          (ents_key_at ents l e0 he0).symm⟩
      -- exterior boundaries compare strictly below the popped split
      have hExtL : 1 ≤ l → sB C.keyLen (ents.map Prod.fst) (l - 1) < s := by
        intro h1l
        have hlb : (l - 1) ∈ interBounds segs :=
          boundary_left segs 0 ents.length l i hchain hmemL (by omega)
        obtain ⟨p, hpq, hp2⟩ := List.mem_map.mp ((hqset _).mpr hlb)
        have hps : p.1 = sB C.keyLen (ents.map Prod.fst) p.2 := hqsplit p hpq
        rcases List.mem_cons.mp hpq with hph | hpt
        · rw [hph] at hp2
          simp at hp2
          omega
        · have hge : queueGe (s, i) p = true :=
            (List.pairwise_cons.mp hqsort).1 p hpt
          rw [hp2] at hps
          by_cases hcase : s = p.1
          · exfalso
            have hpd : sB C.keyLen (ents.map Prod.fst) (l - 1) = s := by omega
            have hll : l - 1 + 1 = l := by omega
            have hb2 := keyLe_bits C.keyLen (kf (ents.map Prod.fst) (l - 1))
              (kf (ents.map Prod.fst) (l - 1 + 1)) (hvalj (l - 1) (by omega))
              (hvalj (l - 1 + 1) (by omega)) (hadj_ne (l - 1) (by omega))
              (sortedBy_kf _ hsort (l - 1) (l - 1 + 1) (by omega)
                (by rw [hkslen]; omega))
            rw [hll] at hb2
            have hfdb : firstDiffBit C.keyLen (kf (ents.map Prod.fst) (l - 1))
                (kf (ents.map Prod.fst) l) = s := by
              rw [← hpd, sB_eq, hll]
            rw [hfdb] at hb2
            have := hzl l (le_refl _) hli
            rw [this] at hb2
            exact absurd hb2.2 (by simp)
          · show s > _
            have hle : p.1 ≤ s := by
              have : (if (s, i).1 = p.1 then decide (p.2 ≤ (s, i).2)
                  else decide (p.1 ≤ (s, i).1)) = true := hge
              rw [if_neg hcase] at this
              exact of_decide_eq_true this
            omega
      have hExtR : r2 + 1 < ents.length →
          sB C.keyLen (ents.map Prod.fst) r2 < s := by
        intro hrn
        have hrb : r2 ∈ interBounds segs :=
          boundary_right segs 0 ents.length (i + 1) r2 hchain hmemR hrn
        obtain ⟨p, hpq, hp2⟩ := List.mem_map.mp ((hqset _).mpr hrb)
        have hps : p.1 = sB C.keyLen (ents.map Prod.fst) p.2 := hqsplit p hpq
        rcases List.mem_cons.mp hpq with hph | hpt
        · rw [hph] at hp2
          simp at hp2
          omega
        · have hge : queueGe (s, i) p = true :=
            (List.pairwise_cons.mp hqsort).1 p hpt
          rw [hp2] at hps
          by_cases hcase : s = p.1
          · exfalso
            have : (if (s, i).1 = p.1 then decide (p.2 ≤ (s, i).2)
                else decide (p.1 ≤ (s, i).1)) = true := hge
            rw [if_pos hcase] at this
            have := of_decide_eq_true this
            omega
          · have hle : p.1 ≤ s := by
              have : (if (s, i).1 = p.1 then decide (p.2 ≤ (s, i).2)
                  else decide (p.1 ≤ (s, i).1)) = true := hge
              rw [if_neg hcase] at this
              exact of_decide_eq_true this
            omega
      exact mergeLoop_trie_rest C ents hinj hlen hsort hnd hval hK
        s i rest ih db A segs pre l r2 post
        hsize hchain hsegs hqsort hqnd hqset hqsplit hqgt hdec
        (by rw [hb0]; exact hcpre) hli hir2 hcpost hr2n hmemL hmemR
        hcntL hncL hkeyL plL hTL hplL1 hplL2 hwalkL
        hcntR hncR hkeyR plR hTR hplR1 hplR2 hwalkR
        hsi hp hsK hzE0 hoE1 hagreeE e0 hwitness hExtL hExtR

/-! ## The initial merge state -/

theorem queueGe_total (a b : Nat × Nat) :
    queueGe a b = true ∨ queueGe b a = true := by
  rw [queueGe, queueGe]
  by_cases h1 : a.1 = b.1
  · rw [if_pos h1, if_pos h1.symm]
    rcases Nat.le_total b.2 a.2 with h | h
    · left; exact decide_eq_true h
    · right; exact decide_eq_true h
  · rw [if_neg h1, if_neg (fun h => h1 h.symm)]
    rcases Nat.le_total b.1 a.1 with h | h
    · left; exact decide_eq_true h
    · right; exact decide_eq_true h

theorem queueGe_trans (a b c : Nat × Nat) (hab : queueGe a b = true)
    (hbc : queueGe b c = true) : queueGe a c = true := by
  rw [queueGe] at hab hbc ⊢
  by_cases h1 : a.1 = b.1 <;> by_cases h2 : b.1 = c.1
  · rw [if_pos h1] at hab
    rw [if_pos h2] at hbc
    rw [if_pos (h1.trans h2)]
    exact decide_eq_true
      (le_trans (of_decide_eq_true hbc) (of_decide_eq_true hab))
  · rw [if_pos h1] at hab
    rw [if_neg h2] at hbc
    rw [if_neg (fun h => h2 (h1.symm.trans h))]
    rw [← h1] at hbc
    exact hbc
  · rw [if_neg h1] at hab
    rw [if_pos h2] at hbc
    rw [if_neg (fun h => h1 (h.trans h2.symm))]
    rw [h2] at hab
    exact hab
  · rw [if_neg h1] at hab
    rw [if_neg h2] at hbc
    have hba := of_decide_eq_true hab
    have hcb := of_decide_eq_true hbc
    by_cases h3 : a.1 = c.1
    · exact absurd (show a.1 = b.1 by omega) h1
    · rw [if_neg h3]
      exact decide_eq_true (le_trans hcb hba)

theorem adjQueue_mem (K : Nat) (A : Array TreeRef) (rem i0 : Nat) :
    ∀ p ∈ adjQueue K A rem i0, i0 ≤ p.2 ∧ p.2 < i0 + rem ∧
      p.1 = firstDiffBit K (A.getD p.2 default).key
        (A.getD (p.2 + 1) default).key := by
  induction rem generalizing i0 with
  | zero => intro p hp; exact absurd hp (List.not_mem_nil _)
  | succ r ih =>
      intro p hp
      rcases List.mem_cons.mp hp with hp | hp
      · rw [hp]
        exact ⟨le_refl _, by omega, rfl⟩
      · obtain ⟨h1, h2, h3⟩ := ih (i0 + 1) p hp
        exact ⟨by omega, by omega, h3⟩

theorem adjQueue_snd (K : Nat) (A : Array TreeRef) (rem i0 : Nat) :
    (adjQueue K A rem i0).map Prod.snd = List.range' i0 rem := by
  induction rem generalizing i0 with
  | zero => rfl
  | succ r ih =>
      show i0 :: (adjQueue K A r (i0 + 1)).map Prod.snd = _
      rw [ih (i0 + 1), List.range'_succ]

theorem map_getD {α β : Type} (l : List α) (f : α → β) (j : Nat)
    (hj : j < l.length) (d : β) (d2 : α) :
    (l.map f).getD j d = f (l.getD j d2) := by
  rw [List.getD_eq_getElem?_getD, List.getD_eq_getElem?_getD,
    List.getElem?_map, List.getElem?_eq_getElem hj]
  rfl

theorem zipWith_ref_getD (locs : List Digest) (ks : List Key) (j : Nat)
    (hlen : locs.length = ks.length) (hj : j < ks.length) :
    (List.zipWith (fun loc k => TreeRef.mk k loc 1 1) locs ks).getD j default
      = ⟨ks.getD j [], locs.getD j [], 1, 1⟩ := by
  induction locs generalizing ks j with
  | nil =>
      cases ks with
      | nil => exact absurd hj (by simp)
      | cons k r => simp at hlen
  | cons loc rest ih =>
      cases ks with
      | nil => simp at hlen
      | cons k kr =>
          cases j with
          | zero => rfl
          | succ j =>
              show (List.zipWith _ rest kr).getD j default = _
              exact ih kr j (by simpa using hlen) (by simpa using hj)

theorem encOf_eq {V : Type} (C : Ctx V) (vm : List (Key × V)) (k : Key)
    (v : V) (h : mapGet vm k = some v) : encOf C vm k = C.enc v := by
  rw [encOf, h]

theorem dlocOf_eq {V : Type} (C : Ctx V) (vm : List (Key × V)) (k : Key)
    (v : V) (h : mapGet vm k = some v) :
    dlocOf C vm k = dataHash C k (C.enc v) := by
  rw [dlocOf, encOf_eq C vm k v h]

theorem llocOf_eq {V : Type} (C : Ctx V) (vm : List (Key × V)) (k : Key)
    (v : V) (h : mapGet vm k = some v) :
    llocOf C vm k = leafHash C k (dataHash C k (C.enc v)) := by
  rw [llocOf, dlocOf_eq C vm k v h]

/-- The leaf phase puts every singleton segment in trie shape: the slot `j`
of the initial ref array carries a leaf trie of the `j`-th entry. -/
theorem init_leaf_trie {V : Type} (C : Ctx V) (ents : List (Key × V))
    (vm : List (Key × V)) (db : DB) (j : Nat) (e : Key × V)
    (hj : ents[j]? = some e)
    (hvm : mapGet vm e.1 = some e.2)
    (r1 r2 : Nat)
    (hleaf : (insertLeaves C vm db (ents.map Prod.fst)).2.view
      (llocOf C vm e.1) = some ⟨r1, .leaf ⟨e.1, dlocOf C vm e.1⟩⟩)
    (hdata : (insertLeaves C vm db (ents.map Prod.fst)).2.view
      (dlocOf C vm e.1) = some ⟨r2, .data ⟨encOf C vm e.1⟩⟩)
    (hval : ValidKey C.keyLen e.1) (pl : Nat) :
    Trie C (insertLeaves C vm db (ents.map Prod.fst)).2.view
      (llocOf C vm e.1) (segEnts ents j j) pl := by
  rw [segEnts_single ents j e hj]
  have he1 : (e.1, e.2) = e := rfl
  rw [← he1]
  refine Trie.leaf _ e.1 e.2 r1 r2 pl hval ?_ ?_ ?_
  · rw [← dlocOf_eq C vm e.1 e.2 hvm]
    exact hleaf
  · rw [← dlocOf_eq C vm e.1 e.2 hvm, ← encOf_eq C vm e.1 e.2 hvm]
    exact hdata
  · exact llocOf_eq C vm e.1 e.2 hvm

theorem initSegs_mem (c a : Nat) (p : Nat × Nat) :
    p ∈ initSegs a c ↔ ∃ j, a ≤ j ∧ j < a + c ∧ p = (j, j) := by
  induction c generalizing a with
  | zero =>
      show p ∈ ([] : List (Nat × Nat)) ↔ _
      constructor
      · intro h
        exact absurd h (List.not_mem_nil _)
      · intro ⟨j, h1, h2, _⟩
        omega
  | succ c ih =>
      show p ∈ (a, a) :: initSegs (a + 1) c ↔ _
      rw [List.mem_cons, ih (a + 1)]
      constructor
      · intro h
        rcases h with h | ⟨j, h1, h2, h3⟩
        · exact ⟨a, le_refl _, by omega, h⟩
        · exact ⟨j, by omega, by omega, h3⟩
      · intro ⟨j, h1, h2, h3⟩
        by_cases hja : j = a
        · left
          rw [h3, hja]
        · right
          exact ⟨j, by omega, by omega, h3⟩

set_option maxHeartbeats 2000000 in
/-- `insert` with no previous root, on a valid batch, flushes a store whose
view carries a trie of exactly the (sorted) batch entries at the returned
root. -/
theorem insert_none_trie {V : Type} (C : Ctx V) (db : DB) (keys : List Key)
    (values : List V) (hinj : Function.Injective C.H)
    (hlen : ∀ x y : List Nat, (C.H x).length = (C.H y).length)
    (hK : 0 < C.keyLen) (hlenkv : keys.length = values.length)
    (hne : keys ≠ []) (hnd : keys.Nodup)
    (hval : ∀ k ∈ keys, ValidKey C.keyLen k) :
    ∃ (db2 : DB) (root : Digest) (ents : List (Key × V)),
      insert C db none keys values = (db2.batch_write, .ok root) ∧
      Trie C db2.view root ents 0 ∧
      ents.map Prod.fst = sortKeys keys ∧
      (∀ e ∈ ents,
        mapGet ((keys.zip values).foldl (fun m p => mapPut m p.1 p.2) []) e.1
          = some e.2) := by
  have hskperm : (sortKeys keys).Perm keys := sortKeys_perm keys
  have hsknd : (sortKeys keys).Nodup := hskperm.nodup_iff.mpr hnd
  have hsksorted := sortKeys_sorted keys
  have hskval : ∀ k ∈ sortKeys keys, ValidKey C.keyLen k :=
    fun k hk => hval k (hskperm.mem_iff.mp hk)
  have hsklen : (sortKeys keys).length = keys.length := hskperm.length_eq
  have htot : ∀ k ∈ sortKeys keys, ∃ v,
      mapGet ((keys.zip values).foldl (fun m p => mapPut m p.1 p.2) []) k
        = some v := by
    intro k hk
    obtain ⟨v, hv⟩ := zip_total keys values hlenkv k (hskperm.mem_iff.mp hk)
    refine ⟨v, foldl_mapPut_get _ [] k v ?_ hv⟩
    rw [List.map_fst_zip keys values (le_of_eq hlenkv)]
    exact hnd
  obtain ⟨ents, hentsk, hentsv⟩ := exists_ents (sortKeys keys) _ htot
  have hentlen : ents.length = (sortKeys keys).length := by
    have := congrArg List.length hentsk
    rw [List.length_map] at this
    exact this
  have hentval : ∀ e ∈ ents, ValidKey C.keyLen e.1 := by
    intro e he
    exact hskval e.1 (hentsk ▸ List.mem_map_of_mem _ he)
  have hB : BatchOK C ents := by
    refine ⟨hinj, hlen, ?_, ?_, hentval, hK⟩
    · rw [hentsk]; exact hsksorted
    · rw [hentsk]; exact hsknd
  have hEQ := insert_none_eq C db keys values hlenkv hne
  set vm := (keys.zip values).foldl (fun m p => mapPut m p.1 p.2) [] with hvmdef
  set skeys := sortKeys keys with hskdef
  set ld := insertLeaves C vm db skeys with hlddef
  set locs := ld.1 with hlocsdef
  set treeRefs := List.zipWith (fun loc k => TreeRef.mk k loc 1 1) locs skeys
    with htrdef
  have hlocslen : locs.length = skeys.length := insertLeaves_fst_length C vm db skeys
  have hlocs : locs = skeys.map (llocOf C vm) := insertLeaves_locs C vm db skeys
  have hreflen : treeRefs.length = skeys.length := by
    rw [htrdef, List.length_zipWith, hlocslen, Nat.min_self]
  have hn1 : 1 ≤ skeys.length := by
    rw [hsklen]
    exact List.length_pos.mpr hne
  have hviews : ∀ e ∈ ents, ∃ r1 r2,
      ld.2.view (llocOf C vm e.1) = some ⟨r1, .leaf ⟨e.1, dlocOf C vm e.1⟩⟩ ∧
      ld.2.view (dlocOf C vm e.1) = some ⟨r2, .data ⟨encOf C vm e.1⟩⟩ := by
    intro e he
    exact insertLeaves_view C vm db skeys C.keyLen hinj
      (fun k hk => (hskval k hk).1) hsknd e.1
      (hentsk ▸ List.mem_map_of_mem _ he)
  have hkfent : ∀ j (e : Key × V), ents[j]? = some e →
      skeys.getD j [] = e.1 := by
    intro j e hj
    have := ents_key_at ents j e hj
    rw [hentsk] at this
    exact this
  rcases Nat.lt_or_ge skeys.length 2 with hcase | hcase
  · -- a single pair: the root is the new leaf as it stands
    have hone : skeys.length = 1 := by omega
    obtain ⟨k0, hk0⟩ := List.length_eq_one.mp hone
    have hentone : ents.length = 1 := by omega
    obtain ⟨e0, he0⟩ := List.length_eq_one.mp hentone
    have he0q : ents[0]? = some e0 := by rw [he0]; rfl
    have he0m : e0 ∈ ents := by rw [he0]; simp
    have hk0e : e0.1 = k0 := by
      have := hkfent 0 e0 he0q
      rw [hk0] at this
      exact this.symm
    have htr : treeRefs = [⟨k0, llocOf C vm k0, 1, 1⟩] := by
      rw [htrdef, hlocs, hk0]
      rfl
    have hv0 : mapGet vm e0.1 = some e0.2 := hentsv e0 he0m
    obtain ⟨r1, r2, hleaf, hdata⟩ := hviews e0 he0m
    refine ⟨ld.2, llocOf C vm k0, ents, ?_, ?_, hentsk, hentsv⟩
    · rw [hEQ, htr]
      rfl
    · rw [he0, ← hk0e]
      have he00 : (e0.1, e0.2) = e0 := rfl
      rw [← he00]
      refine Trie.leaf _ e0.1 e0.2 r1 r2 0 (hentval e0 he0m) ?_ ?_ ?_
      · rw [← dlocOf_eq C vm e0.1 e0.2 hv0]
        exact hleaf
      · rw [← dlocOf_eq C vm e0.1 e0.2 hv0, ← encOf_eq C vm e0.1 e0.2 hv0]
        exact hdata
      · exact llocOf_eq C vm e0.1 e0.2 hv0
  · -- at least two pairs: the merge loop builds the tree
    have hsortedRefs : sortRefs treeRefs = treeRefs := by
      refine sortRefs_eq_self treeRefs ?_
      rw [htrdef, zipWith_ref_keys locs skeys hlocslen]
      exact hsksorted
    set A := treeRefs.toArray with hAdef
    have hAsize : A.size = skeys.length := by
      rw [hAdef]
      show treeRefs.toArray.size = _
      simp [hreflen]
    have hslot : ∀ j, j < skeys.length →
        A.getD j default = ⟨skeys.getD j [], llocOf C vm (skeys.getD j []),
          1, 1⟩ := by
      intro j hj
      rw [hAdef, toArray_getD, htrdef,
        zipWith_ref_getD locs skeys j hlocslen hj, hlocs,
        map_getD skeys (llocOf C vm) j hj ([] : Digest) ([] : Key)]
    have hgetDmem : ∀ j, j < skeys.length → skeys.getD j [] ∈ skeys := by
      intro j hj
      rw [List.getD_eq_getElem?_getD, List.getElem?_eq_getElem hj]
      exact List.getElem_mem hj
    have hqok : buildQueueGo C.keyLen A (A.size - 1) 0
        = .ok (adjQueue C.keyLen A (A.size - 1) 0) := by
      refine buildQueueGo_ok C.keyLen A (A.size - 1) 0 ?_
      intro j h0 hj
      rw [hAsize] at hj
      have hj1 : j + 1 < skeys.length := by omega
      rw [hslot j (by omega), hslot (j + 1) (by omega)]
      refine ⟨?_, ?_, ?_⟩
      · exact nodup_kf skeys hsknd j (j + 1) (by omega) hj1
      · exact (hskval _ (hgetDmem j (by omega))).1
      · exact (hskval _ (hgetDmem (j + 1) hj1)).1
    set q0 := adjQueue C.keyLen A (A.size - 1) 0 with hq0def
    have h2r : 2 ≤ treeRefs.length := by omega
    have hCT : createTree C ld.2 treeRefs
        = mergeLoop C ld.2 A (sortQueue q0) := by
      have := createTree_big_ok C ld.2 treeRefs h2r q0
        (by rw [hsortedRefs, ← hAdef]; exact hqok)
      rw [hsortedRefs, ← hAdef] at this
      exact this
    have hqperm : (sortQueue q0).Perm q0 := sortBy_perm _ _
    have hq0snd : q0.map Prod.snd = List.range' 0 (A.size - 1) :=
      adjQueue_snd _ _ _ _
    have hql : q0.length = A.size - 1 := by
      have := congrArg List.length hq0snd
      rw [List.length_map] at this
      simp at this
      exact this
    have hInv : MergeInv C ents ld.2 A (initSegs 0 ents.length)
        (sortQueue q0) := by
      refine ⟨?_, ?_, ?_, ?_, ?_, ?_, ?_, ?_⟩
      · rw [hAsize, hentlen]
      · have := initSegs_chain ents.length 0
        rw [Nat.zero_add] at this
        exact this
      · intro p hp
        obtain ⟨j, hj0, hjn, hpj⟩ := (initSegs_mem ents.length 0 p).mp hp
        rw [hpj]
        show SegOne C ld.2.view ents A j j
        have hjlen : j < ents.length := by omega
        obtain ⟨e, he⟩ : ∃ e, ents[j]? = some e :=
          ⟨ents.get ⟨j, hjlen⟩, List.getElem?_eq_getElem hjlen⟩
        have hem : e ∈ ents := List.mem_iff_getElem?.mpr ⟨j, he⟩
        have hkey : skeys.getD j [] = e.1 := hkfent j e he
        have hjsk : j < skeys.length := by omega
        have hslotj := hslot j hjsk
        rw [hkey] at hslotj
        refine ⟨?_, ?_, ?_, ⟨8 * C.keyLen, ?_, ?_, ?_⟩, ?_⟩
        · rw [hslotj]
          show 1 = j + 1 - j
          omega
        · rw [hslotj]
          show 1 = j + 1 - j
          omega
        · rw [hslotj]
          exact (ents_key_at ents j e he).symm
        · rw [hslotj]
          show Trie C ld.2.view (llocOf C vm e.1) (segEnts ents j j)
            (8 * C.keyLen)
          have hIL : (insertLeaves C vm db (ents.map Prod.fst)).2 = ld.2 := by
            rw [hentsk]
          obtain ⟨r1, r2, hlf, hdt⟩ := hviews e hem
          have := init_leaf_trie C ents vm db j e he (hentsv e hem) r1 r2
            (by rw [hIL]; exact hlf) (by rw [hIL]; exact hdt)
            (hentval e hem) (8 * C.keyLen)
          rw [hIL] at this
          exact this
        · intro h1
          rw [hentsk]
          show sB C.keyLen skeys (j - 1) < 8 * C.keyLen
          rw [sB_eq, show j - 1 + 1 = j from by omega]
          exact fdb_lt _ _ _ (valid_kf _ skeys hskval (j - 1) (by omega))
            (valid_kf _ skeys hskval j (by omega))
            (nodup_kf skeys hsknd (j - 1) j (by omega) (by omega))
        · intro h2
          rw [hentsk]
          show sB C.keyLen skeys j < 8 * C.keyLen
          rw [sB_eq]
          exact fdb_lt _ _ _ (valid_kf _ skeys hskval j (by omega))
            (valid_kf _ skeys hskval (j + 1) (by omega))
            (nodup_kf skeys hsknd j (j + 1) (by omega) (by omega))
        · intro h1 h2
          exact absurd h2 (by omega)
      · exact sortBy_sorted queueGe queueGe_total queueGe_trans q0
      · have hpm : ((sortQueue q0).map Prod.snd).Perm (q0.map Prod.snd) :=
          hqperm.map _
        rw [hq0snd] at hpm
        exact hpm.nodup_iff.mpr (List.nodup_range' 0 (A.size - 1))
      · intro m
        have hmeml : m ∈ (sortQueue q0).map Prod.snd ↔
            m ∈ List.range' 0 (A.size - 1) := by
          rw [← hq0snd]
          exact (hqperm.map _).mem_iff
        rw [hmeml, List.mem_range'_1, initSegs_interBounds]
        constructor <;> intro h <;> constructor <;> omega
      · intro p hp
        have hpq0 : p ∈ q0 := hqperm.mem_iff.mp hp
        obtain ⟨h1, h2, h3⟩ := adjQueue_mem C.keyLen A (A.size - 1) 0 p hpq0
        rw [hentsk]
        show p.1 = sB C.keyLen skeys p.2
        rw [sB_eq, h3, hslot p.2 (by omega), hslot (p.2 + 1) (by omega)]
        rfl
      · intro m hm1 hm2 p hp
        exfalso
        apply hm2
        rw [initSegs_interBounds]
        exact ⟨by omega, by omega⟩
    have hq0ne : sortQueue q0 ≠ [] := by
      intro hcon
      have hle := hqperm.length_eq
      rw [hcon] at hle
      simp only [List.length_nil] at hle
      rw [hql] at hle
      omega
    obtain ⟨db2, root, hml, htrie⟩ := mergeLoop_trie C ents hB (sortQueue q0)
      ld.2 A (initSegs 0 ents.length) hInv hq0ne
    refine ⟨db2, root, ents, ?_, htrie, hentsk, hentsv⟩
    rw [hEQ, hCT, hml]

/-! ## Correctness of the `get` descent over a trie -/

theorem trie_node {V : Type} (C : Ctx V) (h : Digest → Option TreeNode)
    (loc : Digest) (E : List (Key × V)) (pl : Nat) (hT : Trie C h loc E pl) :
    ∃ n, h loc = some n := by
  cases hT with
  | leaf loc k v r r' pl hk hn hd hloc => exact ⟨_, hn⟩
  | branch loc b r E0 E1 pl hn => exact ⟨_, hn⟩

/-- The invariant of one work item of `get`'s descent: the cell's location
roots a trie holding exactly the entries whose keys are the cell's key
slice (sorted, duplicate-free, all requested), and the cell's depth is at
most the trie's prefix level. -/
def CellInv {V : Type} (C : Ctx V) (db : DB) (sortedKeys : List Key)
    (p : TreeCell × List (Key × V)) : Prop :=
  ∃ pl, Trie C db.get_node p.1.location p.2 pl ∧
    db.get_node p.1.location = some p.1.node ∧
    p.1.keys ≠ [] ∧ SortedBy keyLe p.1.keys ∧ p.1.keys.Nodup ∧
    (∀ k, k ∈ p.1.keys ↔ k ∈ p.2.map Prod.fst) ∧
    (∀ k ∈ p.1.keys, k ∈ sortedKeys) ∧
    p.1.depth ≤ pl ∧ pl ≤ 8 * C.keyLen

/-- The termination measure of the descent: splitting a cell into its two
children strictly decreases it. -/
def cellsMeasure {V : Type} (C : Ctx V) (cells : List TreeCell) : Nat :=
  (cells.map (fun c => 3 ^ (C.depth + 1 - c.depth))).sum

theorem getLoop_cons {V : Type} (C : Ctx V) (db : DB) (sortedKeys : List Key)
    (fuel : Nat) (cell : TreeCell) (cells : List TreeCell)
    (lm : List (Key × Option V)) :
    getLoop C db sortedKeys (fuel + 1) (cell :: cells) lm =
      if cell.depth > C.depth then .error .depthExceeded
      else
        match cell.node.variant with
        | .branch b =>
          let minSplit := calcMinSplitIndex C.keyLen cell.keys b.key
          let descendants :=
            checkDescendants C.keyLen cell.keys b.split_index b.key minSplit
          if descendants = [] then getLoop C db sortedKeys fuel cells lm
          else
            let zo := splitPairs descendants b.split_index
            let cells1 :=
              match db.get_node b.one with
              | some oneNode =>
                  if zo.2 = [] then cells
                  else ⟨b.one, zo.2, oneNode, cell.depth + 1⟩ :: cells
              | none => cells
            let cells2 :=
              match db.get_node b.zero with
              | some zeroNode =>
                  if zo.1 = [] then cells1
                  else ⟨b.zero, zo.1, zeroNode, cell.depth + 1⟩ :: cells1
              | none => cells1
            getLoop C db sortedKeys fuel cells2 lm
        | .leaf l =>
          match db.get_node l.data with
          | some dn =>
            match dn.variant with
            | .data d =>
              match C.dec d.value with
              | some v =>
                let lm' :=
                  if sortedKeys.contains l.key then mapPut lm l.key (some v)
                  else lm
                getLoop C db sortedKeys fuel cells lm'
              | none => .error .codec
            | _ => .error .corrupt
          | none => .error .corrupt
        | .data _ => .error .corrupt := rfl

theorem cellsMeasure_cons {V : Type} (C : Ctx V) (c : TreeCell)
    (cs : List TreeCell) :
    cellsMeasure C (c :: cs) = 3 ^ (C.depth + 1 - c.depth) + cellsMeasure C cs
    := rfl

set_option maxHeartbeats 2000000 in
/-- `get`'s descent loop, run on a stack of cells rooting disjoint tries of
the requested keys, succeeds and answers exactly the tries' bindings,
leaving every other key's answer untouched. -/
theorem getLoop_trie {V : Type} (C : Ctx V) (db : DB) (sortedKeys : List Key)
    (hdec : ∀ v : V, C.dec (C.enc v) = some v)
    (hKD : 8 * C.keyLen ≤ C.depth) :
    ∀ (fuel : Nat) (cs : List (TreeCell × List (Key × V)))
      (lm : List (Key × Option V)),
      cellsMeasure C (cs.map Prod.fst) < fuel →
      (∀ p ∈ cs, CellInv C db sortedKeys p) →
      List.Pairwise (fun p q => ∀ x ∈ p.1.keys, x ∉ q.1.keys) cs →
      ∃ lm', getLoop C db sortedKeys fuel (cs.map Prod.fst) lm = .ok lm' ∧
        (∀ k v, (∃ p ∈ cs, (k, v) ∈ p.2) → mapGet lm' k = some (some v)) ∧
        (∀ k, (∀ p ∈ cs, k ∉ p.1.keys) → mapGet lm' k = mapGet lm k) := by
  intro fuel
  induction fuel with
  | zero =>
      intro cs lm hm
      omega
  | succ f ih =>
      intro cs lm hm hinv hdisj
      cases cs with
      | nil =>
          refine ⟨lm, rfl, ?_, ?_⟩
          · intro k v ⟨p, hp, _⟩
            exact absurd hp (List.not_mem_nil _)
          · intro k _
            rfl
      | cons pc rest =>
          obtain ⟨cell, E⟩ := pc
          have hCI : ∃ pl, Trie C db.get_node cell.location E pl ∧
              db.get_node cell.location = some cell.node ∧ cell.keys ≠ [] ∧
              SortedBy keyLe cell.keys ∧ cell.keys.Nodup ∧
              (∀ k, k ∈ cell.keys ↔ k ∈ E.map Prod.fst) ∧
              (∀ k ∈ cell.keys, k ∈ sortedKeys) ∧ cell.depth ≤ pl ∧
              pl ≤ 8 * C.keyLen := hinv _ (List.mem_cons_self _ _)
          obtain ⟨pl, hT, hnode, hkne, hksort, hknd, hkiff, hksub, hdpl, hpl8⟩ :=
            hCI
          have hdisj1 : ∀ q ∈ rest, ∀ x ∈ cell.keys, x ∉ q.1.keys :=
            (List.pairwise_cons.mp hdisj).1
          have hdisj2 := (List.pairwise_cons.mp hdisj).2
          have hdep : ¬ cell.depth > C.depth := by omega
          have hm' : 3 ^ (C.depth + 1 - cell.depth) +
              cellsMeasure C (rest.map Prod.fst) < f + 1 := hm
          clear hm
          have hpow1 : 0 < 3 ^ (C.depth + 1 - cell.depth) :=
            pow_pos (by omega) _
          cases hT with
          | leaf loc k v r r' pl hk hn hd hloc =>
              -- the cell is a leaf of the single binding (k, v)
              have hcn : cell.node
                  = ⟨r, .leaf ⟨k, dataHash C k (C.enc v)⟩⟩ :=
                Option.some.inj (hnode.symm.trans hn)
              have hkinc : k ∈ cell.keys := by
                rw [hkiff k]
                simp
              have hkeq : ∀ x ∈ cell.keys, x = k := by
                intro x hx
                have := (hkiff x).mp hx
                simp at this
                exact this
              have hcont : sortedKeys.contains k = true :=
                List.elem_eq_true_of_mem (hksub k hkinc)
              show ∃ lm', getLoop C db sortedKeys (f + 1)
                (cell :: rest.map Prod.fst) lm = .ok lm' ∧ _
              rw [getLoop_cons, if_neg hdep, hcn]
              dsimp only
              rw [hd]
              dsimp only
              rw [hdec v]
              dsimp only
              rw [if_pos hcont]
              obtain ⟨lm2, heq, hval2, hun2⟩ := ih rest (mapPut lm k (some v))
                (by omega) (fun p hp => hinv p (List.mem_cons_of_mem _ hp))
                hdisj2
              refine ⟨lm2, heq, ?_, ?_⟩
              · intro k0 v0 ⟨p, hp, hkv⟩
                rcases List.mem_cons.mp hp with hp | hp
                · rw [hp] at hkv
                  simp only [List.mem_singleton] at hkv
                  rw [Prod.mk.injEq] at hkv
                  obtain ⟨hk1, hk2⟩ := hkv
                  subst hk1
                  subst hk2
                  rw [hun2 k0 (fun q hq => hdisj1 q hq k0 hkinc)]
                  rw [mapGet_mapPut, if_pos rfl]
                · exact hval2 k0 v0 ⟨p, hp, hkv⟩
              · intro k0 hk0
                rw [hun2 k0 (fun q hq => hk0 q (List.mem_cons_of_mem _ hq))]
                rw [mapGet_mapPut,
                  if_neg (fun (h : k0 = k) =>
                    hk0 _ (List.mem_cons_self _ _) (by rw [h]; exact hkinc))]
          | branch loc b r E0 E1 pl hn hloc hplb hsK hcount h0 h1 hz ho hw
              hagree =>
              have hcn : cell.node = ⟨r, .branch b⟩ :=
                Option.some.inj (hnode.symm.trans hn)
              have hvalidE : ∀ e ∈ E0 ++ E1, ValidKey C.keyLen e.1 :=
                trie_valid_keys C db.get_node cell.location _ pl
                  (Trie.branch cell.location b r E0 E1 pl hn hloc hplb hsK
                    hcount h0 h1 hz ho hw hagree)
              obtain ⟨ew, hew, hewk⟩ := hw
              have hbkv : ValidKey C.keyLen b.key :=
                hewk ▸ hvalidE ew (List.mem_append_left _ hew)
              have hent : ∀ x ∈ cell.keys, ∃ e ∈ E0 ++ E1, e.1 = x := by
                intro x hx
                obtain ⟨e, he, hek⟩ := List.mem_map.mp ((hkiff x).mp hx)
                exact ⟨e, he, hek⟩
              have hgesp : ∀ x ∈ cell.keys,
                  b.split_index ≤ firstDiffBit C.keyLen x b.key := by
                intro x hx
                obtain ⟨e, he, hek⟩ := hent x hx
                refine fdb_ge_of_agree C.keyLen x b.key
                  (hek ▸ hvalidE e he) hbkv b.split_index (by omega) ?_
                intro t ht
                rw [← hek]
                exact hagree e he t ht
              have hdesc : checkDescendants C.keyLen cell.keys b.split_index
                  b.key (calcMinSplitIndex C.keyLen cell.keys b.key)
                  = cell.keys :=
                List.filter_eq_self.mpr
                  (fun x hx => decide_eq_true (hgesp x hx))
              have hagpair : cell.keys.Pairwise
                  (fun x y => chooseZero y b.split_index = true →
                    chooseZero x b.split_index = true) := by
                refine List.Pairwise.imp_of_mem ?_ hksort
                intro x y hx hy hxy hpy
                rcases hbx : chooseZero x b.split_index with hfalse | htrue
                · exfalso
                  obtain ⟨e1, he1, hek1⟩ := hent x hx
                  obtain ⟨e2, he2, hek2⟩ := hent y hy
                  have hagxy : ∀ t, t < b.split_index →
                      chooseZero x t = chooseZero y t := by
                    intro t ht
                    rw [← hek1, ← hek2, hagree e1 he1 t ht,
                      hagree e2 he2 t ht]
                  have hne : x ≠ y := by
                    intro hxey
                    rw [hxey, hpy] at hbx
                    exact Bool.noConfusion hbx
                  have hfd : firstDiffBit C.keyLen x y = b.split_index :=
                    fdb_eq_exact C.keyLen x y (hek1 ▸ hvalidE e1 he1)
                      (hek2 ▸ hvalidE e2 he2) b.split_index (by omega) hagxy
                      (by rw [hbx, hpy]; exact Bool.noConfusion)
                  have := (keyLe_bits C.keyLen x y (hek1 ▸ hvalidE e1 he1)
                    (hek2 ▸ hvalidE e2 he2) hne hxy).1
                  rw [hfd, hbx] at this
                  exact Bool.noConfusion this
                · exact rfl
              have hTW := takeWhile_filter
                (fun x => chooseZero x b.split_index) cell.keys hagpair
              have hzoiff1 : ∀ x,
                  x ∈ cell.keys.filter (fun x => chooseZero x b.split_index)
                    ↔ x ∈ E0.map Prod.fst := by
                intro x
                constructor
                · intro hx
                  obtain ⟨hx1, hx2⟩ := List.mem_filter.mp hx
                  obtain ⟨e, he, hek⟩ := hent x hx1
                  rcases List.mem_append.mp he with he | he
                  · rw [← hek]
                    exact List.mem_map_of_mem _ he
                  · have := ho e he
                    rw [hek, hx2] at this
                    exact Bool.noConfusion this
                · intro hx
                  obtain ⟨e, he, hek⟩ := List.mem_map.mp hx
                  refine List.mem_filter.mpr ⟨?_, ?_⟩
                  · rw [hkiff x, List.map_append]
                    exact List.mem_append_left _ hx
                  · rw [← hek]
                    exact hz e he
              have hzoiff2 : ∀ x,
                  x ∈ cell.keys.filter
                      (fun x => ! chooseZero x b.split_index)
                    ↔ x ∈ E1.map Prod.fst := by
                intro x
                constructor
                · intro hx
                  obtain ⟨hx1, hx2⟩ := List.mem_filter.mp hx
                  obtain ⟨e, he, hek⟩ := hent x hx1
                  rcases List.mem_append.mp he with he | he
                  · have := hz e he
                    rw [hek] at this
                    rw [this] at hx2
                    exact Bool.noConfusion hx2
                  · rw [← hek]
                    exact List.mem_map_of_mem _ he
                · intro hx
                  obtain ⟨e, he, hek⟩ := List.mem_map.mp hx
                  refine List.mem_filter.mpr ⟨?_, ?_⟩
                  · rw [hkiff x, List.map_append]
                    exact List.mem_append_right _ hx
                  · rw [← hek, ho e he]
                    rfl
              have hzo1ne : cell.keys.filter
                  (fun x => chooseZero x b.split_index) ≠ [] := by
                obtain ⟨e0, he0⟩ :=
                  List.exists_mem_of_ne_nil E0 (trie_ne_nil C _ _ _ _ h0)
                have := (hzoiff1 e0.1).mpr (List.mem_map_of_mem _ he0)
                exact List.ne_nil_of_mem this
              have hzo2ne : cell.keys.filter
                  (fun x => ! chooseZero x b.split_index) ≠ [] := by
                obtain ⟨e1, he1⟩ :=
                  List.exists_mem_of_ne_nil E1 (trie_ne_nil C _ _ _ _ h1)
                have := (hzoiff2 e1.1).mpr (List.mem_map_of_mem _ he1)
                exact List.ne_nil_of_mem this
              obtain ⟨nZ, hnZ⟩ := trie_node C db.get_node b.zero E0 _ h0
              obtain ⟨nO, hnO⟩ := trie_node C db.get_node b.one E1 _ h1
              show ∃ lm', getLoop C db sortedKeys (f + 1)
                (cell :: rest.map Prod.fst) lm = .ok lm' ∧ _
              rw [getLoop_cons, if_neg hdep, hcn]
              dsimp only
              rw [hdesc, if_neg hkne]
              have hsp : splitPairs cell.keys b.split_index
                  = (cell.keys.filter (fun x => chooseZero x b.split_index),
                     cell.keys.filter
                       (fun x => ! chooseZero x b.split_index)) := by
                show (cell.keys.takeWhile (fun k => chooseZero k b.split_index),
                    cell.keys.dropWhile (fun k => chooseZero k b.split_index))
                  = _
                rw [hTW.1, hTW.2]
              rw [hsp]
              dsimp only
              rw [hnZ, hnO]
              dsimp only
              rw [if_neg hzo1ne, if_neg hzo2ne]
              -- the two child cells
              set zc : TreeCell × List (Key × V) :=
                (⟨b.zero, cell.keys.filter (fun x => chooseZero x b.split_index),
                  nZ, cell.depth + 1⟩, E0) with hzc
              set oc : TreeCell × List (Key × V) :=
                (⟨b.one,
                  cell.keys.filter (fun x => ! chooseZero x b.split_index),
                  nO, cell.depth + 1⟩, E1) with hoc
              have hsubz : List.Sublist (cell.keys.filter
                  (fun x => chooseZero x b.split_index)) cell.keys :=
                List.filter_sublist _
              have hsubo : List.Sublist (cell.keys.filter
                  (fun x => ! chooseZero x b.split_index)) cell.keys :=
                List.filter_sublist _
              have hinvz : CellInv C db sortedKeys zc := by
                refine ⟨b.split_index + 1, h0, hnZ, hzo1ne,
                  hksort.sublist hsubz, hknd.sublist hsubz, hzoiff1,
                  fun x hx => hksub x (hsubz.subset hx),
                  (show cell.depth + 1 ≤ b.split_index + 1 by omega), by omega⟩
              have hinvo : CellInv C db sortedKeys oc := by
                refine ⟨b.split_index + 1, h1, hnO, hzo2ne,
                  hksort.sublist hsubo, hknd.sublist hsubo, hzoiff2,
                  fun x hx => hksub x (hsubo.subset hx),
                  (show cell.depth + 1 ≤ b.split_index + 1 by omega), by omega⟩
              have hdisjzo : ∀ x ∈ zc.1.keys, x ∉ oc.1.keys := by
                intro x hx hxo
                have h1' := (List.mem_filter.mp hx).2
                have h2' := (List.mem_filter.mp hxo).2
                rw [h1'] at h2'
                exact Bool.noConfusion h2'
              have hdisj' : List.Pairwise
                  (fun p q => ∀ x ∈ p.1.keys, x ∉ q.1.keys)
                  (zc :: oc :: rest) := by
                refine List.pairwise_cons.mpr ⟨?_, List.pairwise_cons.mpr
                  ⟨?_, hdisj2⟩⟩
                · intro q hq
                  rcases List.mem_cons.mp hq with hq | hq
                  · rw [hq]
                    exact hdisjzo
                  · intro x hx
                    exact hdisj1 q hq x (hsubz.subset hx)
                · intro q hq x hx
                  exact hdisj1 q hq x (hsubo.subset hx)
              have hmeas : cellsMeasure C ((zc :: oc :: rest).map Prod.fst)
                  < f := by
                show cellsMeasure C (zc.1 :: oc.1 :: rest.map Prod.fst) < f
                rw [cellsMeasure_cons, cellsMeasure_cons]
                have hdd : cell.depth ≤ C.depth := by omega
                have he1 : C.depth + 1 - (cell.depth + 1)
                    = C.depth - cell.depth := by omega
                have he2 : C.depth + 1 - cell.depth
                    = (C.depth - cell.depth) + 1 := by omega
                rw [he2, pow_succ] at hm'
                show 3 ^ (C.depth + 1 - (cell.depth + 1)) +
                  (3 ^ (C.depth + 1 - (cell.depth + 1)) +
                    cellsMeasure C (rest.map Prod.fst)) < f
                rw [he1]
                have hpow2 : 0 < 3 ^ (C.depth - cell.depth) :=
                  pow_pos (by omega) _
                omega
              obtain ⟨lm2, heq, hval2, hun2⟩ := ih (zc :: oc :: rest) lm hmeas
                (by
                  intro p hp
                  rcases List.mem_cons.mp hp with hp | hp
                  · rw [hp]; exact hinvz
                  · rcases List.mem_cons.mp hp with hp | hp
                    · rw [hp]; exact hinvo
                    · exact hinv p (List.mem_cons_of_mem _ hp))
                hdisj'
              refine ⟨lm2, heq, ?_, ?_⟩
              · intro k0 v0 ⟨p, hp, hkv⟩
                rcases List.mem_cons.mp hp with hp | hp
                · rw [hp] at hkv
                  rcases List.mem_append.mp hkv with hkv | hkv
                  · exact hval2 k0 v0 ⟨zc, List.mem_cons_self _ _, hkv⟩
                  · exact hval2 k0 v0
                      ⟨oc, List.mem_cons_of_mem _ (List.mem_cons_self _ _), hkv⟩
                · exact hval2 k0 v0
                    ⟨p, List.mem_cons_of_mem _ (List.mem_cons_of_mem _ hp), hkv⟩
              · intro k0 hk0
                refine hun2 k0 ?_
                intro q hq
                rcases List.mem_cons.mp hq with hq | hq
                · rw [hq]
                  intro hx
                  exact hk0 _ (List.mem_cons_self _ _) (hsubz.subset hx)
                · rcases List.mem_cons.mp hq with hq | hq
                  · rw [hq]
                    intro hx
                    exact hk0 _ (List.mem_cons_self _ _) (hsubo.subset hx)
                  · exact hk0 q (List.mem_cons_of_mem _ hq)

theorem get_trie {V : Type} (C : Ctx V) (db : DB) (root : Digest)
    (ents : List (Key × V)) (keys0 : List Key)
    (hdec : ∀ v : V, C.dec (C.enc v) = some v)
    (hKD : 8 * C.keyLen ≤ C.depth)
    (hT : Trie C db.get_node root ents 0)
    (hkeys : ents.map Prod.fst = sortKeys keys0)
    (hne : keys0 ≠ []) (hnd : keys0.Nodup) :
    ∃ lm, get C db root keys0 = .ok lm ∧
      (∀ e ∈ ents, mapGet lm e.1 = some (some e.2)) ∧
      (∀ k, k ∉ keys0 → mapGet lm k = none) := by
  have hskperm : (sortKeys keys0).Perm keys0 := sortKeys_perm keys0
  obtain ⟨rn, hrn⟩ := trie_node C db.get_node root ents 0 hT
  have hskne : sortKeys keys0 ≠ [] := by
    intro h
    rw [h] at hskperm
    exact hne hskperm.nil_eq.symm
  have hsknd : (sortKeys keys0).Nodup := hskperm.nodup_iff.mpr hnd
  have hcellinv : CellInv C db (sortKeys keys0)
      ((⟨root, sortKeys keys0, rn, 0⟩ : TreeCell), ents) := by
    refine ⟨0, hT, hrn, hskne, sortKeys_sorted keys0, hsknd, ?_,
      fun k hk => hk, Nat.le_refl 0, by omega⟩
    intro k
    rw [hkeys]
  have hmeas : cellsMeasure C
      ([((⟨root, sortKeys keys0, rn, 0⟩ : TreeCell), ents)].map Prod.fst)
      < descentFuel C := by
    show 3 ^ (C.depth + 1 - 0) + 0 < 3 ^ (C.depth + 1) + 1
    rw [Nat.sub_zero]
    omega
  obtain ⟨lm', heq, hval, hun⟩ := getLoop_trie C db (sortKeys keys0) hdec hKD
    (descentFuel C) [((⟨root, sortKeys keys0, rn, 0⟩ : TreeCell), ents)]
    (generateLeafMap keys0) hmeas
    (fun p hp => by
      rw [List.mem_singleton.mp hp]
      exact hcellinv)
    (List.pairwise_singleton _ _)
  refine ⟨lm', ?_, ?_, ?_⟩
  · show (if keys0 = [] then _ else _) = _
    rw [if_neg hne]
    show (match db.get_node root with
      | none => Except.ok (generateLeafMap keys0)
      | some rootNode => getLoop C db (sortKeys keys0) (descentFuel C)
          [⟨root, sortKeys keys0, rootNode, 0⟩] (generateLeafMap keys0)) = _
    rw [hrn]
    exact heq
  · intro e he
    exact hval e.1 e.2 ⟨_, List.mem_singleton_self _, he⟩
  · intro k hk
    have hk2 : k ∉ sortKeys keys0 := fun h => hk (hskperm.mem_iff.mp h)
    rw [hun k (fun p hp => by rw [List.mem_singleton.mp hp]; exact hk2)]
    rw [genLeafMap_get, if_neg hk]

end MerkleBit
